import Mathlib

/-!
Verification of the JSON validator (tokenizer + recursive-descent checker).

The Go source indexes strings by byte, so the input is modelled as a list of
bytes (`List Nat`, each entry the byte value).  Token values are built the way
Go builds them: each `string(rune)` conversion appends the code point as one
character, so token values are Lean `String`s.  The parser's nesting depth is a
Go `int`, modelled as `Int`.  The mutually recursive grammar rules are modelled
with a fuel parameter; termination is then a theorem (the canonical fuel is
provably sufficient and the result is fuel-independent beyond it).
-/

namespace JsonV

/-- Byte of the input at an index; Go code always guards the index, so the
default is never observable on guarded paths. -/
def byteAt (input : List Nat) (i : Nat) : Nat := input.getD i 0

/-- Go `string(rune(n))`: appends the code point `n`, or U+FFFD when `n` is not
a valid code point (surrogates), exactly as Go converts invalid runes. -/
def goRune (n : Nat) : Char :=
  if n.isValidChar then Char.ofNat n else Char.ofNat 0xFFFD

/-- Go `unicode.IsSpace` restricted to byte values (the scanner reads one byte
at a time): tab, newline, vertical tab, form feed, carriage return, space,
next-line (U+0085) and no-break space (U+00A0). -/
def isSpace (c : Nat) : Bool :=
  c == 9 || c == 10 || c == 11 || c == 12 || c == 13 || c == 32 || c == 133 || c == 160

/-- Go `unicode.IsDigit` restricted to byte values: the ASCII digits. -/
def isDigit (c : Nat) : Bool := 48 ≤ c && c ≤ 57

/-- Go `unicode.IsLetter` restricted to byte values: ASCII letters plus the
Latin-1 letters (ª, µ, º, À–Ö, Ø–ö, ø–ÿ). -/
def isLetter (c : Nat) : Bool :=
  (65 ≤ c && c ≤ 90) || (97 ≤ c && c ≤ 122) ||
  c == 170 || c == 181 || c == 186 ||
  (192 ≤ c && c ≤ 214) || (216 ≤ c && c ≤ 246) || (248 ≤ c && c ≤ 255)

/-- Hex value of one byte, checked in the source's order `0-9`, `a-f`, `A-F`. -/
def hexVal (c : Nat) : Option Nat :=
  if 48 ≤ c ∧ c ≤ 57 then some (c - 48)
  else if 97 ≤ c ∧ c ≤ 102 then some (c - 97 + 10)
  else if 65 ≤ c ∧ c ≤ 70 then some (c - 65 + 10)
  else none

/-- Uppercase hex digit character, for the `%02X` control-character message. -/
def hexDigitU (n : Nat) : Char :=
  if n < 10 then Char.ofNat (48 + n) else Char.ofNat (55 + n)

/-- Go `fmt.Sprintf "%02X"` for a byte below 0x100. -/
def hexByte2 (c : Nat) : String :=
  String.mk [hexDigitU (c / 16 % 16), hexDigitU (c % 16)]

inductive TokenType where
  | LEFT_BRACE | RIGHT_BRACE | LEFT_BRACKET | RIGHT_BRACKET
  | STRING | COLON | COMMA | TRUE | FALSE | NULL | NUMBER | EOF | INVALID
deriving DecidableEq, Repr

structure Token where
  type : TokenType
  value : String
  position : Nat
deriving DecidableEq, Repr

structure Tokenizer where
  input : List Nat
  position : Nat
deriving DecidableEq, Repr

def NewTokenizer (input : List Nat) : Tokenizer := ⟨input, 0⟩

/-- `NextChar` returns the current byte (as the rune Go forms from it) and
advances, or the sentinel 0 at end of input without advancing. -/
def NextChar (t : Tokenizer) : Nat × Tokenizer :=
  if t.position ≥ t.input.length then (0, t)
  else (byteAt t.input t.position, { t with position := t.position + 1 })

/-- Loop body of `skipWhitespace`; the countdown `n` is the loop variant
(remaining input length), so recursion is structural and kernel-reducible.
Whenever `t.input.length ≤ t.position + n` the countdown never runs out. -/
def skipWhitespaceF : Nat → Tokenizer → Tokenizer
  | 0, t => t
  | n + 1, t =>
    if t.position < t.input.length then
      if isSpace (byteAt t.input t.position) then
        skipWhitespaceF n { t with position := t.position + 1 }
      else t
    else t

/-- `skipWhitespace` advances past every byte accepted by `unicode.IsSpace`. -/
def skipWhitespace (t : Tokenizer) : Tokenizer :=
  skipWhitespaceF (t.input.length - t.position) t

/-- The escape-sequence switch of the string scanner: `p1` is the index of the
character after the backslash.  Returns the new accumulated value and cursor to
continue the loop with, or a final invalid token and cursor. -/
def handleEscape (input : List Nat) (p1 startPos : Nat) (result : String) :
    (String × Nat) ⊕ (Token × Nat) :=
  match byteAt input p1 with
  | 34 => .inl (result ++ "\"", p1 + 1)
  | 92 => .inl (result ++ "\\", p1 + 1)
  | 47 => .inl (result ++ "/", p1 + 1)
  | 98 => .inl (result ++ "\x08", p1 + 1)
  | 102 => .inl (result ++ "\x0c", p1 + 1)
  | 110 => .inl (result ++ "\n", p1 + 1)
  | 114 => .inl (result ++ "\x0d", p1 + 1)
  | 116 => .inl (result ++ "\t", p1 + 1)
  | 117 =>
    let p2 := p1 + 1
    if p2 + 3 ≥ input.length then
      .inr (⟨.INVALID, "incomplete unicode escape sequence", startPos⟩, p2)
    else
      -- Go ranges over the 4-byte substring; a non-hex byte (or any byte that
      -- starts a multi-byte rune, which is never hex) aborts with the same
      -- token and cursor, so a bytewise check is observationally identical.
      match hexVal (byteAt input p2), hexVal (byteAt input (p2 + 1)),
            hexVal (byteAt input (p2 + 2)), hexVal (byteAt input (p2 + 3)) with
      | some a, some b, some c, some d =>
          .inl (result.push (goRune (((a * 16 + b) * 16 + c) * 16 + d)), p2 + 4)
      | _, _, _, _ =>
          .inr (⟨.INVALID, "invalid hex digit in unicode escape", startPos⟩, p2)
  | nc =>
    .inr (⟨.INVALID, "invalid escape sequence \x27\\" ++ (goRune nc).toString ++ "\x27",
      startPos⟩, p1)

/-- The string-literal scanner loop, with the accumulated decoded value as an
explicit parameter (a local variable in the source) and the remaining input
length as structural countdown (the loop variant; with
`t.input.length ≤ t.position + n` it never runs out). -/
def parseStringTokenF : Nat → Tokenizer → Nat → String → Token × Tokenizer
  | 0, t, startPos, _ => (⟨.INVALID, "unterminated string", startPos⟩, t)
  | n + 1, t, startPos, result =>
    if t.position < t.input.length then
      let char := byteAt t.input t.position
      if char = 34 then
        (⟨.STRING, result, startPos⟩, { t with position := t.position + 1 })
      else if char = 92 then
        let p1 := t.position + 1
        if p1 ≥ t.input.length then
          (⟨.INVALID, "unterminated string", startPos⟩, { t with position := p1 })
        else
          match handleEscape t.input p1 startPos result with
          | .inl c => parseStringTokenF n { t with position := c.2 } startPos c.1
          | .inr r => (r.1, { t with position := r.2 })
      else if char < 32 then
        (⟨.INVALID, "unescaped control character (0x" ++ hexByte2 char ++ ") in string",
            startPos⟩, t)
      else
        parseStringTokenF n { t with position := t.position + 1 } startPos
          (result.push (goRune char))
    else
      (⟨.INVALID, "unterminated string", startPos⟩, t)

def parseStringToken (t : Tokenizer) (startPos : Nat) (result : String) :
    Token × Tokenizer :=
  parseStringTokenF (t.input.length - t.position) t startPos result

/-- The letter-consuming loop of the keyword scanner, with structural
countdown like `skipWhitespaceF`. -/
def readLettersF : Nat → Tokenizer → String → String × Tokenizer
  | 0, t, acc => (acc, t)
  | n + 1, t, acc =>
    if t.position < t.input.length then
      let c := byteAt t.input t.position
      if isLetter c then readLettersF n { t with position := t.position + 1 } (acc.push (goRune c))
      else (acc, t)
    else (acc, t)

def readLetters (t : Tokenizer) (acc : String) : String × Tokenizer :=
  readLettersF (t.input.length - t.position) t acc

def parseKeywordToken (t : Tokenizer) (startPos : Nat) (firstChar : Nat) :
    Token × Tokenizer :=
  let r := readLetters t (goRune firstChar).toString
  let keyword := r.1
  if keyword = "true" then (⟨.TRUE, keyword, startPos⟩, r.2)
  else if keyword = "false" then (⟨.FALSE, keyword, startPos⟩, r.2)
  else if keyword = "null" then (⟨.NULL, keyword, startPos⟩, r.2)
  else (⟨.INVALID, keyword, startPos⟩, r.2)

/-- The digit-consuming loop of the number scanner, with structural
countdown like `skipWhitespaceF`. -/
def readDigitsF : Nat → Tokenizer → String → String × Tokenizer
  | 0, t, acc => (acc, t)
  | n + 1, t, acc =>
    if t.position < t.input.length then
      let c := byteAt t.input t.position
      if isDigit c then readDigitsF n { t with position := t.position + 1 } (acc.push (goRune c))
      else (acc, t)
    else (acc, t)

def readDigits (t : Tokenizer) (acc : String) : String × Tokenizer :=
  readDigitsF (t.input.length - t.position) t acc

/-- Exponent part of the number scanner (the code after the fractional part). -/
def numberExp (t : Tokenizer) (startPos : Nat) (number : String) : Token × Tokenizer :=
  if t.position < t.input.length ∧
      (byteAt t.input t.position = 101 ∨ byteAt t.input t.position = 69) then
    let c := byteAt t.input t.position
    let number1 := number.push (goRune c)
    let t1 : Tokenizer := { t with position := t.position + 1 }
    let sgn :=
      if t1.position < t1.input.length ∧
          (byteAt t1.input t1.position = 43 ∨ byteAt t1.input t1.position = 45) then
        (number1.push (goRune (byteAt t1.input t1.position)),
          ({ t1 with position := t1.position + 1 } : Tokenizer))
      else (number1, t1)
    if sgn.2.position ≥ sgn.2.input.length ∨ ¬ isDigit (byteAt sgn.2.input sgn.2.position) then
      (⟨.INVALID, "expected digit in exponent", startPos⟩, sgn.2)
    else
      let r := readDigits sgn.2 sgn.1
      (⟨.NUMBER, r.1, startPos⟩, r.2)
  else
    (⟨.NUMBER, number, startPos⟩, t)

/-- Fractional part of the number scanner, continuing into the exponent part. -/
def numberFrac (t : Tokenizer) (startPos : Nat) (number : String) : Token × Tokenizer :=
  if t.position < t.input.length ∧ byteAt t.input t.position = 46 then
    let number1 := number.push (goRune 46)
    let t1 : Tokenizer := { t with position := t.position + 1 }
    if t1.position ≥ t1.input.length ∨ ¬ isDigit (byteAt t1.input t1.position) then
      (⟨.INVALID, "expected digit after decimal point", startPos⟩, t1)
    else
      let r := readDigits t1 number1
      numberExp r.2 startPos r.1
  else numberExp t startPos number

/-- Integer part of the number scanner: the leading-zero check, or the digit
run for a nonzero first digit. `firstChar` was already consumed. -/
def numberInt (t : Tokenizer) (startPos : Nat) (number : String) (firstChar : Nat) :
    Token × Tokenizer :=
  if firstChar = 48 then
    if t.position < t.input.length ∧ isDigit (byteAt t.input t.position) then
      (⟨.INVALID, "numbers cannot have leading zeros", startPos⟩, t)
    else numberFrac t startPos number
  else
    let r := readDigits t number
    numberFrac r.2 startPos r.1

def parseNumberToken (t : Tokenizer) (startPos : Nat) (firstChar : Nat) :
    Token × Tokenizer :=
  let number := (goRune firstChar).toString
  if firstChar = 45 then
    if t.position ≥ t.input.length then
      (⟨.INVALID, "incomplete number after \x27-\x27", startPos⟩, t)
    else
      let nc := byteAt t.input t.position
      if ¬ isDigit nc then
        (⟨.INVALID, "expected digit after \x27-\x27", startPos⟩, t)
      else
        numberInt { t with position := t.position + 1 } startPos
          (number.push (goRune nc)) nc
  else numberInt t startPos number firstChar

/-- `NextToken`: skip whitespace, remember the token position, read one rune
and dispatch exactly as the source's switch does. -/
def NextToken (t : Tokenizer) : Token × Tokenizer :=
  let t1 := skipWhitespace t
  let tokenPos := t1.position
  let nc := NextChar t1
  let t2 := nc.2
  match nc.1 with
  | 0 => (⟨.EOF, "", tokenPos⟩, t2)
  | 123 => (⟨.LEFT_BRACE, "\x7b", tokenPos⟩, t2)
  | 125 => (⟨.RIGHT_BRACE, "\x7d", tokenPos⟩, t2)
  | 91 => (⟨.LEFT_BRACKET, "[", tokenPos⟩, t2)
  | 93 => (⟨.RIGHT_BRACKET, "]", tokenPos⟩, t2)
  | 34 => parseStringToken t2 tokenPos ""
  | 58 => (⟨.COLON, ":", tokenPos⟩, t2)
  | 44 => (⟨.COMMA, ",", tokenPos⟩, t2)
  | 116 | 102 | 110 => parseKeywordToken t2 tokenPos (nc.1)
  | 45 | 48 | 49 | 50 | 51 | 52 | 53 | 54 | 55 | 56 | 57 =>
      parseNumberToken t2 tokenPos (nc.1)
  | char => (⟨.INVALID, (goRune char).toString, tokenPos⟩, t2)

/-- Checker state: tokenizer, one token of lookahead, a token counter, and the
nesting depth (a Go `int`). -/
structure Parser where
  tokenizer : Tokenizer
  currentToken : Token
  position : Nat
  depth : Int
deriving DecidableEq, Repr

def advance (p : Parser) : Parser :=
  let r := NextToken p.tokenizer
  { p with tokenizer := r.2, currentToken := r.1, position := p.position + 1 }

def NewParser (input : List Nat) : Parser :=
  advance { tokenizer := NewTokenizer input, currentToken := ⟨.LEFT_BRACE, "", 0⟩,
            position := 0, depth := 0 }

def maxNestingDepth : Int := 19

/-- Go's `fmt.Errorf("%s at position %d", ...)` shape shared by every error. -/
def fmtErr (msg : String) (pos : Nat) : String :=
  msg ++ " at position " ++ toString pos

/-- Result of a grammar rule: success, an error string, or fuel exhaustion
(a modelling artifact shown unreachable for the canonical fuel). -/
inductive PResult where
  | ok : PResult
  | err : String → PResult
  | fuelOut : PResult
deriving DecidableEq, Repr

mutual

def parseValue : Nat → Parser → PResult × Parser
  | 0, p => (.fuelOut, p)
  | Nat.succ fuel, p =>
    match p.currentToken.type with
    | .STRING | .TRUE | .FALSE | .NULL | .NUMBER => (.ok, advance p)
    | .LEFT_BRACE => parseObject fuel p
    | .LEFT_BRACKET => parseArray fuel p
    | .INVALID => (.err (fmtErr p.currentToken.value p.currentToken.position), p)
    | _ => (.err (fmtErr "expected value" p.currentToken.position), p)

def parseObject : Nat → Parser → PResult × Parser
  | 0, p => (.fuelOut, p)
  | Nat.succ fuel, p =>
    if p.currentToken.type ≠ .LEFT_BRACE then
      (.err (fmtErr "expected \x27\x7b\x27" p.currentToken.position), p)
    else
      -- depth++ then the ceiling check.  The deferred decrement is registered
      -- only after this check, so the depth-exceeded exit returns with the
      -- incremented counter still in place; every later exit decrements.
      let p1 : Parser := { p with depth := p.depth + 1 }
      if p1.depth > maxNestingDepth then
        (.err (fmtErr "maximum nesting depth of 19 exceeded" p1.currentToken.position), p1)
      else
        let r := parseObjectBody fuel (advance p1)
        (r.1, { r.2 with depth := r.2.depth - 1 })

def parseObjectBody : Nat → Parser → PResult × Parser
  | 0, p => (.fuelOut, p)
  | Nat.succ fuel, p =>
    if p.currentToken.type = .RIGHT_BRACE then (.ok, advance p)
    else
      match parseKeyValuePair fuel p with
      | (.ok, p1) => parseObjectLoop fuel p1
      | r => r

def parseObjectLoop : Nat → Parser → PResult × Parser
  | 0, p => (.fuelOut, p)
  | Nat.succ fuel, p =>
    if p.currentToken.type = .COMMA then
      let p1 := advance p
      if p1.currentToken.type = .RIGHT_BRACE then
        (.err (fmtErr "trailing comma is not allowed" p1.currentToken.position), p1)
      else
        match parseKeyValuePair fuel p1 with
        | (.ok, p2) => parseObjectLoop fuel p2
        | r => r
    else if p.currentToken.type = .RIGHT_BRACE then (.ok, advance p)
    else (.err (fmtErr "expected \x27\x7d\x27" p.currentToken.position), p)

def parseKeyValuePair : Nat → Parser → PResult × Parser
  | 0, p => (.fuelOut, p)
  | Nat.succ fuel, p =>
    if p.currentToken.type ≠ .STRING then
      (.err (fmtErr "expected string key" p.currentToken.position), p)
    else
      let p1 := advance p
      if p1.currentToken.type ≠ .COLON then
        (.err (fmtErr "expected \x27:\x27 after key" p1.currentToken.position), p1)
      else parseValue fuel (advance p1)

def parseArray : Nat → Parser → PResult × Parser
  | 0, p => (.fuelOut, p)
  | Nat.succ fuel, p =>
    if p.currentToken.type ≠ .LEFT_BRACKET then
      (.err (fmtErr "expected \x27[\x27" p.currentToken.position), p)
    else
      -- As in parseObject: the decrement is not registered on the
      -- depth-exceeded exit.
      let p1 : Parser := { p with depth := p.depth + 1 }
      if p1.depth > maxNestingDepth then
        (.err (fmtErr "maximum nesting depth of 19 exceeded" p1.currentToken.position), p1)
      else
        let r := parseArrayBody fuel (advance p1)
        (r.1, { r.2 with depth := r.2.depth - 1 })

def parseArrayBody : Nat → Parser → PResult × Parser
  | 0, p => (.fuelOut, p)
  | Nat.succ fuel, p =>
    if p.currentToken.type = .RIGHT_BRACKET then (.ok, advance p)
    else
      match parseValue fuel p with
      | (.ok, p1) => parseArrayLoop fuel p1
      | r => r

def parseArrayLoop : Nat → Parser → PResult × Parser
  | 0, p => (.fuelOut, p)
  | Nat.succ fuel, p =>
    if p.currentToken.type = .COMMA then
      let p1 := advance p
      if p1.currentToken.type = .RIGHT_BRACKET then
        (.err (fmtErr "trailing comma is not allowed" p1.currentToken.position), p1)
      else
        match parseValue fuel p1 with
        | (.ok, p2) => parseArrayLoop fuel p2
        | r => r
    else if p.currentToken.type = .RIGHT_BRACKET then (.ok, advance p)
    else (.err (fmtErr "expected \x27]\x27" p.currentToken.position), p)

end

/-- The top-level rule: object-open or array-open required first, then one
value, then end-of-input. -/
def ParseJSON (fuel : Nat) (p : Parser) : PResult × Parser :=
  if p.currentToken.type ≠ .LEFT_BRACE ∧ p.currentToken.type ≠ .LEFT_BRACKET then
    (.err (fmtErr "JSON must be an object or array" p.currentToken.position), p)
  else
    match parseValue fuel p with
    | (.ok, p1) =>
      if p1.currentToken.type ≠ .EOF then
        (.err (fmtErr "unexpected token after JSON" p1.currentToken.position), p1)
      else (.ok, p1)
    | r => r

/-- Fuel sufficient for any run on the given input (proved below). -/
def canonicalFuel (input : List Nat) : Nat := 8 * input.length + 100

def ValidateJSON (input : List Nat) : PResult :=
  (ParseJSON (canonicalFuel input) (NewParser input)).1

/-- Bytes of an ASCII string, for writing concrete inputs readably. -/
def asciiBytes (s : String) : List Nat := s.toList.map Char.toNat


/-- State of the scanner after the n-th repeated call to `NextToken` on a
fresh tokenizer over `input` (call number `n`, zero-based), with the token that
call returned. -/
def nthTokenState (input : List Nat) : Nat → Token × Tokenizer
  | 0 => NextToken (NewTokenizer input)
  | n + 1 => NextToken (nthTokenState input n).2

/-- Well-formed parser state: the scanner cursor is within the buffer. -/
def Wf (p : Parser) : Prop :=
  p.tokenizer.position ≤ p.tokenizer.input.length

/-- Termination measure for the grammar rules: remaining input, plus one when
the lookahead is not yet end-of-input. -/
def meas (p : Parser) : Nat :=
  2 * (p.tokenizer.input.length - p.tokenizer.position) +
    (if p.currentToken.type = .EOF then 0 else 1)

/-- Depth slack below the ceiling, for the fuel bound. -/
def slack (p : Parser) : Nat := (20 - p.depth).toNat

/-- Parser-state transition: the buffer is unchanged, and well-formedness and
the termination measure are preserved. -/
def PTrans (p q : Parser) : Prop :=
  q.tokenizer.input = p.tokenizer.input ∧ (Wf p → Wf q ∧ meas q ≤ meas p)

/-- Modelled from the spec: the zero-based offset in code points of a byte
position is the number of UTF-8 code points encoded by the bytes before it,
i.e. the count of non-continuation bytes (a continuation byte is 0x80-0xBF). -/
def cpLen (bytes : List Nat) : Nat :=
  bytes.countP (fun b => !(128 ≤ b && b < 192))

/-- Grammar nonterminals for token-level well-formed JSON, mirroring the
checker's rules: a value, a member (key:value), the comma-separated tails of
an object or array, and a whole object or array. -/
inductive GKind where
  | val | memb | mtail | etail | obj | arr
deriving DecidableEq

/-- Token-level JSON grammar with a nesting budget: `GD k d ts` says the token
list `ts` derives nonterminal `k` using at most `d` levels of object/array
nesting.  `mtail`/`etail` are the `(comma member/value)*` loop tails. -/
inductive GD : GKind → Nat → List Token → Prop where
  | str (d : Nat) (v : String) (pos : Nat) : GD .val d [⟨.STRING, v, pos⟩]
  | tru (d : Nat) (v : String) (pos : Nat) : GD .val d [⟨.TRUE, v, pos⟩]
  | fls (d : Nat) (v : String) (pos : Nat) : GD .val d [⟨.FALSE, v, pos⟩]
  | nul (d : Nat) (v : String) (pos : Nat) : GD .val d [⟨.NULL, v, pos⟩]
  | num (d : Nat) (v : String) (pos : Nat) : GD .val d [⟨.NUMBER, v, pos⟩]
  | obj_of (d : Nat) (ts : List Token) : GD .obj d ts → GD .val d ts
  | arr_of (d : Nat) (ts : List Token) : GD .arr d ts → GD .val d ts
  | memb (d : Nat) (k : String) (kp : Nat) (cv : String) (cp : Nat) (ts : List Token) :
      GD .val d ts → GD .memb d (⟨.STRING, k, kp⟩ :: ⟨.COLON, cv, cp⟩ :: ts)
  | mtail_nil (d : Nat) : GD .mtail d []
  | mtail_cons (d : Nat) (v : String) (p : Nat) (m rest : List Token) :
      GD .memb d m → GD .mtail d rest → GD .mtail d (⟨.COMMA, v, p⟩ :: m ++ rest)
  | etail_nil (d : Nat) : GD .etail d []
  | etail_cons (d : Nat) (v : String) (p : Nat) (e rest : List Token) :
      GD .val d e → GD .etail d rest → GD .etail d (⟨.COMMA, v, p⟩ :: e ++ rest)
  | obj_empty (d : Nat) (lv : String) (lp : Nat) (rv : String) (rp : Nat) :
      GD .obj (d + 1) [⟨.LEFT_BRACE, lv, lp⟩, ⟨.RIGHT_BRACE, rv, rp⟩]
  | obj_nonempty (d : Nat) (lv : String) (lp : Nat) (rv : String) (rp : Nat)
      (m rest : List Token) : GD .memb d m → GD .mtail d rest →
      GD .obj (d + 1) (⟨.LEFT_BRACE, lv, lp⟩ :: m ++ rest ++ [⟨.RIGHT_BRACE, rv, rp⟩])
  | arr_empty (d : Nat) (lv : String) (lp : Nat) (rv : String) (rp : Nat) :
      GD .arr (d + 1) [⟨.LEFT_BRACKET, lv, lp⟩, ⟨.RIGHT_BRACKET, rv, rp⟩]
  | arr_nonempty (d : Nat) (lv : String) (lp : Nat) (rv : String) (rp : Nat)
      (e rest : List Token) : GD .val d e → GD .etail d rest →
      GD .arr (d + 1) (⟨.LEFT_BRACKET, lv, lp⟩ :: e ++ rest ++ [⟨.RIGHT_BRACKET, rv, rp⟩])

/-- The scanner, at state `t` with lookahead `tk`, produces exactly the token
list `ts` and is then at state `t2` with lookahead `tE`. -/
inductive Feeds : Tokenizer → Token → List Token → Token → Tokenizer → Prop where
  | nil (t : Tokenizer) (tk : Token) : Feeds t tk [] tk t
  | cons (t : Tokenizer) (tk : Token) (ts : List Token) (tE : Token) (t2 : Tokenizer) :
      Feeds (NextToken t).2 (NextToken t).1 ts tE t2 →
      Feeds t tk (tk :: ts) tE t2

/-- Simulation relation for input extension by a NUL byte: parser states `p`
over `x` and `q` over `x ++ 0 :: s` at the same depth which are either in
lockstep within `x`, or both at the same end-of-input lookahead, or where the
`x`-side lookahead is an invalid token. -/
def SimR (x s : List Nat) (p q : Parser) : Prop :=
  p.tokenizer.input = x ∧ q.tokenizer.input = x ++ 0 :: s ∧ p.depth = q.depth ∧
  ((p.currentToken = q.currentToken ∧ p.tokenizer.position = q.tokenizer.position ∧
      p.tokenizer.position ≤ x.length) ∨
   (p.currentToken = q.currentToken ∧ p.currentToken.type = .EOF) ∨
   p.currentToken.type = .INVALID)

/-! ### Scanner state lemmas: the cursor is monotone and stays in bounds, and
the input buffer is immutable. -/

/-- Scanner-state transition: same buffer, cursor moved forward, staying in
bounds if it started in bounds. -/
def TState (a b : Tokenizer) : Prop :=
  b.input = a.input ∧ a.position ≤ b.position ∧
    (a.position ≤ a.input.length → b.position ≤ a.input.length)

theorem TState.rfl (a : Tokenizer) : TState a a :=
  ⟨Eq.refl _, Nat.le_refl _, fun h => h⟩

theorem TState.tcomp {a b c : Tokenizer} (hab : TState a b) (hbc : TState b c) :
    TState a c := by
  obtain ⟨h1, h2, h3⟩ := hab
  obtain ⟨g1, g2, g3⟩ := hbc
  refine ⟨g1.trans h1, h2.trans g2, fun h => ?_⟩
  have := h3 h
  have := g3 (by rw [h1]; omega)
  rw [h1] at this
  omega

theorem TState.step (a : Tokenizer) (p : Nat) (h1 : a.position ≤ p)
    (h2 : a.position ≤ a.input.length → p ≤ a.input.length) :
    TState a { a with position := p } :=
  ⟨Eq.refl _, h1, h2⟩

theorem skipWhitespaceF_ts : ∀ (n : Nat) (t : Tokenizer), TState t (skipWhitespaceF n t)
  | 0, t => TState.rfl t
  | n + 1, t => by
    rw [skipWhitespaceF]
    split
    next hlt =>
      split
      next hsp =>
        exact TState.tcomp (TState.step t (t.position + 1) (by omega) (by omega))
          (skipWhitespaceF_ts n _)
      next => exact TState.rfl t
    next => exact TState.rfl t

theorem skipWhitespace_ts (t : Tokenizer) : TState t (skipWhitespace t) :=
  skipWhitespaceF_ts _ t

theorem readLettersF_ts : ∀ (n : Nat) (t : Tokenizer) (acc : String),
    TState t (readLettersF n t acc).2
  | 0, t, _ => TState.rfl t
  | n + 1, t, acc => by
    rw [readLettersF]
    dsimp only
    split
    next hlt =>
      split
      next =>
        exact TState.tcomp (TState.step t (t.position + 1) (by omega) (by omega))
          (readLettersF_ts n _ _)
      next => exact TState.rfl t
    next => exact TState.rfl t

theorem readLetters_ts (t : Tokenizer) (acc : String) : TState t (readLetters t acc).2 :=
  readLettersF_ts _ t acc

theorem readDigitsF_ts : ∀ (n : Nat) (t : Tokenizer) (acc : String),
    TState t (readDigitsF n t acc).2
  | 0, t, _ => TState.rfl t
  | n + 1, t, acc => by
    rw [readDigitsF]
    dsimp only
    split
    next hlt =>
      split
      next =>
        exact TState.tcomp (TState.step t (t.position + 1) (by omega) (by omega))
          (readDigitsF_ts n _ _)
      next => exact TState.rfl t
    next => exact TState.rfl t

theorem readDigits_ts (t : Tokenizer) (acc : String) : TState t (readDigits t acc).2 :=
  readDigitsF_ts _ t acc

theorem handleEscape_inl (input : List Nat) (p1 sp : Nat) (res : String)
    (c : String × Nat) (hp : p1 < input.length)
    (h : handleEscape input p1 sp res = .inl c) : p1 < c.2 ∧ c.2 ≤ input.length := by
  simp only [handleEscape] at h
  repeat' (split at h)
  all_goals cases h
  all_goals first
    | omega
    | (dsimp only; omega)

theorem handleEscape_inr (input : List Nat) (p1 sp : Nat) (res : String)
    (r : Token × Nat) (hp : p1 < input.length)
    (h : handleEscape input p1 sp res = .inr r) : p1 ≤ r.2 ∧ r.2 ≤ input.length := by
  simp only [handleEscape] at h
  repeat' (split at h)
  all_goals cases h
  all_goals first
    | omega
    | (dsimp only; omega)

theorem parseStringTokenF_ts : ∀ (n : Nat) (t : Tokenizer) (sp : Nat) (res : String),
    TState t (parseStringTokenF n t sp res).2
  | 0, t, _, _ => TState.rfl t
  | n + 1, t, sp, res => by
    rw [parseStringTokenF]
    dsimp only
    split
    next hlt =>
      split
      next => exact TState.step t (t.position + 1) (by omega) (by omega)
      next =>
        split
        next =>
          split
          next h2 => exact TState.step t (t.position + 1) (by omega) (by omega)
          next h2 =>
            split
            next c heq =>
              have hb := handleEscape_inl t.input (t.position + 1) sp res c (by omega) heq
              exact TState.tcomp (TState.step t c.2 (by omega) (by omega))
                (parseStringTokenF_ts n _ sp c.1)
            next r heq =>
              have hb := handleEscape_inr t.input (t.position + 1) sp res r (by omega) heq
              exact TState.step t r.2 (by omega) (by omega)
        next =>
          split
          next => exact TState.rfl t
          next =>
            exact TState.tcomp (TState.step t (t.position + 1) (by omega) (by omega))
              (parseStringTokenF_ts n _ sp _)
    next => exact TState.rfl t

theorem parseStringToken_ts (t : Tokenizer) (sp : Nat) (res : String) :
    TState t (parseStringToken t sp res).2 :=
  parseStringTokenF_ts _ t sp res

theorem numberExp_ts (t : Tokenizer) (sp : Nat) (num : String) :
    TState t (numberExp t sp num).2 := by
  unfold numberExp
  split
  next hc =>
    obtain ⟨hc1, _⟩ := hc
    (try dsimp only)
    split
    next hs =>
      obtain ⟨hs1, _⟩ := hs
      (try dsimp only at hs1)
      split
      next hd => exact TState.step t (t.position + 1 + 1) (by omega) (by omega)
      next hd =>
        exact TState.tcomp (TState.step t (t.position + 1 + 1) (by omega) (by omega))
          (readDigits_ts _ _)
    next hs =>
      (try dsimp only)
      split
      next hd => exact TState.step t (t.position + 1) (by omega) (by omega)
      next hd =>
        exact TState.tcomp (TState.step t (t.position + 1) (by omega) (by omega))
          (readDigits_ts _ _)
  next => exact TState.rfl t

theorem numberFrac_ts (t : Tokenizer) (sp : Nat) (num : String) :
    TState t (numberFrac t sp num).2 := by
  unfold numberFrac
  split
  next hc =>
    obtain ⟨hc1, _⟩ := hc
    dsimp only
    split
    next hd => exact TState.step t (t.position + 1) (by omega) (by omega)
    next hd =>
      exact TState.tcomp (TState.step t (t.position + 1) (by omega) (by omega))
        (TState.tcomp (readDigits_ts _ _) (numberExp_ts _ _ _))
  next => exact numberExp_ts t sp num

theorem numberInt_ts (t : Tokenizer) (sp : Nat) (num : String) (fc : Nat) :
    TState t (numberInt t sp num fc).2 := by
  unfold numberInt
  split
  next =>
    split
    next => exact TState.rfl t
    next => exact numberFrac_ts t sp num
  next => exact TState.tcomp (readDigits_ts t num) (numberFrac_ts _ sp _)

theorem parseNumberToken_ts (t : Tokenizer) (sp : Nat) (fc : Nat) :
    TState t (parseNumberToken t sp fc).2 := by
  unfold parseNumberToken
  split
  next =>
    split
    next => exact TState.rfl t
    next hlen =>
      dsimp only
      split
      next => exact TState.rfl t
      next =>
        exact TState.tcomp (TState.step t (t.position + 1) (by omega) (by omega))
          (numberInt_ts _ sp _ _)
  next => exact numberInt_ts t sp _ fc

theorem parseKeywordToken_ts (t : Tokenizer) (sp : Nat) (fc : Nat) :
    TState t (parseKeywordToken t sp fc).2 := by
  unfold parseKeywordToken
  dsimp only
  split
  next => exact readLetters_ts t _
  next =>
    split
    next => exact readLetters_ts t _
    next =>
      split
      next => exact readLetters_ts t _
      next => exact readLetters_ts t _

theorem NextChar_end (t : Tokenizer) (h : t.input.length ≤ t.position) :
    NextChar t = (0, t) := by
  unfold NextChar
  rw [if_pos (by omega)]

theorem NextChar_mid (t : Tokenizer) (h : t.position < t.input.length) :
    NextChar t = (byteAt t.input t.position, { t with position := t.position + 1 }) := by
  unfold NextChar
  rw [if_neg (by omega)]

theorem NextChar_ts (t : Tokenizer) : TState t (NextChar t).2 := by
  unfold NextChar
  split
  next => exact TState.rfl t
  next h => exact TState.step t (t.position + 1) (by omega) (by omega)

theorem NextChar_fst_ne (t : Tokenizer) (h : (NextChar t).1 ≠ 0) :
    (NextChar t).2.position = t.position + 1 ∧ t.position < t.input.length := by
  by_cases hc : t.input.length ≤ t.position
  · rw [NextChar_end t hc] at h
    exact absurd rfl h
  · rw [NextChar_mid t (by omega)]
    exact ⟨rfl, by omega⟩

/-- `NextToken` preserves the buffer, never rewinds, stays in bounds, and
advances past at least one byte whenever it does not return end-of-input. -/
theorem NextToken_state (t : Tokenizer) :
    TState t (NextToken t).2 ∧
    ((NextToken t).1.type ≠ .EOF → t.position < (NextToken t).2.position) := by
  obtain ⟨hw1, hwm, hwb⟩ := skipWhitespace_ts t
  unfold NextToken
  dsimp only
  split
  next heq =>
    exact ⟨TState.tcomp (skipWhitespace_ts t) (NextChar_ts _), fun hne => absurd rfl hne⟩
  next heq =>
    have hnz := NextChar_fst_ne (skipWhitespace t) (by rw [heq]; simp)
    exact ⟨TState.tcomp (skipWhitespace_ts t) (NextChar_ts _), fun _ => by rw [hnz.1]; omega⟩
  next heq =>
    have hnz := NextChar_fst_ne (skipWhitespace t) (by rw [heq]; simp)
    exact ⟨TState.tcomp (skipWhitespace_ts t) (NextChar_ts _), fun _ => by rw [hnz.1]; omega⟩
  next heq =>
    have hnz := NextChar_fst_ne (skipWhitespace t) (by rw [heq]; simp)
    exact ⟨TState.tcomp (skipWhitespace_ts t) (NextChar_ts _), fun _ => by rw [hnz.1]; omega⟩
  next heq =>
    have hnz := NextChar_fst_ne (skipWhitespace t) (by rw [heq]; simp)
    exact ⟨TState.tcomp (skipWhitespace_ts t) (NextChar_ts _), fun _ => by rw [hnz.1]; omega⟩
  next heq =>
    have hnz := NextChar_fst_ne (skipWhitespace t) (by rw [heq]; simp)
    refine ⟨TState.tcomp (TState.tcomp (skipWhitespace_ts t) (NextChar_ts _))
      (parseStringToken_ts _ _ _), fun _ => ?_⟩
    obtain ⟨_, hm, _⟩ := parseStringToken_ts (NextChar (skipWhitespace t)).2
      (skipWhitespace t).position ""
    rw [hnz.1] at hm
    omega
  next heq =>
    have hnz := NextChar_fst_ne (skipWhitespace t) (by rw [heq]; simp)
    exact ⟨TState.tcomp (skipWhitespace_ts t) (NextChar_ts _), fun _ => by rw [hnz.1]; omega⟩
  next heq =>
    have hnz := NextChar_fst_ne (skipWhitespace t) (by rw [heq]; simp)
    exact ⟨TState.tcomp (skipWhitespace_ts t) (NextChar_ts _), fun _ => by rw [hnz.1]; omega⟩
  next heq =>
    have hnz := NextChar_fst_ne (skipWhitespace t) (by rw [heq]; simp)
    refine ⟨TState.tcomp (TState.tcomp (skipWhitespace_ts t) (NextChar_ts _))
      (parseKeywordToken_ts _ _ _), fun _ => ?_⟩
    obtain ⟨_, hm, _⟩ := parseKeywordToken_ts (NextChar (skipWhitespace t)).2
      (skipWhitespace t).position (NextChar (skipWhitespace t)).1
    rw [hnz.1] at hm
    omega
  next heq =>
    have hnz := NextChar_fst_ne (skipWhitespace t) (by rw [heq]; simp)
    refine ⟨TState.tcomp (TState.tcomp (skipWhitespace_ts t) (NextChar_ts _))
      (parseKeywordToken_ts _ _ _), fun _ => ?_⟩
    obtain ⟨_, hm, _⟩ := parseKeywordToken_ts (NextChar (skipWhitespace t)).2
      (skipWhitespace t).position (NextChar (skipWhitespace t)).1
    rw [hnz.1] at hm
    omega
  next heq =>
    have hnz := NextChar_fst_ne (skipWhitespace t) (by rw [heq]; simp)
    refine ⟨TState.tcomp (TState.tcomp (skipWhitespace_ts t) (NextChar_ts _))
      (parseKeywordToken_ts _ _ _), fun _ => ?_⟩
    obtain ⟨_, hm, _⟩ := parseKeywordToken_ts (NextChar (skipWhitespace t)).2
      (skipWhitespace t).position (NextChar (skipWhitespace t)).1
    rw [hnz.1] at hm
    omega
  next heq =>
    have hnz := NextChar_fst_ne (skipWhitespace t) (by rw [heq]; simp)
    refine ⟨TState.tcomp (TState.tcomp (skipWhitespace_ts t) (NextChar_ts _))
      (parseNumberToken_ts _ _ _), fun _ => ?_⟩
    obtain ⟨_, hm, _⟩ := parseNumberToken_ts (NextChar (skipWhitespace t)).2
      (skipWhitespace t).position (NextChar (skipWhitespace t)).1
    rw [hnz.1] at hm
    omega
  next heq =>
    have hnz := NextChar_fst_ne (skipWhitespace t) (by rw [heq]; simp)
    refine ⟨TState.tcomp (TState.tcomp (skipWhitespace_ts t) (NextChar_ts _))
      (parseNumberToken_ts _ _ _), fun _ => ?_⟩
    obtain ⟨_, hm, _⟩ := parseNumberToken_ts (NextChar (skipWhitespace t)).2
      (skipWhitespace t).position (NextChar (skipWhitespace t)).1
    rw [hnz.1] at hm
    omega
  next heq =>
    have hnz := NextChar_fst_ne (skipWhitespace t) (by rw [heq]; simp)
    refine ⟨TState.tcomp (TState.tcomp (skipWhitespace_ts t) (NextChar_ts _))
      (parseNumberToken_ts _ _ _), fun _ => ?_⟩
    obtain ⟨_, hm, _⟩ := parseNumberToken_ts (NextChar (skipWhitespace t)).2
      (skipWhitespace t).position (NextChar (skipWhitespace t)).1
    rw [hnz.1] at hm
    omega
  next heq =>
    have hnz := NextChar_fst_ne (skipWhitespace t) (by rw [heq]; simp)
    refine ⟨TState.tcomp (TState.tcomp (skipWhitespace_ts t) (NextChar_ts _))
      (parseNumberToken_ts _ _ _), fun _ => ?_⟩
    obtain ⟨_, hm, _⟩ := parseNumberToken_ts (NextChar (skipWhitespace t)).2
      (skipWhitespace t).position (NextChar (skipWhitespace t)).1
    rw [hnz.1] at hm
    omega
  next heq =>
    have hnz := NextChar_fst_ne (skipWhitespace t) (by rw [heq]; simp)
    refine ⟨TState.tcomp (TState.tcomp (skipWhitespace_ts t) (NextChar_ts _))
      (parseNumberToken_ts _ _ _), fun _ => ?_⟩
    obtain ⟨_, hm, _⟩ := parseNumberToken_ts (NextChar (skipWhitespace t)).2
      (skipWhitespace t).position (NextChar (skipWhitespace t)).1
    rw [hnz.1] at hm
    omega
  next heq =>
    have hnz := NextChar_fst_ne (skipWhitespace t) (by rw [heq]; simp)
    refine ⟨TState.tcomp (TState.tcomp (skipWhitespace_ts t) (NextChar_ts _))
      (parseNumberToken_ts _ _ _), fun _ => ?_⟩
    obtain ⟨_, hm, _⟩ := parseNumberToken_ts (NextChar (skipWhitespace t)).2
      (skipWhitespace t).position (NextChar (skipWhitespace t)).1
    rw [hnz.1] at hm
    omega
  next heq =>
    have hnz := NextChar_fst_ne (skipWhitespace t) (by rw [heq]; simp)
    refine ⟨TState.tcomp (TState.tcomp (skipWhitespace_ts t) (NextChar_ts _))
      (parseNumberToken_ts _ _ _), fun _ => ?_⟩
    obtain ⟨_, hm, _⟩ := parseNumberToken_ts (NextChar (skipWhitespace t)).2
      (skipWhitespace t).position (NextChar (skipWhitespace t)).1
    rw [hnz.1] at hm
    omega
  next heq =>
    have hnz := NextChar_fst_ne (skipWhitespace t) (by rw [heq]; simp)
    refine ⟨TState.tcomp (TState.tcomp (skipWhitespace_ts t) (NextChar_ts _))
      (parseNumberToken_ts _ _ _), fun _ => ?_⟩
    obtain ⟨_, hm, _⟩ := parseNumberToken_ts (NextChar (skipWhitespace t)).2
      (skipWhitespace t).position (NextChar (skipWhitespace t)).1
    rw [hnz.1] at hm
    omega
  next heq =>
    have hnz := NextChar_fst_ne (skipWhitespace t) (by rw [heq]; simp)
    refine ⟨TState.tcomp (TState.tcomp (skipWhitespace_ts t) (NextChar_ts _))
      (parseNumberToken_ts _ _ _), fun _ => ?_⟩
    obtain ⟨_, hm, _⟩ := parseNumberToken_ts (NextChar (skipWhitespace t)).2
      (skipWhitespace t).position (NextChar (skipWhitespace t)).1
    rw [hnz.1] at hm
    omega
  next heq =>
    have hnz := NextChar_fst_ne (skipWhitespace t) (by rw [heq]; simp)
    refine ⟨TState.tcomp (TState.tcomp (skipWhitespace_ts t) (NextChar_ts _))
      (parseNumberToken_ts _ _ _), fun _ => ?_⟩
    obtain ⟨_, hm, _⟩ := parseNumberToken_ts (NextChar (skipWhitespace t)).2
      (skipWhitespace t).position (NextChar (skipWhitespace t)).1
    rw [hnz.1] at hm
    omega
  next heq =>
    have hnz := NextChar_fst_ne (skipWhitespace t) (by rw [heq]; simp)
    refine ⟨TState.tcomp (TState.tcomp (skipWhitespace_ts t) (NextChar_ts _))
      (parseNumberToken_ts _ _ _), fun _ => ?_⟩
    obtain ⟨_, hm, _⟩ := parseNumberToken_ts (NextChar (skipWhitespace t)).2
      (skipWhitespace t).position (NextChar (skipWhitespace t)).1
    rw [hnz.1] at hm
    omega
  next =>
    have hnz := NextChar_fst_ne (skipWhitespace t) (by assumption)
    exact ⟨TState.tcomp (skipWhitespace_ts t) (NextChar_ts _), fun _ => by rw [hnz.1]; omega⟩

theorem NextToken_ts (t : Tokenizer) : TState t (NextToken t).2 :=
  (NextToken_state t).1


/-! ### End-of-input behaviour of the scanner -/

theorem parseStringTokenF_type : ∀ (n : Nat) (t : Tokenizer) (sp : Nat) (res : String),
    (parseStringTokenF n t sp res).1.type = .STRING ∨
    (parseStringTokenF n t sp res).1.type = .INVALID
  | 0, _, _, _ => Or.inr rfl
  | n + 1, t, sp, res => by
    rw [parseStringTokenF]
    dsimp only
    split
    next =>
      split
      next => exact Or.inl rfl
      next =>
        split
        next =>
          split
          next => exact Or.inr rfl
          next =>
            split
            next c _ => exact parseStringTokenF_type n _ sp c.1
            next r heq =>
              -- the escape switch only ever returns invalid tokens
              simp only [handleEscape] at heq
              repeat' (split at heq)
              all_goals cases heq
              all_goals exact Or.inr rfl
        next =>
          split
          next => exact Or.inr rfl
          next => exact parseStringTokenF_type n _ sp _
    next => exact Or.inr rfl

theorem numberExp_type (t : Tokenizer) (sp : Nat) (num : String) :
    (numberExp t sp num).1.type = .NUMBER ∨ (numberExp t sp num).1.type = .INVALID := by
  unfold numberExp
  split
  next =>
    (try dsimp only)
    split
    all_goals (try dsimp only)
    all_goals split
    all_goals first
      | exact Or.inl rfl
      | exact Or.inr rfl
  next => exact Or.inl rfl

theorem numberFrac_type (t : Tokenizer) (sp : Nat) (num : String) :
    (numberFrac t sp num).1.type = .NUMBER ∨ (numberFrac t sp num).1.type = .INVALID := by
  unfold numberFrac
  split
  next =>
    (try dsimp only)
    split
    next => exact Or.inr rfl
    next => exact numberExp_type _ _ _
  next => exact numberExp_type _ _ _

theorem numberInt_type (t : Tokenizer) (sp : Nat) (num : String) (fc : Nat) :
    (numberInt t sp num fc).1.type = .NUMBER ∨ (numberInt t sp num fc).1.type = .INVALID := by
  unfold numberInt
  split
  next =>
    split
    next => exact Or.inr rfl
    next => exact numberFrac_type _ _ _
  next => exact numberFrac_type _ _ _

theorem parseNumberToken_type (t : Tokenizer) (sp : Nat) (fc : Nat) :
    (parseNumberToken t sp fc).1.type = .NUMBER ∨
    (parseNumberToken t sp fc).1.type = .INVALID := by
  unfold parseNumberToken
  split
  next =>
    split
    next => exact Or.inr rfl
    next =>
      (try dsimp only)
      split
      next => exact Or.inr rfl
      next => exact numberInt_type _ _ _ _
  next => exact numberInt_type _ _ _ _

theorem parseKeywordToken_type (t : Tokenizer) (sp : Nat) (fc : Nat) :
    (parseKeywordToken t sp fc).1.type ≠ .EOF := by
  unfold parseKeywordToken
  dsimp only
  split
  next => exact fun h => nomatch h
  next =>
    split
    next => exact fun h => nomatch h
    next =>
      split
      next => exact fun h => nomatch h
      next => exact fun h => nomatch h

/-- Either `NextToken` hit the sentinel (end of input or a NUL byte) and
returned the end-of-input token without consuming further, or its token is not
end-of-input. -/
theorem NextToken_shape (t : Tokenizer) :
    ((NextChar (skipWhitespace t)).1 = 0 ∧
      NextToken t = (⟨.EOF, "", (skipWhitespace t).position⟩, (NextChar (skipWhitespace t)).2)) ∨
    (NextToken t).1.type ≠ .EOF := by
  unfold NextToken
  dsimp only
  split
  next heq => exact Or.inl ⟨heq, rfl⟩
  next heq => exact Or.inr (fun h => nomatch h)
  next heq => exact Or.inr (fun h => nomatch h)
  next heq => exact Or.inr (fun h => nomatch h)
  next heq => exact Or.inr (fun h => nomatch h)
  next heq =>
    refine Or.inr (fun h => ?_)
    rcases parseStringTokenF_type (t.input.length - (NextChar (skipWhitespace t)).2.position)
      (NextChar (skipWhitespace t)).2 (skipWhitespace t).position "" with ht | ht
    all_goals
      unfold parseStringToken at h
      rw [(skipWhitespace_ts t).1.symm, ((NextChar_ts (skipWhitespace t)).1).symm] at ht
    all_goals rw [h] at ht
    all_goals exact nomatch ht
  next heq => exact Or.inr (fun h => nomatch h)
  next heq => exact Or.inr (fun h => nomatch h)
  next heq => exact Or.inr (parseKeywordToken_type _ _ _)
  next heq => exact Or.inr (parseKeywordToken_type _ _ _)
  next heq => exact Or.inr (parseKeywordToken_type _ _ _)
  all_goals
    try (refine Or.inr (fun h => ?_)
         rcases parseNumberToken_type (NextChar (skipWhitespace t)).2
           (skipWhitespace t).position (NextChar (skipWhitespace t)).1 with ht | ht
         all_goals rw [h] at ht
         all_goals exact nomatch ht)
  next => exact Or.inr (fun h => nomatch h)

theorem byteAt_mem (input : List Nat) (i : Nat) (h : i < input.length) :
    byteAt input i ∈ input := by
  unfold byteAt
  rw [List.getD_eq_getElem input 0 h]
  exact List.getElem_mem h

/-- Once the cursor is at (or past) the end of the buffer, `NextToken` returns
the end-of-input token and leaves the scanner unchanged. -/
theorem NextToken_at_end (t : Tokenizer) (h : t.input.length ≤ t.position) :
    NextToken t = (⟨.EOF, "", t.position⟩, t) := by
  have hsw : skipWhitespace t = t := by
    unfold skipWhitespace
    have h0 : t.input.length - t.position = 0 := by omega
    rw [h0]
    rfl
  unfold NextToken
  dsimp only
  rw [hsw, NextChar_end t h]
  rfl

/-- On a buffer with no NUL byte, an end-of-input token means the cursor
reached the true end of the buffer. -/
theorem NextToken_eof_no_nul (t : Tokenizer) (hn : 0 ∉ t.input)
    (h : (NextToken t).1.type = .EOF) :
    t.input.length ≤ (NextToken t).2.position := by
  rcases NextToken_shape t with ⟨hz, heq⟩ | hne
  · obtain ⟨hw1, hwm, _⟩ := skipWhitespace_ts t
    by_cases hc : (skipWhitespace t).position < t.input.length
    · exfalso
      rw [NextChar_mid (skipWhitespace t) (by rw [hw1]; omega)] at hz
      dsimp only at hz
      rw [hw1] at hz
      exact hn (hz ▸ byteAt_mem t.input (skipWhitespace t).position hc)
    · rw [heq]
      dsimp only
      rw [NextChar_end (skipWhitespace t) (by rw [hw1]; omega)]
      dsimp only
      omega
  · exact absurd h hne

theorem nthTokenState_input (input : List Nat) : ∀ n : Nat,
    (nthTokenState input n).2.input = input
  | 0 => (NextToken_ts (NewTokenizer input)).1
  | n + 1 => by
    rw [nthTokenState]
    rw [(NextToken_ts (nthTokenState input n).2).1]
    exact nthTokenState_input input n

/-- With no NUL byte in the buffer, an end-of-input token leaves the cursor at
the true end of the buffer. -/
theorem nthTokenState_eof_end (input : List Nat) (hn : 0 ∉ input) (n : Nat)
    (h : (nthTokenState input n).1.type = .EOF) :
    input.length ≤ (nthTokenState input n).2.position := by
  cases n with
  | zero => exact NextToken_eof_no_nul (NewTokenizer input) hn h
  | succ n =>
    have hi := nthTokenState_input input n
    have := NextToken_eof_no_nul (nthTokenState input n).2 (by rw [hi]; exact hn) h
    rw [hi] at this
    exact this

/-- Amended idempotence at end of stream: on a buffer containing no NUL byte,
once a call to `NextToken` yields the end-of-input token, every later call
yields the end-of-input token as well. -/
theorem nthTokenState_eof_absorbing (input : List Nat) (hn : 0 ∉ input)
    (n m : Nat) (hnm : n ≤ m) (h : (nthTokenState input n).1.type = .EOF) :
    (nthTokenState input m).1.type = .EOF := by
  induction m with
  | zero =>
    have h0 : n = 0 := by omega
    exact h0 ▸ h
  | succ m ih =>
    rcases Nat.lt_or_ge n (m + 1) with hlt | hge
    · have hm := ih (by omega)
      have hend := nthTokenState_eof_end input hn m hm
      show (NextToken (nthTokenState input m).2).1.type = .EOF
      rw [NextToken_at_end _ (by rw [nthTokenState_input]; exact hend)]
    · have h1 : n = m + 1 := by omega
      exact h1 ▸ h

/-! ### Parser state lemmas -/

theorem advance_facts (p : Parser) (hw : Wf p) :
    Wf (advance p) ∧ (advance p).tokenizer.input = p.tokenizer.input ∧
    (advance p).depth = p.depth ∧ meas (advance p) ≤ meas p ∧
    (p.currentToken.type ≠ .EOF → meas (advance p) < meas p) := by
  obtain ⟨h1, h2, h3⟩ := NextToken_ts p.tokenizer
  have hstrict := (NextToken_state p.tokenizer).2
  unfold Wf at hw
  unfold advance Wf meas
  dsimp only
  have hb := h3 hw
  rw [h1]
  refine ⟨hb, rfl, rfl, ?_, ?_⟩
  · by_cases he' : (NextToken p.tokenizer).1.type = .EOF
    · rw [if_pos he']
      by_cases he : p.currentToken.type = .EOF
      · rw [if_pos he]; omega
      · rw [if_neg he]; omega
    · rw [if_neg he']
      have hs := hstrict he'
      by_cases he : p.currentToken.type = .EOF
      · rw [if_pos he]; omega
      · rw [if_neg he]; omega
  · intro hne
    rw [if_neg hne]
    by_cases he' : (NextToken p.tokenizer).1.type = .EOF
    · rw [if_pos he']; omega
    · rw [if_neg he']
      have hs := hstrict he'
      omega

/-- Depth bookkeeping of the grammar rules: every exit restores the nesting
depth, except that an error exit may leave the counter one above its entry
value: the depth-exceeded early return of `parseObject`/`parseArray` is taken
before the deferred decrement is registered, so that one exit leaks the
increment (and the leak propagates only inside error results). -/
theorem parse_depth : ∀ (fuel : Nat) (p : Parser),
    ((parseValue fuel p).2.depth = p.depth ∨
      ((∃ m, (parseValue fuel p).1 = .err m) ∧
        (parseValue fuel p).2.depth = p.depth + 1)) ∧
    ((parseObject fuel p).2.depth = p.depth ∨
      ((∃ m, (parseObject fuel p).1 = .err m) ∧
        (parseObject fuel p).2.depth = p.depth + 1)) ∧
    ((parseObjectBody fuel p).2.depth = p.depth ∨
      ((∃ m, (parseObjectBody fuel p).1 = .err m) ∧
        (parseObjectBody fuel p).2.depth = p.depth + 1)) ∧
    ((parseObjectLoop fuel p).2.depth = p.depth ∨
      ((∃ m, (parseObjectLoop fuel p).1 = .err m) ∧
        (parseObjectLoop fuel p).2.depth = p.depth + 1)) ∧
    ((parseKeyValuePair fuel p).2.depth = p.depth ∨
      ((∃ m, (parseKeyValuePair fuel p).1 = .err m) ∧
        (parseKeyValuePair fuel p).2.depth = p.depth + 1)) ∧
    ((parseArray fuel p).2.depth = p.depth ∨
      ((∃ m, (parseArray fuel p).1 = .err m) ∧
        (parseArray fuel p).2.depth = p.depth + 1)) ∧
    ((parseArrayBody fuel p).2.depth = p.depth ∨
      ((∃ m, (parseArrayBody fuel p).1 = .err m) ∧
        (parseArrayBody fuel p).2.depth = p.depth + 1)) ∧
    ((parseArrayLoop fuel p).2.depth = p.depth ∨
      ((∃ m, (parseArrayLoop fuel p).1 = .err m) ∧
        (parseArrayLoop fuel p).2.depth = p.depth + 1)) := by
  intro fuel
  induction fuel with
  | zero =>
    intro p
    exact ⟨Or.inl rfl, Or.inl rfl, Or.inl rfl, Or.inl rfl, Or.inl rfl, Or.inl rfl,
      Or.inl rfl, Or.inl rfl⟩
  | succ fuel ih =>
    intro p
    refine ⟨?_, ?_, ?_, ?_, ?_, ?_, ?_, ?_⟩
    · -- parseValue
      rw [parseValue]
      split
      all_goals try exact Or.inl rfl
      · exact (ih p).2.1
      · exact (ih p).2.2.2.2.2.1
    · -- parseObject
      rw [parseObject]
      split
      · exact Or.inl rfl
      · (try dsimp only)
        split
        · exact Or.inr ⟨⟨_, rfl⟩, rfl⟩
        · rcases hbody : parseObjectBody fuel (advance { p with depth := p.depth + 1 })
            with ⟨rb, pb⟩
          have hih := (ih (advance { p with depth := p.depth + 1 })).2.2.1
          rw [hbody] at hih
          (try dsimp only)
          rcases hih with h | ⟨⟨m, hm⟩, h⟩
          · left
            show pb.depth - 1 = p.depth
            rw [show pb.depth = (advance { p with depth := p.depth + 1 }).depth from h]
            show p.depth + 1 - 1 = p.depth
            omega
          · right
            refine ⟨⟨m, hm⟩, ?_⟩
            show pb.depth - 1 = p.depth + 1
            rw [show pb.depth = (advance { p with depth := p.depth + 1 }).depth + 1 from h]
            show p.depth + 1 + 1 - 1 = p.depth + 1
            omega
    · -- parseObjectBody
      rw [parseObjectBody]
      split
      · exact Or.inl rfl
      · split
        next p1 heq =>
          have h1 := (ih p).2.2.2.2.1
          rw [heq] at h1
          rcases h1 with h1 | ⟨⟨m, hm⟩, _⟩
          · rcases (ih p1).2.2.2.1 with h2 | ⟨hex, h2⟩
            · left
              rw [h2]
              exact h1
            · right
              refine ⟨hex, ?_⟩
              rw [h2, show p1.depth = p.depth from h1]
          · exact absurd hm (fun hc => nomatch hc)
        next =>
          exact (ih p).2.2.2.2.1
    · -- parseObjectLoop
      rw [parseObjectLoop]
      split
      · (try dsimp only)
        split
        · exact Or.inl rfl
        · split
          next p2 heq =>
            have h1 := (ih (advance p)).2.2.2.2.1
            rw [heq] at h1
            rcases h1 with h1 | ⟨⟨m, hm⟩, _⟩
            · rcases (ih p2).2.2.2.1 with h2 | ⟨hex, h2⟩
              · left
                rw [h2]
                exact h1
              · right
                refine ⟨hex, ?_⟩
                rw [h2, show p2.depth = p.depth from h1]
            · exact absurd hm (fun hc => nomatch hc)
          next =>
            exact (ih (advance p)).2.2.2.2.1
      · split
        · exact Or.inl rfl
        · exact Or.inl rfl
    · -- parseKeyValuePair
      rw [parseKeyValuePair]
      split
      · exact Or.inl rfl
      · (try dsimp only)
        split
        · exact Or.inl rfl
        · exact (ih (advance (advance p))).1
    · -- parseArray
      rw [parseArray]
      split
      · exact Or.inl rfl
      · (try dsimp only)
        split
        · exact Or.inr ⟨⟨_, rfl⟩, rfl⟩
        · rcases hbody : parseArrayBody fuel (advance { p with depth := p.depth + 1 })
            with ⟨rb, pb⟩
          have hih := (ih (advance { p with depth := p.depth + 1 })).2.2.2.2.2.2.1
          rw [hbody] at hih
          (try dsimp only)
          rcases hih with h | ⟨⟨m, hm⟩, h⟩
          · left
            show pb.depth - 1 = p.depth
            rw [show pb.depth = (advance { p with depth := p.depth + 1 }).depth from h]
            show p.depth + 1 - 1 = p.depth
            omega
          · right
            refine ⟨⟨m, hm⟩, ?_⟩
            show pb.depth - 1 = p.depth + 1
            rw [show pb.depth = (advance { p with depth := p.depth + 1 }).depth + 1 from h]
            show p.depth + 1 + 1 - 1 = p.depth + 1
            omega
    · -- parseArrayBody
      rw [parseArrayBody]
      split
      · exact Or.inl rfl
      · split
        next p1 heq =>
          have h1 := (ih p).1
          rw [heq] at h1
          rcases h1 with h1 | ⟨⟨m, hm⟩, _⟩
          · rcases (ih p1).2.2.2.2.2.2.2 with h2 | ⟨hex, h2⟩
            · left
              rw [h2]
              exact h1
            · right
              refine ⟨hex, ?_⟩
              rw [h2, show p1.depth = p.depth from h1]
          · exact absurd hm (fun hc => nomatch hc)
        next =>
          exact (ih p).1
    · -- parseArrayLoop
      rw [parseArrayLoop]
      split
      · (try dsimp only)
        split
        · exact Or.inl rfl
        · split
          next p2 heq =>
            have h1 := (ih (advance p)).1
            rw [heq] at h1
            rcases h1 with h1 | ⟨⟨m, hm⟩, _⟩
            · rcases (ih p2).2.2.2.2.2.2.2 with h2 | ⟨hex, h2⟩
              · left
                rw [h2]
                exact h1
              · right
                refine ⟨hex, ?_⟩
                rw [h2, show p2.depth = p.depth from h1]
            · exact absurd hm (fun hc => nomatch hc)
          next =>
            exact (ih (advance p)).1
      · split
        · exact Or.inl rfl
        · exact Or.inl rfl

/-- On a successful exit every rule restores the nesting depth: the leak of
the depth-exceeded early return is confined to error results. -/
theorem parse_depth_ok (fuel : Nat) (p : Parser) :
    ((parseValue fuel p).1 = .ok → (parseValue fuel p).2.depth = p.depth) ∧
    ((parseObject fuel p).1 = .ok → (parseObject fuel p).2.depth = p.depth) ∧
    ((parseObjectBody fuel p).1 = .ok → (parseObjectBody fuel p).2.depth = p.depth) ∧
    ((parseObjectLoop fuel p).1 = .ok → (parseObjectLoop fuel p).2.depth = p.depth) ∧
    ((parseKeyValuePair fuel p).1 = .ok → (parseKeyValuePair fuel p).2.depth = p.depth) ∧
    ((parseArray fuel p).1 = .ok → (parseArray fuel p).2.depth = p.depth) ∧
    ((parseArrayBody fuel p).1 = .ok → (parseArrayBody fuel p).2.depth = p.depth) ∧
    ((parseArrayLoop fuel p).1 = .ok → (parseArrayLoop fuel p).2.depth = p.depth) := by
  obtain ⟨h1, h2, h3, h4, h5, h6, h7, h8⟩ := parse_depth fuel p
  refine ⟨?_, ?_, ?_, ?_, ?_, ?_, ?_, ?_⟩
  · intro hok
    rcases h1 with h | ⟨⟨m, hm⟩, _⟩
    · exact h
    · rw [hok] at hm
      exact absurd hm (fun hc => nomatch hc)
  · intro hok
    rcases h2 with h | ⟨⟨m, hm⟩, _⟩
    · exact h
    · rw [hok] at hm
      exact absurd hm (fun hc => nomatch hc)
  · intro hok
    rcases h3 with h | ⟨⟨m, hm⟩, _⟩
    · exact h
    · rw [hok] at hm
      exact absurd hm (fun hc => nomatch hc)
  · intro hok
    rcases h4 with h | ⟨⟨m, hm⟩, _⟩
    · exact h
    · rw [hok] at hm
      exact absurd hm (fun hc => nomatch hc)
  · intro hok
    rcases h5 with h | ⟨⟨m, hm⟩, _⟩
    · exact h
    · rw [hok] at hm
      exact absurd hm (fun hc => nomatch hc)
  · intro hok
    rcases h6 with h | ⟨⟨m, hm⟩, _⟩
    · exact h
    · rw [hok] at hm
      exact absurd hm (fun hc => nomatch hc)
  · intro hok
    rcases h7 with h | ⟨⟨m, hm⟩, _⟩
    · exact h
    · rw [hok] at hm
      exact absurd hm (fun hc => nomatch hc)
  · intro hok
    rcases h8 with h | ⟨⟨m, hm⟩, _⟩
    · exact h
    · rw [hok] at hm
      exact absurd hm (fun hc => nomatch hc)

theorem PTrans.refl (p : Parser) : PTrans p p :=
  ⟨Eq.refl _, fun hw => ⟨hw, Nat.le_refl _⟩⟩

theorem PTrans.pcomp {p q r : Parser} (h1 : PTrans p q) (h2 : PTrans q r) :
    PTrans p r := by
  obtain ⟨ha, hb⟩ := h1
  obtain ⟨hc, hd⟩ := h2
  refine ⟨hc.trans ha, fun hw => ?_⟩
  obtain ⟨hw1, hm1⟩ := hb hw
  obtain ⟨hw2, hm2⟩ := hd hw1
  exact ⟨hw2, hm2.trans hm1⟩

theorem advance_pt (p : Parser) : PTrans p (advance p) :=
  ⟨(NextToken_ts p.tokenizer).1, fun hw => by
    obtain ⟨a, _, _, d, _⟩ := advance_facts p hw
    exact ⟨a, d⟩⟩

/-- Changing only the depth field is a trivial parser-state transition. -/
theorem depth_pt (p : Parser) (d : Int) : PTrans p { p with depth := d } :=
  ⟨Eq.refl _, fun hw => ⟨hw, Nat.le_refl _⟩⟩

/-- Every grammar rule preserves the buffer, well-formedness of the scanner
cursor, and never increases the termination measure. -/
theorem parse_ptrans : ∀ (fuel : Nat) (p : Parser),
    PTrans p (parseValue fuel p).2 ∧
    PTrans p (parseObject fuel p).2 ∧
    PTrans p (parseObjectBody fuel p).2 ∧
    PTrans p (parseObjectLoop fuel p).2 ∧
    PTrans p (parseKeyValuePair fuel p).2 ∧
    PTrans p (parseArray fuel p).2 ∧
    PTrans p (parseArrayBody fuel p).2 ∧
    PTrans p (parseArrayLoop fuel p).2 := by
  intro fuel
  induction fuel with
  | zero =>
    intro p
    exact ⟨PTrans.refl p, PTrans.refl p, PTrans.refl p, PTrans.refl p,
           PTrans.refl p, PTrans.refl p, PTrans.refl p, PTrans.refl p⟩
  | succ fuel ih =>
    intro p
    refine ⟨?_, ?_, ?_, ?_, ?_, ?_, ?_, ?_⟩
    · -- parseValue
      rw [parseValue]
      split
      all_goals try exact advance_pt p
      all_goals try exact PTrans.refl p
      · exact (ih p).2.1
      · exact (ih p).2.2.2.2.2.1
    · -- parseObject
      rw [parseObject]
      split
      · exact PTrans.refl p
      · (try dsimp only)
        split
        · exact PTrans.pcomp (depth_pt p (p.depth + 1)) (depth_pt _ _)
        · refine PTrans.pcomp ?_ (depth_pt _ _)
          exact PTrans.pcomp (depth_pt p (p.depth + 1))
            (PTrans.pcomp (advance_pt _) ((ih _).2.2.1))
    · -- parseObjectBody
      rw [parseObjectBody]
      split
      · exact advance_pt p
      · split
        next p1 heq =>
          have h1 : PTrans p (parseKeyValuePair fuel p).2 := (ih p).2.2.2.2.1
          rw [heq] at h1
          exact PTrans.pcomp h1 ((ih p1).2.2.2.1)
        next =>
          exact (ih p).2.2.2.2.1
    · -- parseObjectLoop
      rw [parseObjectLoop]
      split
      · (try dsimp only)
        split
        · exact advance_pt p
        · split
          next p2 heq =>
            have h1 : PTrans (advance p) (parseKeyValuePair fuel (advance p)).2 :=
              (ih (advance p)).2.2.2.2.1
            rw [heq] at h1
            exact PTrans.pcomp (advance_pt p) (PTrans.pcomp h1 ((ih p2).2.2.2.1))
          next =>
            exact PTrans.pcomp (advance_pt p) ((ih (advance p)).2.2.2.2.1)
      · split
        · exact advance_pt p
        · exact PTrans.refl p
    · -- parseKeyValuePair
      rw [parseKeyValuePair]
      split
      · exact PTrans.refl p
      · (try dsimp only)
        split
        · exact advance_pt p
        · exact PTrans.pcomp (advance_pt p)
            (PTrans.pcomp (advance_pt (advance p)) ((ih (advance (advance p))).1))
    · -- parseArray
      rw [parseArray]
      split
      · exact PTrans.refl p
      · (try dsimp only)
        split
        · exact PTrans.pcomp (depth_pt p (p.depth + 1)) (depth_pt _ _)
        · refine PTrans.pcomp ?_ (depth_pt _ _)
          exact PTrans.pcomp (depth_pt p (p.depth + 1))
            (PTrans.pcomp (advance_pt _) ((ih _).2.2.2.2.2.2.1))
    · -- parseArrayBody
      rw [parseArrayBody]
      split
      · exact advance_pt p
      · split
        next p1 heq =>
          have h1 : PTrans p (parseValue fuel p).2 := (ih p).1
          rw [heq] at h1
          exact PTrans.pcomp h1 ((ih p1).2.2.2.2.2.2.2)
        next =>
          exact (ih p).1
    · -- parseArrayLoop
      rw [parseArrayLoop]
      split
      · (try dsimp only)
        split
        · exact advance_pt p
        · split
          next p2 heq =>
            have h1 : PTrans (advance p) (parseValue fuel (advance p)).2 :=
              (ih (advance p)).1
            rw [heq] at h1
            exact PTrans.pcomp (advance_pt p) (PTrans.pcomp h1 ((ih p2).2.2.2.2.2.2.2))
          next =>
            exact PTrans.pcomp (advance_pt p) ((ih (advance p)).1)
      · split
        · exact advance_pt p
        · exact PTrans.refl p

theorem meas_depth (p : Parser) (d : Int) : meas { p with depth := d } = meas p :=
  Eq.refl _

theorem Wf_depth (p : Parser) (d : Int) : Wf { p with depth := d } ↔ Wf p :=
  Iff.rfl

/-- A successful object rule consumed at least its opening brace, so the
measure strictly decreases. -/
theorem parseObject_ok_meas (fuel : Nat) (p p' : Parser) (hw : Wf p)
    (h : parseObject fuel p = (.ok, p')) : meas p' < meas p := by
  cases fuel with
  | zero => simp [parseObject] at h
  | succ fuel =>
    rw [parseObject] at h
    split at h
    next => simp at h
    next hlb =>
      rw [not_not] at hlb
      (try dsimp only at h)
      split at h
      next => simp at h
      next =>
        injection h with h1 h2
        have hadv := advance_facts { p with depth := p.depth + 1 } hw
        have hpt := (parse_ptrans fuel (advance { p with depth := p.depth + 1 })).2.2.1
        obtain ⟨hpta, hptb⟩ := hpt
        obtain ⟨hw2, hm2⟩ := hptb hadv.1
        have hlt := hadv.2.2.2.2 (by
          show p.currentToken.type ≠ .EOF
          rw [hlb]
          exact fun hc => nomatch hc)
        rw [← h2]
        rw [meas_depth]
        rw [meas_depth (p := p) (d := p.depth + 1)] at hlt
        omega

theorem parseArray_ok_meas (fuel : Nat) (p p' : Parser) (hw : Wf p)
    (h : parseArray fuel p = (.ok, p')) : meas p' < meas p := by
  cases fuel with
  | zero => simp [parseArray] at h
  | succ fuel =>
    rw [parseArray] at h
    split at h
    next => simp at h
    next hlb =>
      rw [not_not] at hlb
      (try dsimp only at h)
      split at h
      next => simp at h
      next =>
        injection h with h1 h2
        have hadv := advance_facts { p with depth := p.depth + 1 } hw
        have hpt := (parse_ptrans fuel (advance { p with depth := p.depth + 1 })).2.2.2.2.2.2.1
        obtain ⟨hpta, hptb⟩ := hpt
        obtain ⟨hw2, hm2⟩ := hptb hadv.1
        have hlt := hadv.2.2.2.2 (by
          show p.currentToken.type ≠ .EOF
          rw [hlb]
          exact fun hc => nomatch hc)
        rw [← h2]
        rw [meas_depth]
        rw [meas_depth (p := p) (d := p.depth + 1)] at hlt
        omega

/-- A successful value rule consumed at least one token. -/
theorem parseValue_ok_meas (fuel : Nat) (p p' : Parser) (hw : Wf p)
    (h : parseValue fuel p = (.ok, p')) : meas p' < meas p := by
  cases fuel with
  | zero => simp [parseValue] at h
  | succ fuel =>
    rw [parseValue] at h
    split at h
    case h_6 => exact parseObject_ok_meas fuel p p' hw h
    case h_7 => exact parseArray_ok_meas fuel p p' hw h
    case h_8 => simp at h
    case h_9 => simp at h
    all_goals rename_i heq
    all_goals injection h with h1 h2
    all_goals rw [← h2]
    all_goals
      exact (advance_facts p hw).2.2.2.2 (by rw [heq]; exact fun hc => nomatch hc)

/-- A successful member rule consumed at least its key token. -/
theorem parseKeyValuePair_ok_meas (fuel : Nat) (p p' : Parser) (hw : Wf p)
    (h : parseKeyValuePair fuel p = (.ok, p')) : meas p' < meas p := by
  cases fuel with
  | zero => simp [parseKeyValuePair] at h
  | succ fuel =>
    rw [parseKeyValuePair] at h
    split at h
    next => simp at h
    next hs =>
      rw [not_not] at hs
      (try dsimp only at h)
      split at h
      next => simp at h
      next hc =>
        rw [not_not] at hc
        have ha1 := advance_facts p hw
        have ha2 := advance_facts (advance p) ha1.1
        have hpt := (parse_ptrans fuel (advance (advance p))).1
        obtain ⟨hpta, hptb⟩ := hpt
        obtain ⟨hw3, hm3⟩ := hptb ha2.1
        have hlt1 := ha1.2.2.2.2 (by rw [hs]; exact fun hx => nomatch hx)
        have heqp : (parseValue fuel (advance (advance p))).2 = p' := congrArg Prod.snd h
        rw [heqp] at hm3
        omega

/-- Results are fuel-independent: once a run finishes without exhausting the
fuel, any larger fuel gives the same result. -/
theorem parse_mono : ∀ (fuel fuel' : Nat), fuel ≤ fuel' → ∀ (p : Parser),
    ((parseValue fuel p).1 ≠ .fuelOut → parseValue fuel' p = parseValue fuel p) ∧
    ((parseObject fuel p).1 ≠ .fuelOut → parseObject fuel' p = parseObject fuel p) ∧
    ((parseObjectBody fuel p).1 ≠ .fuelOut →
      parseObjectBody fuel' p = parseObjectBody fuel p) ∧
    ((parseObjectLoop fuel p).1 ≠ .fuelOut →
      parseObjectLoop fuel' p = parseObjectLoop fuel p) ∧
    ((parseKeyValuePair fuel p).1 ≠ .fuelOut →
      parseKeyValuePair fuel' p = parseKeyValuePair fuel p) ∧
    ((parseArray fuel p).1 ≠ .fuelOut → parseArray fuel' p = parseArray fuel p) ∧
    ((parseArrayBody fuel p).1 ≠ .fuelOut →
      parseArrayBody fuel' p = parseArrayBody fuel p) ∧
    ((parseArrayLoop fuel p).1 ≠ .fuelOut →
      parseArrayLoop fuel' p = parseArrayLoop fuel p) := by
  intro fuel
  induction fuel with
  | zero =>
    intro fuel' _ p
    refine ⟨?_, ?_, ?_, ?_, ?_, ?_, ?_, ?_⟩
    all_goals exact fun hno => absurd rfl hno
  | succ fuel ih =>
    intro fuel' hle p
    obtain ⟨fuel'', rfl⟩ : ∃ k, fuel' = k + 1 := ⟨fuel' - 1, by omega⟩
    have hle'' : fuel ≤ fuel'' := by omega
    refine ⟨?_, ?_, ?_, ?_, ?_, ?_, ?_, ?_⟩
    · -- parseValue
      rw [parseValue, parseValue]
      split
      all_goals try exact fun _ => rfl
      · exact fun hno => (ih fuel'' hle'' p).2.1 hno
      · exact fun hno => (ih fuel'' hle'' p).2.2.2.2.2.1 hno
    · -- parseObject
      rw [parseObject, parseObject]
      split
      · exact fun _ => rfl
      · (try dsimp only)
        split
        · exact fun _ => rfl
        · intro hno
          (try dsimp only at hno)
          rw [(ih fuel'' hle'' _).2.2.1 hno]
    · -- parseObjectBody
      rw [parseObjectBody, parseObjectBody]
      split
      · exact fun _ => rfl
      · intro hno
        rcases hk : parseKeyValuePair fuel p with ⟨rk, pk⟩
        rw [hk] at hno
        have hkm : (parseKeyValuePair fuel p).1 ≠ .fuelOut → parseKeyValuePair fuel'' p = (rk, pk) := by
          intro hx
          rw [(ih fuel'' hle'' p).2.2.2.2.1 hx]
          exact hk
        rcases rk with _ | m | _
        · rw [hkm (by rw [hk]; exact fun hq => nomatch hq)]
          dsimp only at hno ⊢
          exact (ih fuel'' hle'' pk).2.2.2.1 hno
        · rw [hkm (by rw [hk]; exact fun hq => nomatch hq)]
        · exact absurd rfl hno
    · -- parseObjectLoop
      rw [parseObjectLoop, parseObjectLoop]
      split
      · (try dsimp only)
        split
        · exact fun _ => rfl
        · intro hno
          rcases hk : parseKeyValuePair fuel (advance p) with ⟨rk, pk⟩
          rw [hk] at hno
          have hkm : (parseKeyValuePair fuel (advance p)).1 ≠ .fuelOut →
              parseKeyValuePair fuel'' (advance p) = (rk, pk) := by
            intro hx
            rw [(ih fuel'' hle'' (advance p)).2.2.2.2.1 hx]
            exact hk
          rcases rk with _ | m | _
          · rw [hkm (by rw [hk]; exact fun hq => nomatch hq)]
            dsimp only at hno ⊢
            exact (ih fuel'' hle'' pk).2.2.2.1 hno
          · rw [hkm (by rw [hk]; exact fun hq => nomatch hq)]
          · exact absurd rfl hno
      · exact fun _ => rfl
    · -- parseKeyValuePair
      rw [parseKeyValuePair, parseKeyValuePair]
      split
      · exact fun _ => rfl
      · (try dsimp only)
        split
        · exact fun _ => rfl
        · exact fun hno => (ih fuel'' hle'' (advance (advance p))).1 hno
    · -- parseArray
      rw [parseArray, parseArray]
      split
      · exact fun _ => rfl
      · (try dsimp only)
        split
        · exact fun _ => rfl
        · intro hno
          (try dsimp only at hno)
          rw [(ih fuel'' hle'' _).2.2.2.2.2.2.1 hno]
    · -- parseArrayBody
      rw [parseArrayBody, parseArrayBody]
      split
      · exact fun _ => rfl
      · intro hno
        rcases hk : parseValue fuel p with ⟨rk, pk⟩
        rw [hk] at hno
        have hkm : (parseValue fuel p).1 ≠ .fuelOut → parseValue fuel'' p = (rk, pk) := by
          intro hx
          rw [(ih fuel'' hle'' p).1 hx]
          exact hk
        rcases rk with _ | m | _
        · rw [hkm (by rw [hk]; exact fun hq => nomatch hq)]
          dsimp only at hno ⊢
          exact (ih fuel'' hle'' pk).2.2.2.2.2.2.2 hno
        · rw [hkm (by rw [hk]; exact fun hq => nomatch hq)]
        · exact absurd rfl hno
    · -- parseArrayLoop
      rw [parseArrayLoop, parseArrayLoop]
      split
      · (try dsimp only)
        split
        · exact fun _ => rfl
        · intro hno
          rcases hk : parseValue fuel (advance p) with ⟨rk, pk⟩
          rw [hk] at hno
          have hkm : (parseValue fuel (advance p)).1 ≠ .fuelOut →
              parseValue fuel'' (advance p) = (rk, pk) := by
            intro hx
            rw [(ih fuel'' hle'' (advance p)).1 hx]
            exact hk
          rcases rk with _ | m | _
          · rw [hkm (by rw [hk]; exact fun hq => nomatch hq)]
            dsimp only at hno ⊢
            exact (ih fuel'' hle'' pk).2.2.2.2.2.2.2 hno
          · rw [hkm (by rw [hk]; exact fun hq => nomatch hq)]
          · exact absurd rfl hno
      · exact fun _ => rfl

/-- The stated fuel bounds are sufficient: no rule runs out of fuel.  The
bound combines the termination measure (scanner progress) with the remaining
depth slack, because one level of nesting costs a bounded number of calls. -/
theorem parse_fuel : ∀ (fuel : Nat) (p : Parser), Wf p → 0 ≤ p.depth →
    (4 * meas p + 4 * slack p + 10 ≤ fuel → (parseValue fuel p).1 ≠ .fuelOut) ∧
    (4 * meas p + 4 * slack p + 9 ≤ fuel → (parseObject fuel p).1 ≠ .fuelOut) ∧
    (4 * meas p + 4 * slack p + 4 ≤ fuel → (parseObjectBody fuel p).1 ≠ .fuelOut) ∧
    (4 * meas p + 4 * slack p + 1 ≤ fuel → (parseObjectLoop fuel p).1 ≠ .fuelOut) ∧
    (4 * meas p + 4 * slack p + 3 ≤ fuel → (parseKeyValuePair fuel p).1 ≠ .fuelOut) ∧
    (4 * meas p + 4 * slack p + 9 ≤ fuel → (parseArray fuel p).1 ≠ .fuelOut) ∧
    (4 * meas p + 4 * slack p + 11 ≤ fuel → (parseArrayBody fuel p).1 ≠ .fuelOut) ∧
    (4 * meas p + 4 * slack p + 7 ≤ fuel → (parseArrayLoop fuel p).1 ≠ .fuelOut) := by
  intro fuel
  induction fuel with
  | zero =>
    intro p _ _
    refine ⟨?_, ?_, ?_, ?_, ?_, ?_, ?_, ?_⟩
    all_goals intro hb
    all_goals omega
  | succ fuel ih =>
    intro p hw hd
    refine ⟨?_, ?_, ?_, ?_, ?_, ?_, ?_, ?_⟩
    · -- parseValue
      rw [parseValue]
      split
      all_goals try (intro _ hq; cases hq)
      · -- object
        rename_i heq
        intro hb
        exact (ih p hw hd).2.1 (by omega)
      · -- array
        rename_i heq
        intro hb
        exact (ih p hw hd).2.2.2.2.2.1 (by omega)
    · -- parseObject
      rw [parseObject]
      split
      · (intro _ hq; cases hq)
      · rename_i hlb
        rw [not_not] at hlb
        (try dsimp only)
        split
        · (intro _ hq; cases hq)
        · rename_i hdep
          intro hb
          have hwx : Wf { p with depth := p.depth + 1 } := hw
          have hadv := advance_facts { p with depth := p.depth + 1 } hwx
          have hstr := hadv.2.2.2.2 (by
            show p.currentToken.type ≠ .EOF
            rw [hlb]
            exact fun hx => nomatch hx)
          rw [meas_depth (p := p) (d := p.depth + 1)] at hstr
          have hdadv : (advance { p with depth := p.depth + 1 }).depth = p.depth + 1 := rfl
          have hq := (ih (advance { p with depth := p.depth + 1 }) hadv.1
            (by rw [hdadv]; omega)).2.2.1 (by
              simp only [slack] at hb ⊢
              rw [hdadv]
              omega)
          intro hcon
          exact hq hcon
    · -- parseObjectBody
      rw [parseObjectBody]
      split
      · (intro _ hq; cases hq)
      · intro hb
        rcases hk : parseKeyValuePair fuel p with ⟨rk, pk⟩
        have hkpt : PTrans p pk := by
          have := (parse_ptrans fuel p).2.2.2.2.1
          rw [hk] at this
          exact this
        rcases rk with _ | m | _
        · have hkd : pk.depth = p.depth := by
            have := (parse_depth_ok fuel p).2.2.2.2.1 (by rw [hk])
            rw [hk] at this
            exact this
          have hmlt := parseKeyValuePair_ok_meas fuel p pk hw hk
          have hsl : slack pk = slack p := by simp only [slack, hkd]
          exact (ih pk (hkpt.2 hw).1 (by omega)).2.2.2.1 (by rw [hsl]; omega)
        · (intro hq; cases hq)
        · exfalso
          have := (ih p hw hd).2.2.2.2.1 (by omega)
          rw [hk] at this
          exact this rfl
    · -- parseObjectLoop
      rw [parseObjectLoop]
      split
      · rename_i hcm
        (try dsimp only)
        split
        · (intro _ hq; cases hq)
        · intro hb
          have hadv := advance_facts p hw
          have hstr := hadv.2.2.2.2 (by rw [hcm]; exact fun hx => nomatch hx)
          rcases hk : parseKeyValuePair fuel (advance p) with ⟨rk, pk⟩
          have hkpt : PTrans (advance p) pk := by
            have := (parse_ptrans fuel (advance p)).2.2.2.2.1
            rw [hk] at this
            exact this
          rcases rk with _ | m | _
          · have hkd : pk.depth = p.depth := by
              have := (parse_depth_ok fuel (advance p)).2.2.2.2.1 (by rw [hk])
              rw [hk] at this
              rw [this]
              exact rfl
            have hmlt := parseKeyValuePair_ok_meas fuel (advance p) pk hadv.1 hk
            have hsl : slack pk = slack p := by simp only [slack, hkd]
            exact (ih pk (hkpt.2 hadv.1).1 (by omega)).2.2.2.1 (by rw [hsl]; omega)
          · (intro hq; cases hq)
          · exfalso
            have hda : (advance p).depth = p.depth := rfl
            have hsa : slack (advance p) = slack p := by simp only [slack, hda]
            have := (ih (advance p) hadv.1 (by rw [hda]; omega)).2.2.2.2.1
              (by rw [hsa]; omega)
            rw [hk] at this
            exact this rfl
      · split
        · (intro _ hq; cases hq)
        · (intro _ hq; cases hq)
    · -- parseKeyValuePair
      rw [parseKeyValuePair]
      split
      · (intro _ hq; cases hq)
      · rename_i hs
        rw [not_not] at hs
        (try dsimp only)
        split
        · (intro _ hq; cases hq)
        · rename_i hc
          rw [not_not] at hc
          intro hb
          have ha1 := advance_facts p hw
          have hstr1 := ha1.2.2.2.2 (by rw [hs]; exact fun hx => nomatch hx)
          have ha2 := advance_facts (advance p) ha1.1
          have hstr2 := ha2.2.2.2.2 (by rw [hc]; exact fun hx => nomatch hx)
          have hda : (advance (advance p)).depth = p.depth := rfl
          have hsa : slack (advance (advance p)) = slack p := by simp only [slack, hda]
          exact (ih (advance (advance p)) ha2.1 (by rw [hda]; omega)).1
            (by rw [hsa]; omega)
    · -- parseArray
      rw [parseArray]
      split
      · (intro _ hq; cases hq)
      · rename_i hlb
        rw [not_not] at hlb
        (try dsimp only)
        split
        · (intro _ hq; cases hq)
        · rename_i hdep
          intro hb
          have hwx : Wf { p with depth := p.depth + 1 } := hw
          have hadv := advance_facts { p with depth := p.depth + 1 } hwx
          have hstr := hadv.2.2.2.2 (by
            show p.currentToken.type ≠ .EOF
            rw [hlb]
            exact fun hx => nomatch hx)
          rw [meas_depth (p := p) (d := p.depth + 1)] at hstr
          have hdadv : (advance { p with depth := p.depth + 1 }).depth = p.depth + 1 := rfl
          have hq := (ih (advance { p with depth := p.depth + 1 }) hadv.1
            (by rw [hdadv]; omega)).2.2.2.2.2.2.1 (by
              simp only [slack] at hb ⊢
              rw [hdadv]
              omega)
          intro hcon
          exact hq hcon
    · -- parseArrayBody
      rw [parseArrayBody]
      split
      · (intro _ hq; cases hq)
      · intro hb
        rcases hk : parseValue fuel p with ⟨rk, pk⟩
        have hkpt : PTrans p pk := by
          have := (parse_ptrans fuel p).1
          rw [hk] at this
          exact this
        rcases rk with _ | m | _
        · have hkd : pk.depth = p.depth := by
            have := (parse_depth_ok fuel p).1 (by rw [hk])
            rw [hk] at this
            exact this
          have hmlt := parseValue_ok_meas fuel p pk hw hk
          have hsl : slack pk = slack p := by simp only [slack, hkd]
          exact (ih pk (hkpt.2 hw).1 (by omega)).2.2.2.2.2.2.2 (by rw [hsl]; omega)
        · (intro hq; cases hq)
        · exfalso
          have := (ih p hw hd).1 (by omega)
          rw [hk] at this
          exact this rfl
    · -- parseArrayLoop
      rw [parseArrayLoop]
      split
      · rename_i hcm
        (try dsimp only)
        split
        · (intro _ hq; cases hq)
        · intro hb
          have hadv := advance_facts p hw
          have hstr := hadv.2.2.2.2 (by rw [hcm]; exact fun hx => nomatch hx)
          rcases hk : parseValue fuel (advance p) with ⟨rk, pk⟩
          have hkpt : PTrans (advance p) pk := by
            have := (parse_ptrans fuel (advance p)).1
            rw [hk] at this
            exact this
          rcases rk with _ | m | _
          · have hkd : pk.depth = p.depth := by
              have := (parse_depth_ok fuel (advance p)).1 (by rw [hk])
              rw [hk] at this
              rw [this]
              exact rfl
            have hmlt := parseValue_ok_meas fuel (advance p) pk hadv.1 hk
            have hsl : slack pk = slack p := by simp only [slack, hkd]
            exact (ih pk (hkpt.2 hadv.1).1 (by omega)).2.2.2.2.2.2.2 (by rw [hsl]; omega)
          · (intro hq; cases hq)
          · exfalso
            have hda : (advance p).depth = p.depth := rfl
            have hsa : slack (advance p) = slack p := by simp only [slack, hda]
            have := (ih (advance p) hadv.1 (by rw [hda]; omega)).1 (by rw [hsa]; omega)
            rw [hk] at this
            exact this rfl
      · split
        · (intro _ hq; cases hq)
        · (intro _ hq; cases hq)

theorem NewParser_facts (input : List Nat) :
    Wf (NewParser input) ∧ (NewParser input).depth = 0 ∧
    (NewParser input).tokenizer.input = input ∧
    meas (NewParser input) ≤ 2 * input.length + 1 := by
  have hw0 : Wf (Parser.mk (NewTokenizer input) ⟨.LEFT_BRACE, "", 0⟩ 0 0) := Nat.zero_le _
  have h := advance_facts _ hw0
  refine ⟨h.1, rfl, h.2.1, ?_⟩
  have hle := h.2.2.2.1
  have hm0 : meas (Parser.mk (NewTokenizer input) ⟨.LEFT_BRACE, "", 0⟩ 0 0) =
      2 * input.length + 1 := by
    simp [meas, NewTokenizer]
  rw [hm0] at hle
  exact hle

theorem parseValue_canonical (input : List Nat) :
    (parseValue (canonicalFuel input) (NewParser input)).1 ≠ .fuelOut := by
  obtain ⟨hw, hd, hi, hm⟩ := NewParser_facts input
  refine (parse_fuel (canonicalFuel input) (NewParser input) hw (by rw [hd])).1 ?_
  have hsl : slack (NewParser input) = 20 := by simp [slack, hd]
  unfold canonicalFuel
  omega

/-- `ValidateJSON` never exhausts its canonical fuel. -/
theorem ValidateJSON_total (input : List Nat) : ValidateJSON input ≠ .fuelOut := by
  unfold ValidateJSON ParseJSON
  split
  next => exact fun hq => nomatch hq
  next =>
    rcases hk : parseValue (canonicalFuel input) (NewParser input) with ⟨rk, pk⟩
    rcases rk with _ | m | _
    · dsimp only
      split
      · exact fun hq => nomatch hq
      · exact fun hq => nomatch hq
    · exact fun hq => nomatch hq
    · exfalso
      have := parseValue_canonical input
      rw [hk] at this
      exact this rfl

/-- Beyond the canonical fuel, the result does not depend on the fuel: the
recursion genuinely terminates with this value. -/
theorem ParseJSON_fuel_indep (input : List Nat) (fuel : Nat)
    (h : canonicalFuel input ≤ fuel) :
    (ParseJSON fuel (NewParser input)).1 = ValidateJSON input := by
  unfold ValidateJSON ParseJSON
  rw [(parse_mono (canonicalFuel input) fuel h (NewParser input)).1
    (parseValue_canonical input)]

/-! ### Whitespace skipping characterization and token positions -/

theorem skipWhitespaceF_spec : ∀ (n : Nat) (t : Tokenizer),
    t.input.length ≤ t.position + n →
    (∀ i, t.position ≤ i → i < (skipWhitespaceF n t).position →
      isSpace (byteAt t.input i) = true) ∧
    ((skipWhitespaceF n t).position < t.input.length →
      isSpace (byteAt t.input (skipWhitespaceF n t).position) = false)
  | 0, t, hn => by
    refine ⟨fun i h1 h2 => absurd (Nat.lt_of_le_of_lt h1 h2) (Nat.lt_irrefl _), fun h => ?_⟩
    exact absurd h (by simp only [skipWhitespaceF]; omega)
  | n + 1, t, hn => by
    rw [skipWhitespaceF]
    split
    next hlt =>
      split
      next hsp =>
        obtain ⟨ih1, ih2⟩ := skipWhitespaceF_spec n { t with position := t.position + 1 }
          (by dsimp only; omega)
        have hmono := (skipWhitespaceF_ts n { t with position := t.position + 1 }).2.1
        dsimp only at ih1 ih2 hmono
        refine ⟨fun i h1 h2 => ?_, ih2⟩
        rcases Nat.eq_or_lt_of_le h1 with h1 | h1
        · rw [← h1]; exact hsp
        · exact ih1 i h1 h2
      next hsp =>
        refine ⟨fun i h1 h2 => absurd (Nat.lt_of_le_of_lt h1 h2) (Nat.lt_irrefl _),
          fun _ => ?_⟩
        simp only [Bool.not_eq_true] at hsp
        exact hsp
    next hge =>
      exact ⟨fun i h1 h2 => absurd (Nat.lt_of_le_of_lt h1 h2) (Nat.lt_irrefl _),
        fun h => absurd h (by omega)⟩

/-- The scanner skips exactly the bytes accepted by `isSpace` before a token:
every skipped byte is whitespace and the byte it stops on is not. -/
theorem skipWhitespace_spec (t : Tokenizer) :
    (∀ i, t.position ≤ i → i < (skipWhitespace t).position →
      isSpace (byteAt t.input i) = true) ∧
    ((skipWhitespace t).position < t.input.length →
      isSpace (byteAt t.input (skipWhitespace t).position) = false) :=
  skipWhitespaceF_spec _ t (by omega)

/-- The byte set Go's `unicode.IsSpace` accepts for one-byte reads. -/
theorem isSpace_iff (c : Nat) : isSpace c = true ↔
    c = 9 ∨ c = 10 ∨ c = 11 ∨ c = 12 ∨ c = 13 ∨ c = 32 ∨ c = 133 ∨ c = 160 := by
  simp [isSpace]
  omega

theorem parseStringTokenF_pos : ∀ (n : Nat) (t : Tokenizer) (sp : Nat) (res : String),
    (parseStringTokenF n t sp res).1.position = sp
  | 0, _, _, _ => rfl
  | n + 1, t, sp, res => by
    rw [parseStringTokenF]
    dsimp only
    split
    next =>
      split
      next => rfl
      next =>
        split
        next =>
          split
          next => rfl
          next =>
            split
            next c _ => exact parseStringTokenF_pos n _ sp c.1
            next r heq =>
              simp only [handleEscape] at heq
              repeat' (split at heq)
              all_goals cases heq
              all_goals rfl
        next =>
          split
          next => rfl
          next => exact parseStringTokenF_pos n _ sp _
    next => rfl

theorem numberExp_pos (t : Tokenizer) (sp : Nat) (num : String) :
    (numberExp t sp num).1.position = sp := by
  unfold numberExp
  split
  next =>
    (try dsimp only)
    split
    all_goals (try dsimp only)
    all_goals split
    all_goals rfl
  next => rfl

theorem numberFrac_pos (t : Tokenizer) (sp : Nat) (num : String) :
    (numberFrac t sp num).1.position = sp := by
  unfold numberFrac
  split
  next =>
    (try dsimp only)
    split
    next => rfl
    next => exact numberExp_pos _ _ _
  next => exact numberExp_pos _ _ _

theorem numberInt_pos (t : Tokenizer) (sp : Nat) (num : String) (fc : Nat) :
    (numberInt t sp num fc).1.position = sp := by
  unfold numberInt
  split
  next =>
    split
    next => rfl
    next => exact numberFrac_pos _ _ _
  next => exact numberFrac_pos _ _ _

theorem parseNumberToken_pos (t : Tokenizer) (sp : Nat) (fc : Nat) :
    (parseNumberToken t sp fc).1.position = sp := by
  unfold parseNumberToken
  split
  next =>
    split
    next => rfl
    next =>
      (try dsimp only)
      split
      next => rfl
      next => exact numberInt_pos _ _ _ _
  next => exact numberInt_pos _ _ _ _

theorem parseKeywordToken_pos (t : Tokenizer) (sp : Nat) (fc : Nat) :
    (parseKeywordToken t sp fc).1.position = sp := by
  unfold parseKeywordToken
  dsimp only
  split
  next => rfl
  next =>
    split
    next => rfl
    next =>
      split
      next => rfl
      next => rfl

/-- Every token's reported position is the cursor position after the
whitespace skip, i.e. the byte offset of the token's first character. -/
theorem NextToken_pos (t : Tokenizer) :
    (NextToken t).1.position = (skipWhitespace t).position := by
  unfold NextToken
  dsimp only
  split
  next => rfl
  next => rfl
  next => rfl
  next => rfl
  next => rfl
  next => exact parseStringTokenF_pos _ _ _ _
  next => rfl
  next => rfl
  next => exact parseKeywordToken_pos _ _ _
  next => exact parseKeywordToken_pos _ _ _
  next => exact parseKeywordToken_pos _ _ _
  next => exact parseNumberToken_pos _ _ _
  next => exact parseNumberToken_pos _ _ _
  next => exact parseNumberToken_pos _ _ _
  next => exact parseNumberToken_pos _ _ _
  next => exact parseNumberToken_pos _ _ _
  next => exact parseNumberToken_pos _ _ _
  next => exact parseNumberToken_pos _ _ _
  next => exact parseNumberToken_pos _ _ _
  next => exact parseNumberToken_pos _ _ _
  next => exact parseNumberToken_pos _ _ _
  next => exact parseNumberToken_pos _ _ _
  next => rfl

theorem nthTokenState_cursor_le (input : List Nat) : ∀ n : Nat,
    (nthTokenState input n).2.position ≤ input.length
  | 0 => by
    have h := (NextToken_ts (NewTokenizer input)).2.2 (Nat.zero_le _)
    exact h
  | n + 1 => by
    rw [nthTokenState]
    have hi := nthTokenState_input input n
    have h := (NextToken_ts (nthTokenState input n).2).2.2
      (by rw [hi]; exact nthTokenState_cursor_le input n)
    rw [hi] at h
    exact h

theorem nthTokenState_pos_le (input : List Nat) (n : Nat) :
    (nthTokenState input n).1.position ≤ input.length := by
  cases n with
  | zero =>
    rw [nthTokenState, NextToken_pos]
    exact (skipWhitespace_ts (NewTokenizer input)).2.2 (Nat.zero_le _)
  | succ n =>
    rw [nthTokenState, NextToken_pos]
    have hi := nthTokenState_input input n
    have h := (skipWhitespace_ts (nthTokenState input n).2).2.2
      (by rw [hi]; exact nthTokenState_cursor_le input n)
    rw [hi] at h
    exact h

theorem ascii_cpLen (l : List Nat) (h : ∀ b ∈ l, b < 128) (p : Nat)
    (hp : p ≤ l.length) : cpLen (l.take p) = p := by
  unfold cpLen
  rw [List.countP_eq_length.mpr]
  · rw [List.length_take]
    omega
  · intro b hb
    have hlt := h b (List.mem_of_mem_take hb)
    simp
    omega

/-! ### Unicode escape decoding -/

theorem handleEscape_unicode (input : List Nat) (p1 sp : Nat) (res : String)
    (a b c d : Nat) (hu : byteAt input p1 = 117) (hlen : p1 + 4 < input.length)
    (ha : hexVal (byteAt input (p1 + 1)) = some a)
    (hb : hexVal (byteAt input (p1 + 2)) = some b)
    (hc : hexVal (byteAt input (p1 + 3)) = some c)
    (hd : hexVal (byteAt input (p1 + 4)) = some d) :
    handleEscape input p1 sp res =
      .inl (res.push (goRune (((a * 16 + b) * 16 + c) * 16 + d)), p1 + 5) := by
  unfold handleEscape
  rw [hu]
  dsimp only
  rw [if_neg (by omega)]
  rw [ha, hb, hc, hd]

theorem handleEscape_incomplete (input : List Nat) (p1 sp : Nat) (res : String)
    (hu : byteAt input p1 = 117) (hlen : input.length ≤ p1 + 4) :
    handleEscape input p1 sp res =
      .inr (⟨.INVALID, "incomplete unicode escape sequence", sp⟩, p1 + 1) := by
  unfold handleEscape
  rw [hu]
  dsimp only
  rw [if_pos (by omega)]

theorem handleEscape_badhex (input : List Nat) (p1 sp : Nat) (res : String)
    (hu : byteAt input p1 = 117) (hlen : p1 + 4 < input.length)
    (hbad : hexVal (byteAt input (p1 + 1)) = none ∨ hexVal (byteAt input (p1 + 2)) = none ∨
      hexVal (byteAt input (p1 + 3)) = none ∨ hexVal (byteAt input (p1 + 4)) = none) :
    handleEscape input p1 sp res =
      .inr (⟨.INVALID, "invalid hex digit in unicode escape", sp⟩, p1 + 1) := by
  unfold handleEscape
  rw [hu]
  dsimp only
  rw [if_neg (by omega)]
  rcases h1 : hexVal (byteAt input (p1 + 1)) with _ | a
  · rfl
  rcases h2 : hexVal (byteAt input (p1 + 2)) with _ | b
  · rfl
  rcases h3 : hexVal (byteAt input (p1 + 3)) with _ | c
  · rfl
  rcases h4 : hexVal (byteAt input (p1 + 4)) with _ | d
  · rfl
  rw [h1, h2, h3, h4] at hbad
  rcases hbad with h | h | h | h
  all_goals exact absurd h (by simp)

/-- One loop step of the string scanner on a backslash-u escape with four hex
digits: the 16-bit code point is appended to the decoded value and the cursor
jumps past the six escape bytes. -/
theorem parseStringTokenF_unicode (n : Nat) (t : Tokenizer) (sp : Nat) (res : String)
    (a b c d : Nat)
    (hin : t.position < t.input.length)
    (hbs : byteAt t.input t.position = 92)
    (hu : byteAt t.input (t.position + 1) = 117)
    (hlen : t.position + 5 < t.input.length)
    (ha : hexVal (byteAt t.input (t.position + 2)) = some a)
    (hb : hexVal (byteAt t.input (t.position + 3)) = some b)
    (hc : hexVal (byteAt t.input (t.position + 4)) = some c)
    (hd : hexVal (byteAt t.input (t.position + 5)) = some d) :
    parseStringTokenF (n + 1) t sp res =
      parseStringTokenF n { t with position := t.position + 6 } sp
        (res.push (goRune (((a * 16 + b) * 16 + c) * 16 + d))) := by
  have he := handleEscape_unicode t.input (t.position + 1) sp res a b c d hu
    (by omega)
    (by rw [show t.position + 1 + 1 = t.position + 2 from rfl]; exact ha)
    (by rw [show t.position + 1 + 2 = t.position + 3 from rfl]; exact hb)
    (by rw [show t.position + 1 + 3 = t.position + 4 from rfl]; exact hc)
    (by rw [show t.position + 1 + 4 = t.position + 5 from rfl]; exact hd)
  rw [parseStringTokenF]
  rw [if_pos hin]
  dsimp only
  rw [hbs]
  rw [if_neg (by omega)]
  rw [if_pos (Eq.refl (92 : Nat))]
  rw [if_neg (by omega)]
  rw [he]

/-! ### Grammar and scanner-feed lemmas for the completeness proof -/

theorem Feeds_append (a : List Token) : ∀ (b : List Token) (t : Tokenizer) (tk tE : Token)
    (t2 : Tokenizer), Feeds t tk (a ++ b) tE t2 →
    ∃ tm m, Feeds t tk a tm m ∧ Feeds m tm b tE t2 := by
  induction a with
  | nil =>
    intro b t tk tE t2 h
    exact ⟨tk, t, Feeds.nil t tk, h⟩
  | cons hd tl ih =>
    intro b t tk tE t2 h
    cases h with
    | cons _ _ _ _ _ htl =>
      obtain ⟨tm, m, h1, h2⟩ := ih b _ _ tE t2 htl
      exact ⟨tm, m, Feeds.cons _ _ _ _ _ h1, h2⟩

theorem Feeds_head (t : Tokenizer) (tk : Token) (hd : Token) (tl : List Token)
    (tE : Token) (t2 : Tokenizer) (h : Feeds t tk (hd :: tl) tE t2) :
    hd = tk ∧ Feeds (NextToken t).2 (NextToken t).1 tl tE t2 := by
  cases h with
  | cons _ _ _ _ _ htl => exact ⟨rfl, htl⟩

/-- The first token of a value derivation is a value-starting token. -/
theorem GD_val_head (k : GKind) (d : Nat) (ts : List Token) (h : GD k d ts) :
    (k = .val ∨ k = .obj ∨ k = .arr) →
    ∃ hd tl, ts = hd :: tl ∧
      (hd.type = .STRING ∨ hd.type = .TRUE ∨ hd.type = .FALSE ∨ hd.type = .NULL ∨
       hd.type = .NUMBER ∨ hd.type = .LEFT_BRACE ∨ hd.type = .LEFT_BRACKET) := by
  induction h with
  | str d v pos => exact fun _ => ⟨_, _, rfl, Or.inl rfl⟩
  | tru d v pos => exact fun _ => ⟨_, _, rfl, Or.inr (Or.inl rfl)⟩
  | fls d v pos => exact fun _ => ⟨_, _, rfl, Or.inr (Or.inr (Or.inl rfl))⟩
  | nul d v pos => exact fun _ => ⟨_, _, rfl, Or.inr (Or.inr (Or.inr (Or.inl rfl)))⟩
  | num d v pos =>
    exact fun _ => ⟨_, _, rfl, Or.inr (Or.inr (Or.inr (Or.inr (Or.inl rfl))))⟩
  | obj_of d ts hsub ih => exact fun _ => ih (Or.inr (Or.inl rfl))
  | arr_of d ts hsub ih => exact fun _ => ih (Or.inr (Or.inr rfl))
  | memb d k kp cv cp ts hsub ih => exact fun hk => by cases hk <;> simp_all
  | mtail_nil d => exact fun hk => by rcases hk with h | h | h <;> cases h
  | mtail_cons d v p m rest h1 h2 ih1 ih2 =>
    exact fun hk => by rcases hk with h | h | h <;> cases h
  | etail_nil d => exact fun hk => by rcases hk with h | h | h <;> cases h
  | etail_cons d v p e rest h1 h2 ih1 ih2 =>
    exact fun hk => by rcases hk with h | h | h <;> cases h
  | obj_empty d lv lp rv rp =>
    exact fun _ => ⟨_, _, rfl, Or.inr (Or.inr (Or.inr (Or.inr (Or.inr (Or.inl rfl)))))⟩
  | obj_nonempty d lv lp rv rp m rest h1 h2 ih1 ih2 =>
    exact fun _ => ⟨_, _, rfl, Or.inr (Or.inr (Or.inr (Or.inr (Or.inr (Or.inl rfl)))))⟩
  | arr_empty d lv lp rv rp =>
    exact fun _ =>
      ⟨_, _, rfl, Or.inr (Or.inr (Or.inr (Or.inr (Or.inr (Or.inr rfl)))))⟩
  | arr_nonempty d lv lp rv rp e rest h1 h2 ih1 ih2 =>
    exact fun _ =>
      ⟨_, _, rfl, Or.inr (Or.inr (Or.inr (Or.inr (Or.inr (Or.inr rfl)))))⟩

theorem GD_obj_head (k : GKind) (d : Nat) (ts : List Token) (h : GD k d ts) :
    k = .obj → ∃ hd tl, ts = hd :: tl ∧ hd.type = .LEFT_BRACE := by
  induction h with
  | obj_empty d lv lp rv rp => exact fun _ => ⟨_, _, rfl, rfl⟩
  | obj_nonempty d lv lp rv rp m rest h1 h2 ih1 ih2 => exact fun _ => ⟨_, _, rfl, rfl⟩
  | _ => first
    | exact fun hk => nomatch hk
    | (intro hk; exact absurd hk (by intro hc; cases hc))

theorem GD_arr_head (k : GKind) (d : Nat) (ts : List Token) (h : GD k d ts) :
    k = .arr → ∃ hd tl, ts = hd :: tl ∧ hd.type = .LEFT_BRACKET := by
  induction h with
  | arr_empty d lv lp rv rp => exact fun _ => ⟨_, _, rfl, rfl⟩
  | arr_nonempty d lv lp rv rp e rest h1 h2 ih1 ih2 => exact fun _ => ⟨_, _, rfl, rfl⟩
  | _ => first
    | exact fun hk => nomatch hk
    | (intro hk; exact absurd hk (by intro hc; cases hc))

theorem GD_memb_shape (d : Nat) (ts : List Token) (h : GD .memb d ts) :
    ∃ hd tl, ts = hd :: tl ∧ hd.type = .STRING := by
  cases h with
  | memb d k kp cv cp ts hv => exact ⟨_, _, rfl, rfl⟩

theorem val_head_ne (hd : Token)
    (h : hd.type = .STRING ∨ hd.type = .TRUE ∨ hd.type = .FALSE ∨ hd.type = .NULL ∨
       hd.type = .NUMBER ∨ hd.type = .LEFT_BRACE ∨ hd.type = .LEFT_BRACKET) :
    hd.type ≠ .RIGHT_BRACKET ∧ hd.type ≠ .RIGHT_BRACE := by
  rcases h with h | h | h | h | h | h | h
  all_goals rw [h]
  all_goals exact ⟨(fun hc => nomatch hc), (fun hc => nomatch hc)⟩

/-- Associativity of list append, stated on `List.append` directly. -/
theorem lappend_assoc {A : Type} (as bs cs : List A) :
    (List.append (List.append as bs) cs) = List.append as (List.append bs cs) :=
  List.append_assoc as bs cs

set_option maxHeartbeats 2000000 in
/-- Completeness of the checker over the token grammar: every derivation is
accepted by the corresponding grammar rule, consuming exactly the derived
tokens, for a sufficiently large fuel, provided the nesting budget fits under
the depth ceiling. -/
theorem GD_complete (k : GKind) (d : Nat) (ts : List Token) (hg : GD k d ts) :
    ∀ (p : Parser), p.depth + (d : Int) ≤ 19 →
    (match k with
     | .val => ∀ tE t2, Feeds p.tokenizer p.currentToken ts tE t2 →
         ∃ fuel pz, parseValue fuel p = (.ok, pz) ∧
           pz.currentToken = tE ∧ pz.tokenizer = t2 ∧ pz.depth = p.depth
     | .memb => ∀ tE t2, Feeds p.tokenizer p.currentToken ts tE t2 →
         ∃ fuel pz, parseKeyValuePair fuel p = (.ok, pz) ∧
           pz.currentToken = tE ∧ pz.tokenizer = t2 ∧ pz.depth = p.depth
     | .mtail => ∀ (rv : String) (rp : Nat) (tE : Token) (t2 : Tokenizer),
         Feeds p.tokenizer p.currentToken (ts ++ [⟨.RIGHT_BRACE, rv, rp⟩]) tE t2 →
         ∃ fuel pz, parseObjectLoop fuel p = (.ok, pz) ∧
           pz.currentToken = tE ∧ pz.tokenizer = t2 ∧ pz.depth = p.depth
     | .etail => ∀ (rv : String) (rp : Nat) (tE : Token) (t2 : Tokenizer),
         Feeds p.tokenizer p.currentToken (ts ++ [⟨.RIGHT_BRACKET, rv, rp⟩]) tE t2 →
         ∃ fuel pz, parseArrayLoop fuel p = (.ok, pz) ∧
           pz.currentToken = tE ∧ pz.tokenizer = t2 ∧ pz.depth = p.depth
     | .obj => ∀ tE t2, Feeds p.tokenizer p.currentToken ts tE t2 →
         ∃ fuel pz, parseObject fuel p = (.ok, pz) ∧
           pz.currentToken = tE ∧ pz.tokenizer = t2 ∧ pz.depth = p.depth
     | .arr => ∀ tE t2, Feeds p.tokenizer p.currentToken ts tE t2 →
         ∃ fuel pz, parseArray fuel p = (.ok, pz) ∧
           pz.currentToken = tE ∧ pz.tokenizer = t2 ∧ pz.depth = p.depth) := by
  induction hg with
  | str d v pos =>
    intro p hbud tE t2 hf
    obtain ⟨heq, hrest⟩ := Feeds_head _ _ _ _ _ _ hf
    cases hrest
    refine ⟨1, advance p, ?_, rfl, rfl, rfl⟩
    rw [parseValue, ← heq]
  | tru d v pos =>
    intro p hbud tE t2 hf
    obtain ⟨heq, hrest⟩ := Feeds_head _ _ _ _ _ _ hf
    cases hrest
    refine ⟨1, advance p, ?_, rfl, rfl, rfl⟩
    rw [parseValue, ← heq]
  | fls d v pos =>
    intro p hbud tE t2 hf
    obtain ⟨heq, hrest⟩ := Feeds_head _ _ _ _ _ _ hf
    cases hrest
    refine ⟨1, advance p, ?_, rfl, rfl, rfl⟩
    rw [parseValue, ← heq]
  | nul d v pos =>
    intro p hbud tE t2 hf
    obtain ⟨heq, hrest⟩ := Feeds_head _ _ _ _ _ _ hf
    cases hrest
    refine ⟨1, advance p, ?_, rfl, rfl, rfl⟩
    rw [parseValue, ← heq]
  | num d v pos =>
    intro p hbud tE t2 hf
    obtain ⟨heq, hrest⟩ := Feeds_head _ _ _ _ _ _ hf
    cases hrest
    refine ⟨1, advance p, ?_, rfl, rfl, rfl⟩
    rw [parseValue, ← heq]
  | obj_of d ts hsub ih =>
    intro p hbud tE t2 hf
    obtain ⟨fuel, pz, hrun, h1, h2, h3⟩ := ih p hbud tE t2 hf
    obtain ⟨hd0, tl0, hts, hty⟩ := GD_obj_head _ _ _ hsub rfl
    rw [hts] at hf
    obtain ⟨heq, _⟩ := Feeds_head _ _ _ _ _ _ hf
    refine ⟨fuel + 1, pz, ?_, h1, h2, h3⟩
    rw [parseValue]
    have htyc : p.currentToken.type = .LEFT_BRACE := by rw [← heq]; exact hty
    rw [htyc]
    exact hrun
  | arr_of d ts hsub ih =>
    intro p hbud tE t2 hf
    obtain ⟨fuel, pz, hrun, h1, h2, h3⟩ := ih p hbud tE t2 hf
    obtain ⟨hd0, tl0, hts, hty⟩ := GD_arr_head _ _ _ hsub rfl
    rw [hts] at hf
    obtain ⟨heq, _⟩ := Feeds_head _ _ _ _ _ _ hf
    refine ⟨fuel + 1, pz, ?_, h1, h2, h3⟩
    rw [parseValue]
    have htyc : p.currentToken.type = .LEFT_BRACKET := by rw [← heq]; exact hty
    rw [htyc]
    exact hrun
  | memb d k kp cv cp ts hv ih =>
    intro p hbud tE t2 hf
    obtain ⟨heqk, hf1⟩ := Feeds_head _ _ _ _ _ _ hf
    obtain ⟨heqc, hf2⟩ := Feeds_head _ _ _ _ _ _ hf1
    obtain ⟨fuel, pz, hrun, h1, h2, h3⟩ := ih (advance (advance p)) hbud tE t2 hf2
    refine ⟨fuel + 1, pz, ?_, h1, h2, h3⟩
    rw [parseKeyValuePair]
    rw [if_neg (by rw [← heqk]; exact fun hc => hc rfl)]
    dsimp only
    rw [if_neg (by
      show ¬((advance p).currentToken.type ≠ .COLON)
      rw [show (advance p).currentToken = (NextToken p.tokenizer).1 from rfl, ← heqc]
      exact fun hc => hc rfl)]
    exact hrun
  | mtail_nil d =>
    intro p hbud rv rp tE t2 hf
    rw [List.nil_append] at hf
    obtain ⟨heq, hrest⟩ := Feeds_head _ _ _ _ _ _ hf
    cases hrest
    refine ⟨1, advance p, ?_, rfl, rfl, rfl⟩
    rw [parseObjectLoop]
    rw [if_neg (by rw [← heq]; exact fun hc => nomatch hc)]
    rw [if_pos (by rw [← heq])]
  | mtail_cons d v pp m rest hm ht ihm iht =>
    intro p hbud rv rp tE t2 hf
    simp only [List.cons_append, List.append_assoc] at hf
    obtain ⟨heqc, hf1⟩ := Feeds_head _ _ _ _ _ _ hf
    obtain ⟨tm, mid, hfm, hfrest⟩ := Feeds_append m _ _ _ _ _ hf1
    obtain ⟨f1, pz1, hrun1, hc1, ht1, hd1⟩ := ihm (advance p) hbud tm mid hfm
    have hbud2 : pz1.depth + (d : Int) ≤ 19 := by
      rw [hd1]
      exact hbud
    obtain ⟨f2, pz2, hrun2, hc2, ht2, hd2⟩ := iht pz1 hbud2 rv rp tE t2 (by
      rw [ht1, hc1]
      exact hfrest)
    obtain ⟨hmsh, hmtl, hmts, hmty⟩ := GD_memb_shape _ _ hm
    rw [hmts] at hfm
    obtain ⟨heqm, _⟩ := Feeds_head _ _ _ _ _ _ hfm
    refine ⟨max f1 f2 + 1, pz2, ?_, hc2, ht2, by rw [hd2, hd1]; rfl⟩
    rw [parseObjectLoop]
    rw [if_pos (by rw [← heqc])]
    dsimp only
    rw [if_neg (by
      rw [show (advance p).currentToken = (NextToken p.tokenizer).1 from rfl, ← heqm, hmty]
      exact fun hc => nomatch hc)]
    have hm1 : parseKeyValuePair (max f1 f2) (advance p) = (.ok, pz1) := by
      rw [(parse_mono f1 (max f1 f2) (Nat.le_max_left f1 f2) (advance p)).2.2.2.2.1
        (by rw [hrun1]; exact fun hq => nomatch hq), hrun1]
    have hm2 : parseObjectLoop (max f1 f2) pz1 = (.ok, pz2) := by
      rw [(parse_mono f2 (max f1 f2) (Nat.le_max_right f1 f2) pz1).2.2.2.1
        (by rw [hrun2]; exact fun hq => nomatch hq), hrun2]
    rw [hm1]
    exact hm2
  | etail_nil d =>
    intro p hbud rv rp tE t2 hf
    rw [List.nil_append] at hf
    obtain ⟨heq, hrest⟩ := Feeds_head _ _ _ _ _ _ hf
    cases hrest
    refine ⟨1, advance p, ?_, rfl, rfl, rfl⟩
    rw [parseArrayLoop]
    rw [if_neg (by rw [← heq]; exact fun hc => nomatch hc)]
    rw [if_pos (by rw [← heq])]
  | etail_cons d v pp e rest he ht ihe iht =>
    intro p hbud rv rp tE t2 hf
    simp only [List.cons_append, List.append_assoc] at hf
    obtain ⟨heqc, hf1⟩ := Feeds_head _ _ _ _ _ _ hf
    obtain ⟨tm, mid, hfm, hfrest⟩ := Feeds_append e _ _ _ _ _ hf1
    obtain ⟨f1, pz1, hrun1, hc1, ht1, hd1⟩ := ihe (advance p) hbud tm mid hfm
    have hbud2 : pz1.depth + (d : Int) ≤ 19 := by
      rw [hd1]
      exact hbud
    obtain ⟨f2, pz2, hrun2, hc2, ht2, hd2⟩ := iht pz1 hbud2 rv rp tE t2 (by
      rw [ht1, hc1]
      exact hfrest)
    obtain ⟨hesh, hetl, hets, hety⟩ := GD_val_head _ _ _ he (Or.inl rfl)
    rw [hets] at hfm
    obtain ⟨heqm, _⟩ := Feeds_head _ _ _ _ _ _ hfm
    refine ⟨max f1 f2 + 1, pz2, ?_, hc2, ht2, by rw [hd2, hd1]; rfl⟩
    rw [parseArrayLoop]
    rw [if_pos (by rw [← heqc])]
    dsimp only
    rw [if_neg (by
      rw [show (advance p).currentToken = (NextToken p.tokenizer).1 from rfl, ← heqm]
      exact (val_head_ne _ hety).1)]
    have hm1 : parseValue (max f1 f2) (advance p) = (.ok, pz1) := by
      rw [(parse_mono f1 (max f1 f2) (Nat.le_max_left f1 f2) (advance p)).1
        (by rw [hrun1]; exact fun hq => nomatch hq), hrun1]
    have hm2 : parseArrayLoop (max f1 f2) pz1 = (.ok, pz2) := by
      rw [(parse_mono f2 (max f1 f2) (Nat.le_max_right f1 f2) pz1).2.2.2.2.2.2.2
        (by rw [hrun2]; exact fun hq => nomatch hq), hrun2]
    rw [hm1]
    exact hm2
  | obj_empty d lv lp rv rp =>
    intro p hbud tE t2 hf
    obtain ⟨heql, hf1⟩ := Feeds_head _ _ _ _ _ _ hf
    obtain ⟨heqr, hf2⟩ := Feeds_head _ _ _ _ _ _ hf1
    cases hf2
    refine ⟨2, { advance (advance { p with depth := p.depth + 1 }) with
        depth := (advance (advance { p with depth := p.depth + 1 })).depth - 1 }, ?_,
      rfl, rfl, by show p.depth + 1 - 1 = p.depth; omega⟩
    rw [parseObject]
    rw [if_neg (by rw [← heql]; exact fun hc => hc rfl)]
    dsimp only
    rw [if_neg (by
      show ¬(p.depth + 1 > maxNestingDepth)
      unfold maxNestingDepth
      push_cast at hbud
      omega)]
    rw [parseObjectBody]
    rw [if_pos (by
      show (advance { p with depth := p.depth + 1 }).currentToken.type = .RIGHT_BRACE
      rw [show (advance { p with depth := p.depth + 1 }).currentToken =
        (NextToken p.tokenizer).1 from rfl, ← heqr])]
  | obj_nonempty d lv lp rv rp m rest hm ht ihm iht =>
    intro p hbud tE t2 hf
    obtain ⟨heql, hf1⟩ := Feeds_head _ _ _ _ _ _ hf
    rw [lappend_assoc] at hf1
    obtain ⟨tm, mid, hfm, hfrest⟩ := Feeds_append m _ _ _ _ _ hf1
    have hbud1 : (advance { p with depth := p.depth + 1 }).depth + (d : Int) ≤ 19 := by
      show p.depth + 1 + (d : Int) ≤ 19
      push_cast at hbud
      omega
    obtain ⟨f1, pz1, hrun1, hc1, ht1, hd1⟩ :=
      ihm (advance { p with depth := p.depth + 1 }) hbud1 tm mid hfm
    have hbud2 : pz1.depth + (d : Int) ≤ 19 := by
      rw [hd1]
      exact hbud1
    obtain ⟨f2, pz2, hrun2, hc2, ht2, hd2⟩ := iht pz1 hbud2 rv rp tE t2 (by
      rw [ht1, hc1]
      exact hfrest)
    obtain ⟨hmsh, hmtl, hmts, hmty⟩ := GD_memb_shape _ _ hm
    rw [hmts] at hfm
    obtain ⟨heqm, _⟩ := Feeds_head _ _ _ _ _ _ hfm
    refine ⟨max f1 f2 + 2, { pz2 with depth := pz2.depth - 1 }, ?_, hc2, ht2, by
      dsimp only
      rw [hd2, hd1]
      show p.depth + 1 - 1 = p.depth
      omega⟩
    rw [parseObject]
    rw [if_neg (by rw [← heql]; exact fun hc => hc rfl)]
    dsimp only
    rw [if_neg (by
      show ¬(p.depth + 1 > maxNestingDepth)
      unfold maxNestingDepth
      push_cast at hbud
      omega)]
    rw [parseObjectBody]
    rw [if_neg (by
      rw [show (advance { p with depth := p.depth + 1 }).currentToken =
        (NextToken p.tokenizer).1 from rfl, ← heqm, hmty]
      exact fun hc => nomatch hc)]
    have hm1 : parseKeyValuePair (max f1 f2) (advance { p with depth := p.depth + 1 }) =
        (.ok, pz1) := by
      rw [(parse_mono f1 (max f1 f2) (Nat.le_max_left f1 f2)
        (advance { p with depth := p.depth + 1 })).2.2.2.2.1
        (by rw [hrun1]; exact fun hq => nomatch hq), hrun1]
    have hm2 : parseObjectLoop (max f1 f2) pz1 = (.ok, pz2) := by
      rw [(parse_mono f2 (max f1 f2) (Nat.le_max_right f1 f2) pz1).2.2.2.1
        (by rw [hrun2]; exact fun hq => nomatch hq), hrun2]
    simp only [hm1, hm2]
  | arr_empty d lv lp rv rp =>
    intro p hbud tE t2 hf
    obtain ⟨heql, hf1⟩ := Feeds_head _ _ _ _ _ _ hf
    obtain ⟨heqr, hf2⟩ := Feeds_head _ _ _ _ _ _ hf1
    cases hf2
    refine ⟨2, { advance (advance { p with depth := p.depth + 1 }) with
        depth := (advance (advance { p with depth := p.depth + 1 })).depth - 1 }, ?_,
      rfl, rfl, by show p.depth + 1 - 1 = p.depth; omega⟩
    rw [parseArray]
    rw [if_neg (by rw [← heql]; exact fun hc => hc rfl)]
    dsimp only
    rw [if_neg (by
      show ¬(p.depth + 1 > maxNestingDepth)
      unfold maxNestingDepth
      push_cast at hbud
      omega)]
    rw [parseArrayBody]
    rw [if_pos (by
      show (advance { p with depth := p.depth + 1 }).currentToken.type = .RIGHT_BRACKET
      rw [show (advance { p with depth := p.depth + 1 }).currentToken =
        (NextToken p.tokenizer).1 from rfl, ← heqr])]
  | arr_nonempty d lv lp rv rp e rest he ht ihe iht =>
    intro p hbud tE t2 hf
    obtain ⟨heql, hf1⟩ := Feeds_head _ _ _ _ _ _ hf
    rw [lappend_assoc] at hf1
    obtain ⟨tm, mid, hfm, hfrest⟩ := Feeds_append e _ _ _ _ _ hf1
    have hbud1 : (advance { p with depth := p.depth + 1 }).depth + (d : Int) ≤ 19 := by
      show p.depth + 1 + (d : Int) ≤ 19
      push_cast at hbud
      omega
    obtain ⟨f1, pz1, hrun1, hc1, ht1, hd1⟩ :=
      ihe (advance { p with depth := p.depth + 1 }) hbud1 tm mid hfm
    have hbud2 : pz1.depth + (d : Int) ≤ 19 := by
      rw [hd1]
      exact hbud1
    obtain ⟨f2, pz2, hrun2, hc2, ht2, hd2⟩ := iht pz1 hbud2 rv rp tE t2 (by
      rw [ht1, hc1]
      exact hfrest)
    obtain ⟨hesh, hetl, hets, hety⟩ := GD_val_head _ _ _ he (Or.inl rfl)
    rw [hets] at hfm
    obtain ⟨heqm, _⟩ := Feeds_head _ _ _ _ _ _ hfm
    refine ⟨max f1 f2 + 2, { pz2 with depth := pz2.depth - 1 }, ?_, hc2, ht2, by
      dsimp only
      rw [hd2, hd1]
      show p.depth + 1 - 1 = p.depth
      omega⟩
    rw [parseArray]
    rw [if_neg (by rw [← heql]; exact fun hc => hc rfl)]
    dsimp only
    rw [if_neg (by
      show ¬(p.depth + 1 > maxNestingDepth)
      unfold maxNestingDepth
      push_cast at hbud
      omega)]
    rw [parseArrayBody]
    rw [if_neg (by
      rw [show (advance { p with depth := p.depth + 1 }).currentToken =
        (NextToken p.tokenizer).1 from rfl, ← heqm]
      exact (val_head_ne _ hety).1)]
    have hm1 : parseValue (max f1 f2) (advance { p with depth := p.depth + 1 }) =
        (.ok, pz1) := by
      rw [(parse_mono f1 (max f1 f2) (Nat.le_max_left f1 f2)
        (advance { p with depth := p.depth + 1 })).1
        (by rw [hrun1]; exact fun hq => nomatch hq), hrun1]
    have hm2 : parseArrayLoop (max f1 f2) pz1 = (.ok, pz2) := by
      rw [(parse_mono f2 (max f1 f2) (Nat.le_max_right f1 f2) pz1).2.2.2.2.2.2.2
        (by rw [hrun2]; exact fun hq => nomatch hq), hrun2]
    simp only [hm1, hm2]

/-! ### Depth-exceeded error paths leak the increment -/

/-- The depth-exceeded exit of `parseObject` returns the error with the
counter still incremented: the deferred decrement was not yet registered. -/
theorem parseObject_depth_exceeded (fuel : Nat) (p : Parser)
    (ht : p.currentToken.type = .LEFT_BRACE) (hd : maxNestingDepth < p.depth + 1) :
    parseObject (Nat.succ fuel) p =
      (.err (fmtErr "maximum nesting depth of 19 exceeded" p.currentToken.position),
       { p with depth := p.depth + 1 }) := by
  rw [parseObject]
  rw [if_neg (by rw [ht]; exact fun hc => hc rfl)]
  (try dsimp only)
  rw [if_pos hd]

/-- The depth-exceeded exit of `parseArray` likewise keeps the increment. -/
theorem parseArray_depth_exceeded (fuel : Nat) (p : Parser)
    (ht : p.currentToken.type = .LEFT_BRACKET) (hd : maxNestingDepth < p.depth + 1) :
    parseArray (Nat.succ fuel) p =
      (.err (fmtErr "maximum nesting depth of 19 exceeded" p.currentToken.position),
       { p with depth := p.depth + 1 }) := by
  rw [parseArray]
  rw [if_neg (by rw [ht]; exact fun hc => hc rfl)]
  (try dsimp only)
  rw [if_pos hd]

/-- C1: the code violates the claim.  The deferred depth decrement is
registered only after the depth-exceeded early return, so that exit leaks the
incremented counter: at entry depth 19 with a `\x7b` (or `[`) lookahead — the
20th opening token of a nested run — the rule returns the depth-exceeded
error with the counter at 20, not restored to the entry value 19.  Every
other exit does restore the counter (`parse_depth_ok`). -/
theorem claimC1 :
    parseObject 5 (⟨⟨[123, 123], 2⟩, ⟨.LEFT_BRACE, "\x7b", 1⟩, 2, 19⟩ : Parser) =
      (.err (fmtErr "maximum nesting depth of 19 exceeded" 1),
       ⟨⟨[123, 123], 2⟩, ⟨.LEFT_BRACE, "\x7b", 1⟩, 2, 20⟩) ∧
    (parseObject 5 (⟨⟨[123, 123], 2⟩, ⟨.LEFT_BRACE, "\x7b", 1⟩, 2, 19⟩ : Parser)).2.depth ≠
      (⟨⟨[123, 123], 2⟩, ⟨.LEFT_BRACE, "\x7b", 1⟩, 2, 19⟩ : Parser).depth ∧
    parseArray 5 (⟨⟨[91, 91], 2⟩, ⟨.LEFT_BRACKET, "[", 1⟩, 2, 19⟩ : Parser) =
      (.err (fmtErr "maximum nesting depth of 19 exceeded" 1),
       ⟨⟨[91, 91], 2⟩, ⟨.LEFT_BRACKET, "[", 1⟩, 2, 20⟩) := by
  refine ⟨by decide, by decide, by decide⟩

/-! ### Nested-array depth rejection and top-level completeness (C3) -/

/-- If the byte under the cursor is not whitespace, the whitespace skip is the
identity. -/
theorem skipWhitespace_stop (t : Tokenizer)
    (h : isSpace (byteAt t.input t.position) = false) : skipWhitespace t = t := by
  unfold skipWhitespace
  rcases hn : t.input.length - t.position with _ | m
  · rfl
  · rw [skipWhitespaceF]
    split
    · rw [h]
      simp
    · rfl

/-- Scanning at a `[` byte yields the `LEFT_BRACKET` token at that byte offset
and moves the cursor one past it. -/
theorem NextToken_lbracket (t : Tokenizer) (hlt : t.position < t.input.length)
    (h91 : byteAt t.input t.position = 91) :
    NextToken t = (⟨.LEFT_BRACKET, "[", t.position⟩, ⟨t.input, t.position + 1⟩) := by
  unfold NextToken
  rw [skipWhitespace_stop t (by rw [h91]; rfl)]
  dsimp only
  unfold NextChar
  rw [if_neg (by omega)]
  dsimp only
  rw [h91]

theorem byteAt_replicate91 (s : List Nat) (k : Nat) (hk : k < 20) :
    byteAt (List.replicate 20 91 ++ s) k = 91 := by
  unfold byteAt
  rw [List.getD_eq_getElem _ _ (by simp; omega)]
  rw [List.getElem_append_left (by simpa using hk)]
  rw [List.getElem_replicate]

/-- An input whose next `j + 1` bytes are all `[`, entered with a
`LEFT_BRACKET` lookahead at depth `19 - j`, drives `parseArray` into the
depth-exceeded error at the byte offset of the 20th opening bracket. -/
theorem parseArray_nest (s : List Nat) : ∀ (j : Nat), j ≤ 19 → ∀ (fuel : Nat) (p : Parser),
    3 * j + 1 ≤ fuel → p.tokenizer = ⟨List.replicate 20 91 ++ s, 20 - j⟩ →
    p.currentToken = ⟨.LEFT_BRACKET, "[", 19 - j⟩ → p.depth = 19 - (j : Int) →
    (parseArray fuel p).1 = .err (fmtErr "maximum nesting depth of 19 exceeded" 19) := by
  intro j
  induction j with
  | zero =>
    intro hj fuel p hfuel htk hc hd
    rcases fuel with _ | f
    · omega
    rw [parseArray_depth_exceeded f p (by rw [hc]) (by
      rw [hd]
      all_goals (unfold maxNestingDepth; push_cast; all_goals omega))]
    all_goals rw [hc]
    all_goals rfl
  | succ j ih =>
    intro hj fuel p hfuel htk hc hd
    rcases fuel with _ | f
    · omega
    rw [parseArray]
    rw [if_neg (by rw [hc]; exact fun hne => hne rfl)]
    try dsimp only
    rw [if_neg (by
      show ¬(p.depth + 1 > maxNestingDepth)
      rw [hd]
      unfold maxNestingDepth
      push_cast
      omega)]
    try dsimp only
    have hnt : NextToken ({ p with depth := p.depth + 1 } : Parser).tokenizer =
        (⟨.LEFT_BRACKET, "[", 19 - j⟩, ⟨List.replicate 20 91 ++ s, 20 - j⟩) := by
      show NextToken p.tokenizer = _
      rw [htk]
      rw [NextToken_lbracket ⟨List.replicate 20 91 ++ s, 20 - (j + 1)⟩
        (by show 20 - (j + 1) < (List.replicate 20 91 ++ s).length; simp; omega)
        (byteAt_replicate91 s (20 - (j + 1)) (by omega))]
      rw [show (20 - (j + 1) : Nat) = 19 - j from by omega]
      rw [show (19 - j + 1 : Nat) = 20 - j from by omega]
    have hadv : advance ({ p with depth := p.depth + 1 } : Parser) =
        ⟨⟨List.replicate 20 91 ++ s, 20 - j⟩, ⟨.LEFT_BRACKET, "[", 19 - j⟩,
          p.position + 1, p.depth + 1⟩ := by
      unfold advance
      rw [hnt]
    rw [hadv]
    rcases f with _ | g
    · omega
    rw [parseArrayBody]
    rw [if_neg (by exact fun hne => nomatch hne)]
    try dsimp only
    rcases g with _ | h
    · omega
    have hih := ih (by omega) h
      ⟨⟨List.replicate 20 91 ++ s, 20 - j⟩, ⟨.LEFT_BRACKET, "[", 19 - j⟩,
        p.position + 1, p.depth + 1⟩
      (by omega) rfl rfl (by
        show p.depth + 1 = _
        rw [hd]
        push_cast
        omega)
    have hval : parseValue (Nat.succ h)
        (⟨⟨List.replicate 20 91 ++ s, 20 - j⟩, ⟨.LEFT_BRACKET, "[", 19 - j⟩,
          p.position + 1, p.depth + 1⟩ : Parser) =
        parseArray h
        (⟨⟨List.replicate 20 91 ++ s, 20 - j⟩, ⟨.LEFT_BRACKET, "[", 19 - j⟩,
          p.position + 1, p.depth + 1⟩ : Parser) := by
      rw [parseValue]
    rw [hval]
    rcases hres : parseArray h
        (⟨⟨List.replicate 20 91 ++ s, 20 - j⟩, ⟨.LEFT_BRACKET, "[", 19 - j⟩,
          p.position + 1, p.depth + 1⟩ : Parser) with ⟨rv, pv⟩
    rw [hres] at hih
    dsimp only at hih
    rw [hih]

set_option maxHeartbeats 1000000 in
/-- C3 counterexample: an input opening 20 nested objects is rejected, but
with the key error of the second `\x7b` (`expected string key at position 1`),
not the maximum-nesting-depth error the claim promises for 20 nested
objects/arrays. -/
theorem claimC3_counterexample :
    ValidateJSON (List.replicate 20 123) = .err (fmtErr "expected string key" 1) ∧
    ValidateJSON (List.replicate 20 123) ≠
      .err (fmtErr "maximum nesting depth of 19 exceeded" 1) := by
  constructor
  · decide
  · decide

/-- C3 (amended): every token stream derivable as a well-formed object or
array with nesting budget at most 19, scanned to an end-of-input lookahead, is
accepted by `ValidateJSON`; and an input whose first 20 bytes open 20 nested
arrays is rejected with the maximum-nesting-depth error at byte offset 19
regardless of the remaining content.  (For 20 nested objects the key check of
the second `\x7b` fires before the depth check, see the counterexample.) -/
theorem claimC3 :
    (∀ (input : List Nat) (k : GKind) (d : Nat) (ts : List Token) (tE : Token)
      (t2 : Tokenizer), (k = .obj ∨ k = .arr) → GD k d ts → (d : Int) ≤ 19 →
      Feeds (NewParser input).tokenizer (NewParser input).currentToken ts tE t2 →
      tE.type = .EOF → ValidateJSON input = .ok) ∧
    (∀ s : List Nat, ValidateJSON (List.replicate 20 91 ++ s) =
      .err (fmtErr "maximum nesting depth of 19 exceeded" 19)) := by
  constructor
  · intro input k d ts tE t2 hk hg hd hf hE
    have hd0 : (NewParser input).depth = 0 := rfl
    rcases hk with rfl | rfl
    · obtain ⟨hdt, tl, hts, hty⟩ := GD_obj_head .obj d ts hg rfl
      obtain ⟨fuel, pz, hrun, hcz, htz, hdz⟩ :=
        GD_complete .obj d ts hg (NewParser input) (by rw [hd0]; omega) tE t2 hf
      have hhead : hdt = (NewParser input).currentToken := by
        rw [hts] at hf
        exact (Feeds_head _ _ _ _ _ _ hf).1
      have htype : (NewParser input).currentToken.type = .LEFT_BRACE := by
        rw [← hhead]
        exact hty
      have hpv : parseValue (fuel + 1) (NewParser input) = (.ok, pz) := by
        rw [parseValue, htype]
        exact hrun
      have hne : (parseValue (fuel + 1) (NewParser input)).1 ≠ .fuelOut := by
        rw [hpv]
        exact fun hq => nomatch hq
      have h1 := (parse_mono (fuel + 1) (max (canonicalFuel input) (fuel + 1))
        (Nat.le_max_right _ _) (NewParser input)).1 hne
      have h2 := (parse_mono (canonicalFuel input) (max (canonicalFuel input) (fuel + 1))
        (Nat.le_max_left _ _) (NewParser input)).1 (parseValue_canonical input)
      have hcan : parseValue (canonicalFuel input) (NewParser input) = (.ok, pz) := by
        rw [← h2, h1, hpv]
      unfold ValidateJSON ParseJSON
      rw [if_neg (by intro hcontra; exact hcontra.1 htype)]
      rw [hcan]
      dsimp only
      rw [if_neg (by intro hne2; exact hne2 (by rw [hcz]; exact hE))]
    · obtain ⟨hdt, tl, hts, hty⟩ := GD_arr_head .arr d ts hg rfl
      obtain ⟨fuel, pz, hrun, hcz, htz, hdz⟩ :=
        GD_complete .arr d ts hg (NewParser input) (by rw [hd0]; omega) tE t2 hf
      have hhead : hdt = (NewParser input).currentToken := by
        rw [hts] at hf
        exact (Feeds_head _ _ _ _ _ _ hf).1
      have htype : (NewParser input).currentToken.type = .LEFT_BRACKET := by
        rw [← hhead]
        exact hty
      have hpv : parseValue (fuel + 1) (NewParser input) = (.ok, pz) := by
        rw [parseValue, htype]
        exact hrun
      have hne : (parseValue (fuel + 1) (NewParser input)).1 ≠ .fuelOut := by
        rw [hpv]
        exact fun hq => nomatch hq
      have h1 := (parse_mono (fuel + 1) (max (canonicalFuel input) (fuel + 1))
        (Nat.le_max_right _ _) (NewParser input)).1 hne
      have h2 := (parse_mono (canonicalFuel input) (max (canonicalFuel input) (fuel + 1))
        (Nat.le_max_left _ _) (NewParser input)).1 (parseValue_canonical input)
      have hcan : parseValue (canonicalFuel input) (NewParser input) = (.ok, pz) := by
        rw [← h2, h1, hpv]
      unfold ValidateJSON ParseJSON
      rw [if_neg (by intro hcontra; exact hcontra.2 htype)]
      rw [hcan]
      dsimp only
      rw [if_neg (by intro hne2; exact hne2 (by rw [hcz]; exact hE))]
  · intro s
    have hp0 : NewParser (List.replicate 20 91 ++ s) =
        ⟨⟨List.replicate 20 91 ++ s, 1⟩, ⟨.LEFT_BRACKET, "[", 0⟩, 1, 0⟩ := by
      unfold NewParser advance NewTokenizer
      rw [NextToken_lbracket ⟨List.replicate 20 91 ++ s, 0⟩
        (by show 0 < (List.replicate 20 91 ++ s).length; simp)
        (byteAt_replicate91 s 0 (by omega))]
    obtain ⟨F, hF⟩ : ∃ F, canonicalFuel (List.replicate 20 91 ++ s) = F + 1 :=
      ⟨canonicalFuel (List.replicate 20 91 ++ s) - 1, by unfold canonicalFuel; omega⟩
    have hFbig : 58 ≤ F := by
      have hlen : (List.replicate 20 91 ++ s).length = 20 + s.length := by
        simp
        omega
      unfold canonicalFuel at hF
      rw [hlen] at hF
      omega
    have hnest := parseArray_nest s 19 (by omega) F
      ⟨⟨List.replicate 20 91 ++ s, 1⟩, ⟨.LEFT_BRACKET, "[", 0⟩, 1, 0⟩
      (by omega) (by rw [show (20 - 19 : Nat) = 1 from rfl]) rfl
      (by show (0 : Int) = 19 - ((19 : Nat) : Int); decide)
    unfold ValidateJSON ParseJSON
    rw [hp0, hF]
    rw [if_neg (by intro hcontra; exact hcontra.2 rfl)]
    have hdisp : parseValue (F + 1)
        (⟨⟨List.replicate 20 91 ++ s, 1⟩, ⟨.LEFT_BRACKET, "[", 0⟩, 1, 0⟩ : Parser) =
        parseArray F
        (⟨⟨List.replicate 20 91 ++ s, 1⟩, ⟨.LEFT_BRACKET, "[", 0⟩, 1, 0⟩ : Parser) := by
      rw [parseValue]
    rw [hdisp]
    rcases hres : parseArray F
        (⟨⟨List.replicate 20 91 ++ s, 1⟩, ⟨.LEFT_BRACKET, "[", 0⟩, 1, 0⟩ : Parser)
      with ⟨rv, pv⟩
    rw [hres] at hnest
    dsimp only at hnest
    rw [hnest]

/-- Witness for C3: the empty array `[]` is derivable at budget 1 and accepted,
and 20 opening brackets followed by `]` hit the depth error. -/
theorem claimC3_witness :
    ValidateJSON [91, 93] = .ok ∧
    ValidateJSON (List.replicate 20 91 ++ [93]) =
      .err (fmtErr "maximum nesting depth of 19 exceeded" 19) :=
  ⟨claimC3.1 [91, 93] .arr 1 [⟨.LEFT_BRACKET, "[", 0⟩, ⟨.RIGHT_BRACKET, "]", 1⟩]
      ⟨.EOF, "", 2⟩ ⟨[91, 93], 2⟩ (Or.inr rfl) (GD.arr_empty 0 "[" 0 "]" 1)
      (by decide)
      (Feeds.cons _ _ _ _ _ (Feeds.cons _ _ _ _ _ (Feeds.nil _ _)))
      rfl,
    claimC3.2 [93]⟩

/-! ### Scanning an input extended past a NUL byte (C6) -/

/-- Below and at the boundary `x.length`, the bytes of `x ++ 0 :: s` read
exactly like those of `x`: out of range both reads give the 0 sentinel, and at
the boundary the appended NUL byte is itself 0. -/
theorem byteAt_ext (x s : List Nat) (p : Nat) (hp : p ≤ x.length) :
    byteAt (x ++ 0 :: s) p = byteAt x p := by
  unfold byteAt
  rcases Nat.lt_or_ge p x.length with hlt | hge
  · rw [List.getD_eq_getElem _ _ (by simp; omega)]
    rw [List.getD_eq_getElem _ _ hlt]
    exact List.getElem_append_left hlt
  · have hpe : p = x.length := by omega
    subst hpe
    rw [List.getD_eq_getElem _ _ (by simp)]
    rw [List.getD_eq_default _ _ (Nat.le_refl _)]
    rw [List.getElem_append_right (Nat.le_refl _)]
    simp

theorem byteAt_nonzero_lt (x : List Nat) (p : Nat) (h : byteAt x p ≠ 0) :
    p < x.length := by
  by_contra hc
  exact h (by unfold byteAt; rw [List.getD_eq_default _ _ (by omega)])

/-- At the boundary the extended input holds the NUL byte. -/
theorem byteAt_boundary (x s : List Nat) : byteAt (x ++ 0 :: s) x.length = 0 := by
  rw [byteAt_ext x s _ (Nat.le_refl _)]
  unfold byteAt
  rw [List.getD_eq_default _ _ (Nat.le_refl _)]

/-- The whitespace skip never moves past the boundary NUL byte. -/
theorem skipWhitespaceF_boundary (x s : List Nat) : ∀ n2 : Nat,
    skipWhitespaceF n2 ⟨x ++ 0 :: s, x.length⟩ = ⟨x ++ 0 :: s, x.length⟩ := by
  intro n2
  cases n2 with
  | zero => rfl
  | succ m =>
    rw [skipWhitespaceF]
    split
    · rw [show byteAt (x ++ 0 :: s) (⟨x ++ 0 :: s, x.length⟩ : Tokenizer).position = 0 from
        byteAt_boundary x s]
      simp [isSpace]
    · rfl

/-- The whitespace skip behaves identically on `x` and on `x ++ 0 :: s` from
any common cursor within `x`. -/
theorem skipWhitespaceF_ext (x s : List Nat) : ∀ (n1 n2 p : Nat),
    p ≤ x.length → x.length ≤ p + n1 → (x ++ 0 :: s).length ≤ p + n2 →
    (skipWhitespaceF n1 ⟨x, p⟩).position =
      (skipWhitespaceF n2 ⟨x ++ 0 :: s, p⟩).position ∧
    (skipWhitespaceF n1 ⟨x, p⟩).position ≤ x.length := by
  intro n1
  induction n1 with
  | zero =>
    intro n2 p hp h1 h2
    have hpe : p = x.length := by omega
    subst hpe
    rw [skipWhitespaceF_boundary x s n2]
    exact ⟨rfl, Nat.le_refl _⟩
  | succ n ih =>
    intro n2 p hp h1 h2
    rcases Nat.lt_or_ge p x.length with hlt | hge
    · rcases n2 with _ | m
      · exfalso
        simp at h2
        omega
      · rw [skipWhitespaceF, skipWhitespaceF]
        rw [if_pos (show (⟨x, p⟩ : Tokenizer).position < x.length from hlt)]
        rw [if_pos (show (⟨x ++ 0 :: s, p⟩ : Tokenizer).position <
          (x ++ 0 :: s).length from by simp; omega)]
        rw [show byteAt (x ++ 0 :: s) (⟨x ++ 0 :: s, p⟩ : Tokenizer).position =
          byteAt x p from byteAt_ext x s p hp]
        rcases hsp : isSpace (byteAt x p) with _ | _
        · rw [if_neg (by simp)]
          rw [if_neg (by simp)]
          exact ⟨rfl, hp⟩
        · rw [if_pos rfl]
          rw [if_pos rfl]
          exact ih m (p + 1) (by omega) (by omega) (by simp at h2 ⊢; omega)
    · have hpe : p = x.length := by omega
      subst hpe
      rw [skipWhitespaceF_boundary x s n2]
      rw [skipWhitespaceF]
      rw [if_neg (by show ¬ x.length < x.length; omega)]
      exact ⟨rfl, Nat.le_refl _⟩

/-- The digit run stops at the boundary NUL on the extended input. -/
theorem readDigitsF_boundary (x s : List Nat) (acc : String) : ∀ n2 : Nat,
    readDigitsF n2 ⟨x ++ 0 :: s, x.length⟩ acc = (acc, ⟨x ++ 0 :: s, x.length⟩) := by
  intro n2
  cases n2 with
  | zero => rfl
  | succ m =>
    rw [readDigitsF]
    split
    · rw [show byteAt (x ++ 0 :: s) (⟨x ++ 0 :: s, x.length⟩ : Tokenizer).position = 0 from
        byteAt_boundary x s]
      simp [isDigit]
    · rfl

/-- The digit run behaves identically on `x` and on `x ++ 0 :: s` from a
common cursor within `x`. -/
theorem readDigitsF_ext (x s : List Nat) : ∀ (n1 n2 p : Nat) (acc : String),
    p ≤ x.length → x.length ≤ p + n1 → (x ++ 0 :: s).length ≤ p + n2 →
    (readDigitsF n1 ⟨x, p⟩ acc).1 = (readDigitsF n2 ⟨x ++ 0 :: s, p⟩ acc).1 ∧
    (readDigitsF n1 ⟨x, p⟩ acc).2.position =
      (readDigitsF n2 ⟨x ++ 0 :: s, p⟩ acc).2.position ∧
    (readDigitsF n1 ⟨x, p⟩ acc).2.position ≤ x.length := by
  intro n1
  induction n1 with
  | zero =>
    intro n2 p acc hp h1 h2
    have hpe : p = x.length := by omega
    subst hpe
    rw [readDigitsF_boundary x s acc n2]
    exact ⟨rfl, rfl, Nat.le_refl _⟩
  | succ n ih =>
    intro n2 p acc hp h1 h2
    rcases Nat.lt_or_ge p x.length with hlt | hge
    · rcases n2 with _ | m
      · exfalso
        simp at h2
        omega
      · rw [readDigitsF, readDigitsF]
        rw [if_pos (show (⟨x, p⟩ : Tokenizer).position < x.length from hlt)]
        rw [if_pos (show (⟨x ++ 0 :: s, p⟩ : Tokenizer).position <
          (x ++ 0 :: s).length from by simp; omega)]
        dsimp only
        rw [show byteAt (x ++ 0 :: s) p = byteAt x p from byteAt_ext x s p hp]
        rcases hdg : isDigit (byteAt x p) with _ | _
        · rw [if_neg (by simp)]
          rw [if_neg (by simp)]
          exact ⟨rfl, rfl, hp⟩
        · rw [if_pos rfl]
          rw [if_pos rfl]
          exact ih m (p + 1) _ (by omega) (by omega) (by simp at h2 ⊢; omega)
    · have hpe : p = x.length := by omega
      subst hpe
      rw [readDigitsF_boundary x s acc n2]
      rw [readDigitsF]
      rw [if_neg (by show ¬ x.length < x.length; omega)]
      exact ⟨rfl, rfl, Nat.le_refl _⟩

/-- The letter run stops at the boundary NUL on the extended input. -/
theorem readLettersF_boundary (x s : List Nat) (acc : String) : ∀ n2 : Nat,
    readLettersF n2 ⟨x ++ 0 :: s, x.length⟩ acc = (acc, ⟨x ++ 0 :: s, x.length⟩) := by
  intro n2
  cases n2 with
  | zero => rfl
  | succ m =>
    rw [readLettersF]
    split
    · rw [show byteAt (x ++ 0 :: s) (⟨x ++ 0 :: s, x.length⟩ : Tokenizer).position = 0 from
        byteAt_boundary x s]
      simp [isLetter]
    · rfl

/-- The letter run behaves identically on `x` and on `x ++ 0 :: s` from a
common cursor within `x`. -/
theorem readLettersF_ext (x s : List Nat) : ∀ (n1 n2 p : Nat) (acc : String),
    p ≤ x.length → x.length ≤ p + n1 → (x ++ 0 :: s).length ≤ p + n2 →
    (readLettersF n1 ⟨x, p⟩ acc).1 = (readLettersF n2 ⟨x ++ 0 :: s, p⟩ acc).1 ∧
    (readLettersF n1 ⟨x, p⟩ acc).2.position =
      (readLettersF n2 ⟨x ++ 0 :: s, p⟩ acc).2.position ∧
    (readLettersF n1 ⟨x, p⟩ acc).2.position ≤ x.length := by
  intro n1
  induction n1 with
  | zero =>
    intro n2 p acc hp h1 h2
    have hpe : p = x.length := by omega
    subst hpe
    rw [readLettersF_boundary x s acc n2]
    exact ⟨rfl, rfl, Nat.le_refl _⟩
  | succ n ih =>
    intro n2 p acc hp h1 h2
    rcases Nat.lt_or_ge p x.length with hlt | hge
    · rcases n2 with _ | m
      · exfalso
        simp at h2
        omega
      · rw [readLettersF, readLettersF]
        rw [if_pos (show (⟨x, p⟩ : Tokenizer).position < x.length from hlt)]
        rw [if_pos (show (⟨x ++ 0 :: s, p⟩ : Tokenizer).position <
          (x ++ 0 :: s).length from by simp; omega)]
        dsimp only
        rw [show byteAt (x ++ 0 :: s) p = byteAt x p from byteAt_ext x s p hp]
        rcases hdg : isLetter (byteAt x p) with _ | _
        · rw [if_neg (by simp)]
          rw [if_neg (by simp)]
          exact ⟨rfl, rfl, hp⟩
        · rw [if_pos rfl]
          rw [if_pos rfl]
          exact ih m (p + 1) _ (by omega) (by omega) (by simp at h2 ⊢; omega)
    · have hpe : p = x.length := by omega
      subst hpe
      rw [readLettersF_boundary x s acc n2]
      rw [readLettersF]
      rw [if_neg (by show ¬ x.length < x.length; omega)]
      exact ⟨rfl, rfl, Nat.le_refl _⟩

/-- A tokenizer whose buffer is known is the literal record on that buffer. -/
theorem tok_eta (t : Tokenizer) (a : List Nat) (h : t.input = a) :
    t = ⟨a, t.position⟩ := by
  cases t
  subst h
  rfl

/-- A byte read at or past the end of the buffer is the 0 sentinel. -/
theorem byteAt_past (x : List Nat) (q : Nat) (h : x.length ≤ q) : byteAt x q = 0 := by
  unfold byteAt
  rw [List.getD_eq_default _ _ h]

/-- The exponent scanner behaves identically on `x` and `x ++ 0 :: s` from a
common cursor within `x`: the appended NUL ends the number exactly like the
end of the buffer does. -/
theorem numberExp_ext (x s : List Nat) (p sp : Nat) (num : String) (hp : p ≤ x.length) :
    (numberExp ⟨x, p⟩ sp num).1 = (numberExp ⟨x ++ 0 :: s, p⟩ sp num).1 ∧
    (numberExp ⟨x, p⟩ sp num).2.position = (numberExp ⟨x ++ 0 :: s, p⟩ sp num).2.position ∧
    (numberExp ⟨x, p⟩ sp num).2.position ≤ x.length := by
  unfold numberExp
  try dsimp only
  rw [byteAt_ext x s p hp]
  by_cases hA : p < x.length ∧ (byteAt x p = 101 ∨ byteAt x p = 69)
  · rw [if_pos hA]
    rw [if_pos (show p < (x ++ 0 :: s).length ∧
        (byteAt x p = 101 ∨ byteAt x p = 69) from ⟨by simp; omega, hA.2⟩)]
    try dsimp only
    rw [byteAt_ext x s (p + 1) (by omega)]
    by_cases hS : p + 1 < x.length ∧ (byteAt x (p + 1) = 43 ∨ byteAt x (p + 1) = 45)
    · rw [if_pos hS]
      rw [if_pos (show p + 1 < (x ++ 0 :: s).length ∧
          (byteAt x (p + 1) = 43 ∨ byteAt x (p + 1) = 45) from ⟨by simp; omega, hS.2⟩)]
      dsimp only
      rw [byteAt_ext x s (p + 2) (by omega)]
      by_cases hB : x.length ≤ p + 2 ∨ ¬ isDigit (byteAt x (p + 2)) = true
      · have hcommon : ¬ isDigit (byteAt x (p + 2)) = true := by
          rcases hB with hB | hB
          · rw [byteAt_past x (p + 2) hB]
            simp [isDigit]
          · exact hB
        rw [if_pos (Or.inr hcommon), if_pos (Or.inr hcommon)]
        exact ⟨rfl, rfl, by dsimp only; omega⟩
      · push_neg at hB
        rw [if_neg (by push_neg; exact ⟨by omega, hB.2⟩)]
        rw [if_neg (by push_neg; exact ⟨by simp; omega, hB.2⟩)]
        unfold readDigits
        dsimp only
        obtain ⟨hv, hpos, hle⟩ := readDigitsF_ext x s (x.length - (p + 1 + 1))
          ((x ++ 0 :: s).length - (p + 1 + 1)) (p + 1 + 1)
          ((num.push (goRune (byteAt x p))).push (goRune (byteAt x (p + 1))))
          (by omega) (by omega) (by omega)
        rw [hv]
        exact ⟨rfl, hpos, hle⟩
    · rw [if_neg hS]
      rw [if_neg (show ¬(p + 1 < (x ++ 0 :: s).length ∧
          (byteAt x (p + 1) = 43 ∨ byteAt x (p + 1) = 45)) from by
        intro hc
        exact hS ⟨byteAt_nonzero_lt x (p + 1)
          (by rcases hc.2 with h | h <;> omega), hc.2⟩)]
      dsimp only
      rw [byteAt_ext x s (p + 1) (by omega)]
      by_cases hB : x.length ≤ p + 1 ∨ ¬ isDigit (byteAt x (p + 1)) = true
      · have hcommon : ¬ isDigit (byteAt x (p + 1)) = true := by
          rcases hB with hB | hB
          · rw [byteAt_past x (p + 1) hB]
            simp [isDigit]
          · exact hB
        rw [if_pos (Or.inr hcommon), if_pos (Or.inr hcommon)]
        exact ⟨rfl, rfl, by dsimp only; omega⟩
      · push_neg at hB
        rw [if_neg (by push_neg; exact ⟨by omega, hB.2⟩)]
        rw [if_neg (by push_neg; exact ⟨by simp; omega, hB.2⟩)]
        unfold readDigits
        dsimp only
        obtain ⟨hv, hpos, hle⟩ := readDigitsF_ext x s (x.length - (p + 1))
          ((x ++ 0 :: s).length - (p + 1)) (p + 1)
          (num.push (goRune (byteAt x p)))
          (by omega) (by omega) (by omega)
        rw [hv]
        exact ⟨rfl, hpos, hle⟩
  · rw [if_neg hA]
    rw [if_neg (show ¬(p < (x ++ 0 :: s).length ∧
        (byteAt x p = 101 ∨ byteAt x p = 69)) from by
      intro hc
      exact hA ⟨byteAt_nonzero_lt x p (by rcases hc.2 with h | h <;> omega), hc.2⟩)]
    exact ⟨rfl, rfl, hp⟩

/-- The fraction scanner behaves identically on `x` and `x ++ 0 :: s` from a
common cursor within `x`. -/
theorem numberFrac_ext (x s : List Nat) (p sp : Nat) (num : String) (hp : p ≤ x.length) :
    (numberFrac ⟨x, p⟩ sp num).1 = (numberFrac ⟨x ++ 0 :: s, p⟩ sp num).1 ∧
    (numberFrac ⟨x, p⟩ sp num).2.position = (numberFrac ⟨x ++ 0 :: s, p⟩ sp num).2.position ∧
    (numberFrac ⟨x, p⟩ sp num).2.position ≤ x.length := by
  unfold numberFrac
  try dsimp only
  rw [byteAt_ext x s p hp]
  by_cases hA : p < x.length ∧ byteAt x p = 46
  · rw [if_pos hA]
    rw [if_pos (show p < (x ++ 0 :: s).length ∧ byteAt x p = 46 from
      ⟨by simp; omega, hA.2⟩)]
    try dsimp only
    rw [byteAt_ext x s (p + 1) (by omega)]
    by_cases hB : x.length ≤ p + 1 ∨ ¬ isDigit (byteAt x (p + 1)) = true
    · have hcommon : ¬ isDigit (byteAt x (p + 1)) = true := by
        rcases hB with hB | hB
        · rw [byteAt_past x (p + 1) hB]
          simp [isDigit]
        · exact hB
      rw [if_pos (Or.inr hcommon), if_pos (Or.inr hcommon)]
      exact ⟨rfl, rfl, by dsimp only; omega⟩
    · push_neg at hB
      rw [if_neg (by push_neg; exact ⟨by omega, hB.2⟩)]
      rw [if_neg (by push_neg; exact ⟨by simp; omega, hB.2⟩)]
      unfold readDigits
      dsimp only
      obtain ⟨hv, hpos, hle⟩ := readDigitsF_ext x s (x.length - (p + 1))
        ((x ++ 0 :: s).length - (p + 1)) (p + 1) (num.push (goRune 46))
        (by omega) (by omega) (by omega)
      have e1 : (readDigitsF (x.length - (p + 1)) ⟨x, p + 1⟩ (num.push (goRune 46))).2 =
          ⟨x, (readDigitsF (x.length - (p + 1)) ⟨x, p + 1⟩ (num.push (goRune 46))).2.position⟩ :=
        tok_eta _ x (readDigitsF_ts _ _ _).1
      have e2 : (readDigitsF ((x ++ 0 :: s).length - (p + 1)) ⟨x ++ 0 :: s, p + 1⟩
            (num.push (goRune 46))).2 =
          ⟨x ++ 0 :: s, (readDigitsF ((x ++ 0 :: s).length - (p + 1)) ⟨x ++ 0 :: s, p + 1⟩
            (num.push (goRune 46))).2.position⟩ :=
        tok_eta _ _ (readDigitsF_ts _ _ _).1
      rw [e1, e2, ← hv, ← hpos]
      exact numberExp_ext x s _ sp _ hle
  · rw [if_neg hA]
    rw [if_neg (show ¬(p < (x ++ 0 :: s).length ∧ byteAt x p = 46) from by
      intro hc
      exact hA ⟨byteAt_nonzero_lt x p (by omega), hc.2⟩)]
    exact numberExp_ext x s p sp num hp

/-- The integer-part scanner (with the leading-zero check) behaves identically
on `x` and `x ++ 0 :: s` from a common cursor within `x`. -/
theorem numberInt_ext (x s : List Nat) (p sp : Nat) (num : String) (fc : Nat)
    (hp : p ≤ x.length) :
    (numberInt ⟨x, p⟩ sp num fc).1 = (numberInt ⟨x ++ 0 :: s, p⟩ sp num fc).1 ∧
    (numberInt ⟨x, p⟩ sp num fc).2.position =
      (numberInt ⟨x ++ 0 :: s, p⟩ sp num fc).2.position ∧
    (numberInt ⟨x, p⟩ sp num fc).2.position ≤ x.length := by
  unfold numberInt
  by_cases hz : fc = 48
  · rw [if_pos hz, if_pos hz]
    dsimp only
    rw [byteAt_ext x s p hp]
    by_cases hA : p < x.length ∧ isDigit (byteAt x p) = true
    · rw [if_pos hA]
      rw [if_pos (show p < (x ++ 0 :: s).length ∧ isDigit (byteAt x p) = true from
        ⟨by simp; omega, hA.2⟩)]
      exact ⟨rfl, rfl, hp⟩
    · rw [if_neg hA]
      rw [if_neg (show ¬(p < (x ++ 0 :: s).length ∧ isDigit (byteAt x p) = true) from by
        intro hc
        refine hA ⟨?_, hc.2⟩
        rcases Nat.lt_or_ge p x.length with h | h
        · exact h
        · exfalso
          rw [byteAt_past x p h] at hc
          simp [isDigit] at hc)]
      exact numberFrac_ext x s p sp num hp
  · rw [if_neg hz, if_neg hz]
    unfold readDigits
    dsimp only
    obtain ⟨hv, hpos, hle⟩ := readDigitsF_ext x s (x.length - p)
      ((x ++ 0 :: s).length - p) p num (by omega) (by omega) (by omega)
    have e1 : (readDigitsF (x.length - p) ⟨x, p⟩ num).2 =
        ⟨x, (readDigitsF (x.length - p) ⟨x, p⟩ num).2.position⟩ :=
      tok_eta _ x (readDigitsF_ts _ _ _).1
    have e2 : (readDigitsF ((x ++ 0 :: s).length - p) ⟨x ++ 0 :: s, p⟩ num).2 =
        ⟨x ++ 0 :: s, (readDigitsF ((x ++ 0 :: s).length - p) ⟨x ++ 0 :: s, p⟩
          num).2.position⟩ :=
      tok_eta _ _ (readDigitsF_ts _ _ _).1
    rw [e1, e2, ← hv, ← hpos]
    exact numberFrac_ext x s _ sp _ hle

/-- The number scanner on `x` and `x ++ 0 :: s` from a common cursor within
`x`: either the results agree (token, cursor within `x`), or the `x`-side
token is invalid. -/
theorem parseNumberToken_ext (x s : List Nat) (p sp : Nat) (fc : Nat)
    (hp : p ≤ x.length) :
    ((parseNumberToken ⟨x, p⟩ sp fc).1 = (parseNumberToken ⟨x ++ 0 :: s, p⟩ sp fc).1 ∧
     (parseNumberToken ⟨x, p⟩ sp fc).2.position =
       (parseNumberToken ⟨x ++ 0 :: s, p⟩ sp fc).2.position ∧
     (parseNumberToken ⟨x, p⟩ sp fc).2.position ≤ x.length) ∨
    (parseNumberToken ⟨x, p⟩ sp fc).1.type = .INVALID := by
  unfold parseNumberToken
  by_cases hm : fc = 45
  · rw [if_pos hm, if_pos hm]
    try dsimp only
    by_cases hend : p ≥ x.length
    · right
      rw [if_pos hend]
    · rw [if_neg hend]
      rw [if_neg (show ¬ p ≥ (x ++ 0 :: s).length from by simp; omega)]
      try dsimp only
      rw [byteAt_ext x s p hp]
      by_cases hdg : isDigit (byteAt x p) = true
      · rw [if_neg (by rw [hdg]; simp), if_neg (by rw [hdg]; simp)]
        exact Or.inl (numberInt_ext x s (p + 1) sp _ _ (by omega))
      · right
        rw [if_pos (by rw [show isDigit (byteAt x p) = false from by
          rcases hv : isDigit (byteAt x p) with _ | _
          · rfl
          · exact absurd hv hdg]; simp)]
  · rw [if_neg hm, if_neg hm]
    exact Or.inl (numberInt_ext x s p sp _ fc hp)

/-- The keyword scanner behaves identically on `x` and `x ++ 0 :: s` from a
common cursor within `x`. -/
theorem parseKeywordToken_ext (x s : List Nat) (p sp : Nat) (fc : Nat)
    (hp : p ≤ x.length) :
    (parseKeywordToken ⟨x, p⟩ sp fc).1 = (parseKeywordToken ⟨x ++ 0 :: s, p⟩ sp fc).1 ∧
    (parseKeywordToken ⟨x, p⟩ sp fc).2.position =
      (parseKeywordToken ⟨x ++ 0 :: s, p⟩ sp fc).2.position ∧
    (parseKeywordToken ⟨x, p⟩ sp fc).2.position ≤ x.length := by
  unfold parseKeywordToken readLetters
  try dsimp only
  obtain ⟨hv, hpos, hle⟩ := readLettersF_ext x s (x.length - p)
    ((x ++ 0 :: s).length - p) p (goRune fc).toString (by omega) (by omega) (by omega)
  have e1 : (readLettersF (x.length - p) ⟨x, p⟩ (goRune fc).toString).2 =
      ⟨x, (readLettersF (x.length - p) ⟨x, p⟩ (goRune fc).toString).2.position⟩ :=
    tok_eta _ x (readLettersF_ts _ _ _).1
  have e2 : (readLettersF ((x ++ 0 :: s).length - p) ⟨x ++ 0 :: s, p⟩
        (goRune fc).toString).2 =
      ⟨x ++ 0 :: s, (readLettersF ((x ++ 0 :: s).length - p) ⟨x ++ 0 :: s, p⟩
        (goRune fc).toString).2.position⟩ :=
    tok_eta _ _ (readLettersF_ts _ _ _).1
  rw [e1, e2, ← hv, ← hpos]
  by_cases h1 : (readLettersF (x.length - p) ⟨x, p⟩ (goRune fc).toString).1 = "true"
  · rw [if_pos h1, if_pos h1]
    exact ⟨rfl, rfl, hle⟩
  · rw [if_neg h1, if_neg h1]
    by_cases h2 : (readLettersF (x.length - p) ⟨x, p⟩ (goRune fc).toString).1 = "false"
    · rw [if_pos h2, if_pos h2]
      exact ⟨rfl, rfl, hle⟩
    · rw [if_neg h2, if_neg h2]
      by_cases h3 : (readLettersF (x.length - p) ⟨x, p⟩ (goRune fc).toString).1 = "null"
      · rw [if_pos h3, if_pos h3]
        exact ⟨rfl, rfl, hle⟩
      · rw [if_neg h3, if_neg h3]
        exact ⟨rfl, rfl, hle⟩

/-- Every failing exit of the escape switch yields an invalid token. -/
theorem handleEscape_inr_invalid (input : List Nat) (p1 sp : Nat) (res : String)
    (r : Token × Nat) (h : handleEscape input p1 sp res = .inr r) :
    r.1.type = .INVALID := by
  simp only [handleEscape] at h
  repeat' (split at h)
  all_goals first
    | (cases h; rfl)
    | cases h

/-- A successful escape step is reproduced verbatim on the extended input, and
stays within `x`: every byte the switch commits to is nonzero, hence below the
boundary. -/
theorem handleEscape_ext (x s : List Nat) (p1 sp : Nat) (res : String)
    (c : String × Nat) (hp1 : p1 ≤ x.length)
    (h : handleEscape x p1 sp res = .inl c) :
    handleEscape (x ++ 0 :: s) p1 sp res = .inl c ∧ p1 < c.2 ∧ c.2 ≤ x.length := by
  by_cases hz : byteAt x p1 = 0
  · exfalso
    have hLHS : handleEscape x p1 sp res = .inr
        (⟨.INVALID, "invalid escape sequence \x27\\" ++ (goRune 0).toString ++ "\x27",
          sp⟩, p1) := by
      unfold handleEscape
      rw [hz]
    rw [hLHS] at h
    cases h
  have hlt : p1 < x.length := byteAt_nonzero_lt x p1 hz
  have hbeq : byteAt (x ++ 0 :: s) p1 = byteAt x p1 := byteAt_ext x s p1 hp1
  by_cases h117 : byteAt x p1 = 117
  · by_cases hlen : x.length ≤ p1 + 4
    · rw [handleEscape_incomplete x p1 sp res h117 hlen] at h
      cases h
    · push_neg at hlen
      rcases ha : hexVal (byteAt x (p1 + 1)) with _ | a
      · rw [handleEscape_badhex x p1 sp res h117 hlen (Or.inl ha)] at h
        cases h
      rcases hb : hexVal (byteAt x (p1 + 2)) with _ | b
      · rw [handleEscape_badhex x p1 sp res h117 hlen (Or.inr (Or.inl hb))] at h
        cases h
      rcases hc : hexVal (byteAt x (p1 + 3)) with _ | cc
      · rw [handleEscape_badhex x p1 sp res h117 hlen (Or.inr (Or.inr (Or.inl hc)))] at h
        cases h
      rcases hd : hexVal (byteAt x (p1 + 4)) with _ | d
      · rw [handleEscape_badhex x p1 sp res h117 hlen
          (Or.inr (Or.inr (Or.inr hd)))] at h
        cases h
      rw [handleEscape_unicode x p1 sp res a b cc d h117 hlen ha hb hc hd] at h
      cases h
      refine ⟨?_, by omega, by omega⟩
      exact handleEscape_unicode (x ++ 0 :: s) p1 sp res a b cc d
        (hbeq.trans h117) (by simp; omega)
        (by rw [byteAt_ext x s (p1 + 1) (by omega)]; exact ha)
        (by rw [byteAt_ext x s (p1 + 2) (by omega)]; exact hb)
        (by rw [byteAt_ext x s (p1 + 3) (by omega)]; exact hc)
        (by rw [byteAt_ext x s (p1 + 4) (by omega)]; exact hd)
  · by_cases h34 : byteAt x p1 = 34
    · unfold handleEscape at h ⊢
      rw [h34] at h
      rw [hbeq, h34]
      cases h
      exact ⟨rfl, by omega, by omega⟩
    by_cases h92 : byteAt x p1 = 92
    · unfold handleEscape at h ⊢
      rw [h92] at h
      rw [hbeq, h92]
      cases h
      exact ⟨rfl, by omega, by omega⟩
    by_cases h47 : byteAt x p1 = 47
    · unfold handleEscape at h ⊢
      rw [h47] at h
      rw [hbeq, h47]
      cases h
      exact ⟨rfl, by omega, by omega⟩
    by_cases h98 : byteAt x p1 = 98
    · unfold handleEscape at h ⊢
      rw [h98] at h
      rw [hbeq, h98]
      cases h
      exact ⟨rfl, by omega, by omega⟩
    by_cases h102 : byteAt x p1 = 102
    · unfold handleEscape at h ⊢
      rw [h102] at h
      rw [hbeq, h102]
      cases h
      exact ⟨rfl, by omega, by omega⟩
    by_cases h110 : byteAt x p1 = 110
    · unfold handleEscape at h ⊢
      rw [h110] at h
      rw [hbeq, h110]
      cases h
      exact ⟨rfl, by omega, by omega⟩
    by_cases h114 : byteAt x p1 = 114
    · unfold handleEscape at h ⊢
      rw [h114] at h
      rw [hbeq, h114]
      cases h
      exact ⟨rfl, by omega, by omega⟩
    by_cases h116 : byteAt x p1 = 116
    · unfold handleEscape at h ⊢
      rw [h116] at h
      rw [hbeq, h116]
      cases h
      exact ⟨rfl, by omega, by omega⟩
    · exfalso
      unfold handleEscape at h
      split at h
      all_goals simp_all

/-- The string scanner on `x` and `x ++ 0 :: s` from a common cursor within
`x`: either the results agree with the cursor still within `x`, or the
`x`-side token is invalid (e.g. the string is unterminated in `x`). -/
theorem parseStringTokenF_ext (x s : List Nat) : ∀ (n1 n2 p sp : Nat) (res : String),
    p ≤ x.length → x.length ≤ p + n1 → (x ++ 0 :: s).length ≤ p + n2 →
    ((parseStringTokenF n1 ⟨x, p⟩ sp res).1 =
       (parseStringTokenF n2 ⟨x ++ 0 :: s, p⟩ sp res).1 ∧
     (parseStringTokenF n1 ⟨x, p⟩ sp res).2.position =
       (parseStringTokenF n2 ⟨x ++ 0 :: s, p⟩ sp res).2.position ∧
     (parseStringTokenF n1 ⟨x, p⟩ sp res).2.position ≤ x.length) ∨
    (parseStringTokenF n1 ⟨x, p⟩ sp res).1.type = .INVALID := by
  intro n1
  induction n1 with
  | zero =>
    intro n2 p sp res hp h1 h2
    right
    rfl
  | succ n ih =>
    intro n2 p sp res hp h1 h2
    by_cases hplt : p < x.length
    case neg =>
      right
      rw [parseStringTokenF]
      rw [if_neg (show ¬ ((⟨x, p⟩ : Tokenizer).position < (⟨x, p⟩ : Tokenizer).input.length)
        from hplt)]
    case pos =>
    rcases n2 with _ | m
    · exfalso
      simp at h2
      omega
    rw [parseStringTokenF, parseStringTokenF]
    rw [if_pos (show (⟨x, p⟩ : Tokenizer).position < (⟨x, p⟩ : Tokenizer).input.length
      from hplt)]
    rw [if_pos (show (⟨x ++ 0 :: s, p⟩ : Tokenizer).position <
      (⟨x ++ 0 :: s, p⟩ : Tokenizer).input.length from by simp; omega)]
    dsimp only
    rw [byteAt_ext x s p hp]
    by_cases hq : byteAt x p = 34
    · rw [if_pos hq, if_pos hq]
      exact Or.inl ⟨rfl, rfl, by show p + 1 ≤ x.length; omega⟩
    · rw [if_neg hq, if_neg hq]
      by_cases hbs : byteAt x p = 92
      · rw [if_pos hbs, if_pos hbs]
        by_cases hterm : p + 1 ≥ x.length
        · right
          rw [if_pos hterm]
        · rw [if_neg hterm]
          rw [if_neg (show ¬ p + 1 ≥ (x ++ 0 :: s).length from by simp; omega)]
          rcases hhe : handleEscape x (p + 1) sp res with c | r
          · obtain ⟨hhe2, hlt2, hle2⟩ :=
              handleEscape_ext x s (p + 1) sp res c (by omega) hhe
            rw [hhe2]
            exact ih m c.2 sp c.1 hle2 (by omega) (by simp at h2 ⊢; omega)
          · right
            exact handleEscape_inr_invalid x (p + 1) sp res r hhe
      · rw [if_neg hbs, if_neg hbs]
        by_cases hctl : byteAt x p < 32
        · rw [if_pos hctl, if_pos hctl]
          exact Or.inl ⟨rfl, rfl, by show p ≤ x.length; omega⟩
        · rw [if_neg hctl, if_neg hctl]
          exact ih m (p + 1) sp _ (by omega) (by omega) (by simp at h2 ⊢; omega)

set_option maxHeartbeats 1000000 in
/-- One scanner step on `x` versus on `x ++ 0 :: s` from a common cursor
within `x`: the tokens agree with cursors in lockstep within `x`, or both
yield the end-of-input token, or the `x`-side token is invalid. -/
theorem NextToken_ext (x s : List Nat) (p : Nat) (hp : p ≤ x.length) :
    ((NextToken ⟨x, p⟩).1 = (NextToken ⟨x ++ 0 :: s, p⟩).1 ∧
     (NextToken ⟨x, p⟩).2.position = (NextToken ⟨x ++ 0 :: s, p⟩).2.position ∧
     (NextToken ⟨x, p⟩).2.position ≤ x.length) ∨
    ((NextToken ⟨x, p⟩).1 = (NextToken ⟨x ++ 0 :: s, p⟩).1 ∧
     (NextToken ⟨x, p⟩).1.type = .EOF) ∨
    (NextToken ⟨x, p⟩).1.type = .INVALID := by
  obtain ⟨hpos_eq, hpos_le⟩ := skipWhitespaceF_ext x s (x.length - p)
    ((x ++ 0 :: s).length - p) p hp (by omega) (by simp; omega)
  have e1 : skipWhitespaceF (x.length - p) ⟨x, p⟩ =
      ⟨x, (skipWhitespaceF (x.length - p) ⟨x, p⟩).position⟩ :=
    tok_eta _ _ (skipWhitespaceF_ts _ _).1
  have e2 : skipWhitespaceF ((x ++ 0 :: s).length - p) ⟨x ++ 0 :: s, p⟩ =
      ⟨x ++ 0 :: s,
        (skipWhitespaceF ((x ++ 0 :: s).length - p) ⟨x ++ 0 :: s, p⟩).position⟩ :=
    tok_eta _ _ (skipWhitespaceF_ts _ _).1
  unfold NextToken skipWhitespace parseStringToken
  dsimp only
  rw [e1, e2, ← hpos_eq]
  revert hpos_le
  generalize (skipWhitespaceF (x.length - p) (⟨x, p⟩ : Tokenizer)).position = q
  intro hpos_le
  unfold NextChar
  dsimp only
  by_cases hqlt : q < x.length
  case neg =>
    rw [if_pos (show q ≥ x.length from by omega)]
    rw [if_neg (show ¬ q ≥ (x ++ 0 :: s).length from by simp; omega)]
    dsimp only
    rw [show byteAt (x ++ 0 :: s) q = 0 from by
      rw [show q = x.length from by omega]
      exact byteAt_boundary x s]
    exact Or.inr (Or.inl ⟨rfl, rfl⟩)
  case pos =>
  rw [if_neg (show ¬ q ≥ x.length from by omega)]
  rw [if_neg (show ¬ q ≥ (x ++ 0 :: s).length from by simp; omega)]
  dsimp only
  rw [byteAt_ext x s q hpos_le]
  split
  next =>
    exact Or.inl ⟨rfl, rfl, by show q + 1 ≤ x.length; omega⟩
  next =>
    exact Or.inl ⟨rfl, rfl, by show q + 1 ≤ x.length; omega⟩
  next =>
    exact Or.inl ⟨rfl, rfl, by show q + 1 ≤ x.length; omega⟩
  next =>
    exact Or.inl ⟨rfl, rfl, by show q + 1 ≤ x.length; omega⟩
  next =>
    exact Or.inl ⟨rfl, rfl, by show q + 1 ≤ x.length; omega⟩
  next =>
    rcases parseStringTokenF_ext x s (x.length - (q + 1)) ((x ++ 0 :: s).length - (q + 1))
        (q + 1) q "" (by omega) (by omega) (by simp; omega) with ⟨ha, hb, hc⟩ | hinv
    · exact Or.inl ⟨ha, hb, hc⟩
    · exact Or.inr (Or.inr hinv)
  next =>
    exact Or.inl ⟨rfl, rfl, by show q + 1 ≤ x.length; omega⟩
  next =>
    exact Or.inl ⟨rfl, rfl, by show q + 1 ≤ x.length; omega⟩
  next =>
    obtain ⟨ha, hb, hc⟩ := parseKeywordToken_ext x s (q + 1) q (byteAt x q) (by omega)
    exact Or.inl ⟨ha, hb, hc⟩
  next =>
    obtain ⟨ha, hb, hc⟩ := parseKeywordToken_ext x s (q + 1) q (byteAt x q) (by omega)
    exact Or.inl ⟨ha, hb, hc⟩
  next =>
    obtain ⟨ha, hb, hc⟩ := parseKeywordToken_ext x s (q + 1) q (byteAt x q) (by omega)
    exact Or.inl ⟨ha, hb, hc⟩
  next =>
    rcases parseNumberToken_ext x s (q + 1) q (byteAt x q) (by omega) with ⟨ha, hb, hc⟩ | hinv
    · exact Or.inl ⟨ha, hb, hc⟩
    · exact Or.inr (Or.inr hinv)
  next =>
    rcases parseNumberToken_ext x s (q + 1) q (byteAt x q) (by omega) with ⟨ha, hb, hc⟩ | hinv
    · exact Or.inl ⟨ha, hb, hc⟩
    · exact Or.inr (Or.inr hinv)
  next =>
    rcases parseNumberToken_ext x s (q + 1) q (byteAt x q) (by omega) with ⟨ha, hb, hc⟩ | hinv
    · exact Or.inl ⟨ha, hb, hc⟩
    · exact Or.inr (Or.inr hinv)
  next =>
    rcases parseNumberToken_ext x s (q + 1) q (byteAt x q) (by omega) with ⟨ha, hb, hc⟩ | hinv
    · exact Or.inl ⟨ha, hb, hc⟩
    · exact Or.inr (Or.inr hinv)
  next =>
    rcases parseNumberToken_ext x s (q + 1) q (byteAt x q) (by omega) with ⟨ha, hb, hc⟩ | hinv
    · exact Or.inl ⟨ha, hb, hc⟩
    · exact Or.inr (Or.inr hinv)
  next =>
    rcases parseNumberToken_ext x s (q + 1) q (byteAt x q) (by omega) with ⟨ha, hb, hc⟩ | hinv
    · exact Or.inl ⟨ha, hb, hc⟩
    · exact Or.inr (Or.inr hinv)
  next =>
    rcases parseNumberToken_ext x s (q + 1) q (byteAt x q) (by omega) with ⟨ha, hb, hc⟩ | hinv
    · exact Or.inl ⟨ha, hb, hc⟩
    · exact Or.inr (Or.inr hinv)
  next =>
    rcases parseNumberToken_ext x s (q + 1) q (byteAt x q) (by omega) with ⟨ha, hb, hc⟩ | hinv
    · exact Or.inl ⟨ha, hb, hc⟩
    · exact Or.inr (Or.inr hinv)
  next =>
    rcases parseNumberToken_ext x s (q + 1) q (byteAt x q) (by omega) with ⟨ha, hb, hc⟩ | hinv
    · exact Or.inl ⟨ha, hb, hc⟩
    · exact Or.inr (Or.inr hinv)
  next =>
    rcases parseNumberToken_ext x s (q + 1) q (byteAt x q) (by omega) with ⟨ha, hb, hc⟩ | hinv
    · exact Or.inl ⟨ha, hb, hc⟩
    · exact Or.inr (Or.inr hinv)
  next =>
    rcases parseNumberToken_ext x s (q + 1) q (byteAt x q) (by omega) with ⟨ha, hb, hc⟩ | hinv
    · exact Or.inl ⟨ha, hb, hc⟩
    · exact Or.inr (Or.inr hinv)
  next =>
    exact Or.inr (Or.inr rfl)

/-- With an end-of-input or invalid lookahead, no grammar rule can succeed:
every rule first inspects the lookahead and rejects these two kinds. -/
theorem parse_stuck (fuel : Nat) (p : Parser)
    (h : p.currentToken.type = .EOF ∨ p.currentToken.type = .INVALID) :
    (parseValue fuel p).1 ≠ .ok ∧ (parseObject fuel p).1 ≠ .ok ∧
    (parseObjectBody fuel p).1 ≠ .ok ∧ (parseObjectLoop fuel p).1 ≠ .ok ∧
    (parseKeyValuePair fuel p).1 ≠ .ok ∧ (parseArray fuel p).1 ≠ .ok ∧
    (parseArrayBody fuel p).1 ≠ .ok ∧ (parseArrayLoop fuel p).1 ≠ .ok := by
  have hkvp : ∀ g, (parseKeyValuePair g p).1 ≠ .ok := by
    intro g
    rcases g with _ | g
    · exact fun hq => nomatch hq
    · rw [parseKeyValuePair]
      rw [if_pos (by rcases h with h | h <;> (rw [h]; exact fun hc => nomatch hc))]
      exact fun hq => nomatch hq
  have hval : ∀ g, (parseValue g p).1 ≠ .ok := by
    intro g
    rcases g with _ | g
    · exact fun hq => nomatch hq
    · rw [parseValue]
      rcases h with h | h <;> rw [h] <;> exact fun hq => nomatch hq
  rcases fuel with _ | f
  · exact ⟨(fun hq => nomatch hq), (fun hq => nomatch hq), (fun hq => nomatch hq),
      (fun hq => nomatch hq), (fun hq => nomatch hq), (fun hq => nomatch hq),
      (fun hq => nomatch hq), (fun hq => nomatch hq)⟩
  refine ⟨hval _, ?_, ?_, ?_, hkvp _, ?_, ?_, ?_⟩
  · rw [parseObject]
    rw [if_pos (by rcases h with h | h <;> (rw [h]; exact fun hc => nomatch hc))]
    exact fun hq => nomatch hq
  · rw [parseObjectBody]
    rw [if_neg (by rcases h with h | h <;> (rw [h]; exact fun hc => nomatch hc))]
    rcases hk : parseKeyValuePair f p with ⟨rk, pk⟩
    rcases rk with _ | m | _
    · exact absurd (by rw [hk]) (hkvp f)
    · exact fun hq => nomatch hq
    · exact fun hq => nomatch hq
  · rw [parseObjectLoop]
    rw [if_neg (by rcases h with h | h <;> (rw [h]; exact fun hc => nomatch hc))]
    rw [if_neg (by rcases h with h | h <;> (rw [h]; exact fun hc => nomatch hc))]
    exact fun hq => nomatch hq
  · rw [parseArray]
    rw [if_pos (by rcases h with h | h <;> (rw [h]; exact fun hc => nomatch hc))]
    exact fun hq => nomatch hq
  · rw [parseArrayBody]
    rw [if_neg (by rcases h with h | h <;> (rw [h]; exact fun hc => nomatch hc))]
    rcases hk : parseValue f p with ⟨rk, pk⟩
    rcases rk with _ | m | _
    · exact absurd (by rw [hk]) (hval f)
    · exact fun hq => nomatch hq
    · exact fun hq => nomatch hq
  · rw [parseArrayLoop]
    rw [if_neg (by rcases h with h | h <;> (rw [h]; exact fun hc => nomatch hc))]
    rw [if_neg (by rcases h with h | h <;> (rw [h]; exact fun hc => nomatch hc))]
    exact fun hq => nomatch hq

/-- Advancing two simulated states in lockstep preserves the simulation. -/
theorem advance_ext (x s : List Nat) (p q : Parser)
    (hpi : p.tokenizer.input = x) (hqi : q.tokenizer.input = x ++ 0 :: s)
    (hposn : p.tokenizer.position = q.tokenizer.position)
    (hple : p.tokenizer.position ≤ x.length) (hdep : p.depth = q.depth) :
    SimR x s (advance p) (advance q) := by
  have ep : p.tokenizer = ⟨x, p.tokenizer.position⟩ := tok_eta _ _ hpi
  have eq2 : q.tokenizer = ⟨x ++ 0 :: s, p.tokenizer.position⟩ := by
    rw [tok_eta q.tokenizer _ hqi, hposn]
  have hnt := NextToken_ext x s p.tokenizer.position hple
  unfold SimR advance
  dsimp only
  rw [ep, eq2]
  refine ⟨(NextToken_ts _).1, (NextToken_ts _).1, hdep, ?_⟩
  rcases hnt with ⟨h1, h2, h3⟩ | ⟨h1, h2⟩ | h1
  · exact Or.inl ⟨h1, h2, h3⟩
  · exact Or.inr (Or.inl ⟨h1, h2⟩)
  · exact Or.inr (Or.inr h1)

/-- The deferred depth decrement preserves the simulation. -/
theorem SimR_dec (x s : List Nat) (p q : Parser) (h : SimR x s p q) :
    SimR x s { p with depth := p.depth - 1 } { q with depth := q.depth - 1 } := by
  obtain ⟨a, b, c, d⟩ := h
  exact ⟨a, b, by dsimp only; rw [c], d⟩

set_option maxHeartbeats 2000000 in
/-- The simulation: any successful run of a grammar rule over `x` is matched
by a successful run over `x ++ 0 :: s` from a simulated state, ending in
simulated states.  The NUL byte acts exactly like the end of the buffer, so
the extended run can never be observed to differ before the rule returns. -/
theorem parse_ext (x s : List Nat) : ∀ (fuel : Nat) (p q : Parser), SimR x s p q →
    (∀ p2, parseValue fuel p = (.ok, p2) →
      ∃ q2, parseValue fuel q = (.ok, q2) ∧ SimR x s p2 q2) ∧
    (∀ p2, parseObject fuel p = (.ok, p2) →
      ∃ q2, parseObject fuel q = (.ok, q2) ∧ SimR x s p2 q2) ∧
    (∀ p2, parseObjectBody fuel p = (.ok, p2) →
      ∃ q2, parseObjectBody fuel q = (.ok, q2) ∧ SimR x s p2 q2) ∧
    (∀ p2, parseObjectLoop fuel p = (.ok, p2) →
      ∃ q2, parseObjectLoop fuel q = (.ok, q2) ∧ SimR x s p2 q2) ∧
    (∀ p2, parseKeyValuePair fuel p = (.ok, p2) →
      ∃ q2, parseKeyValuePair fuel q = (.ok, q2) ∧ SimR x s p2 q2) ∧
    (∀ p2, parseArray fuel p = (.ok, p2) →
      ∃ q2, parseArray fuel q = (.ok, q2) ∧ SimR x s p2 q2) ∧
    (∀ p2, parseArrayBody fuel p = (.ok, p2) →
      ∃ q2, parseArrayBody fuel q = (.ok, q2) ∧ SimR x s p2 q2) ∧
    (∀ p2, parseArrayLoop fuel p = (.ok, p2) →
      ∃ q2, parseArrayLoop fuel q = (.ok, q2) ∧ SimR x s p2 q2) := by
  intro fuel
  induction fuel with
  | zero =>
    intro p q hsim
    exact ⟨(fun p2 h => nomatch congrArg Prod.fst h), (fun p2 h => nomatch congrArg Prod.fst h),
      (fun p2 h => nomatch congrArg Prod.fst h), (fun p2 h => nomatch congrArg Prod.fst h),
      (fun p2 h => nomatch congrArg Prod.fst h), (fun p2 h => nomatch congrArg Prod.fst h),
      (fun p2 h => nomatch congrArg Prod.fst h), (fun p2 h => nomatch congrArg Prod.fst h)⟩
  | succ fuel ih =>
    intro p q hsim
    obtain ⟨hpi, hqi, hdep, htri⟩ := hsim
    refine ⟨?_, ?_, ?_, ?_, ?_, ?_, ?_, ?_⟩
    · intro p2 hok
      rcases htri with ⟨hteq, hposn, hple⟩ | ⟨hteq, hteof⟩ | htinv
      · cases htype : p.currentToken.type
        case LEFT_BRACE =>
          rw [parseValue, htype] at hok
          have hok2 : parseObject fuel p = (.ok, p2) := hok
          obtain ⟨q2, hq2, hs2⟩ := (ih p q ⟨hpi, hqi, hdep,
            Or.inl ⟨hteq, hposn, hple⟩⟩).2.1 p2 hok2
          refine ⟨q2, ?_, hs2⟩
          rw [parseValue, show q.currentToken.type = .LEFT_BRACE from by rw [← hteq]; exact htype]
          exact hq2
        case RIGHT_BRACE =>
          rw [parseValue, htype] at hok
          exact nomatch congrArg Prod.fst hok
        case LEFT_BRACKET =>
          rw [parseValue, htype] at hok
          have hok2 : parseArray fuel p = (.ok, p2) := hok
          obtain ⟨q2, hq2, hs2⟩ := (ih p q ⟨hpi, hqi, hdep,
            Or.inl ⟨hteq, hposn, hple⟩⟩).2.2.2.2.2.1 p2 hok2
          refine ⟨q2, ?_, hs2⟩
          rw [parseValue, show q.currentToken.type = .LEFT_BRACKET from by rw [← hteq]; exact htype]
          exact hq2
        case RIGHT_BRACKET =>
          rw [parseValue, htype] at hok
          exact nomatch congrArg Prod.fst hok
        case STRING =>
          rw [parseValue, htype] at hok
          injection hok with h1 h2
          refine ⟨advance q, ?_, ?_⟩
          · rw [parseValue, show q.currentToken.type = .STRING from by rw [← hteq]; exact htype]
          · rw [← h2]
            exact advance_ext x s p q hpi hqi hposn hple hdep
        case COLON =>
          rw [parseValue, htype] at hok
          exact nomatch congrArg Prod.fst hok
        case COMMA =>
          rw [parseValue, htype] at hok
          exact nomatch congrArg Prod.fst hok
        case TRUE =>
          rw [parseValue, htype] at hok
          injection hok with h1 h2
          refine ⟨advance q, ?_, ?_⟩
          · rw [parseValue, show q.currentToken.type = .TRUE from by rw [← hteq]; exact htype]
          · rw [← h2]
            exact advance_ext x s p q hpi hqi hposn hple hdep
        case FALSE =>
          rw [parseValue, htype] at hok
          injection hok with h1 h2
          refine ⟨advance q, ?_, ?_⟩
          · rw [parseValue, show q.currentToken.type = .FALSE from by rw [← hteq]; exact htype]
          · rw [← h2]
            exact advance_ext x s p q hpi hqi hposn hple hdep
        case NULL =>
          rw [parseValue, htype] at hok
          injection hok with h1 h2
          refine ⟨advance q, ?_, ?_⟩
          · rw [parseValue, show q.currentToken.type = .NULL from by rw [← hteq]; exact htype]
          · rw [← h2]
            exact advance_ext x s p q hpi hqi hposn hple hdep
        case NUMBER =>
          rw [parseValue, htype] at hok
          injection hok with h1 h2
          refine ⟨advance q, ?_, ?_⟩
          · rw [parseValue, show q.currentToken.type = .NUMBER from by rw [← hteq]; exact htype]
          · rw [← h2]
            exact advance_ext x s p q hpi hqi hposn hple hdep
        case EOF =>
          rw [parseValue, htype] at hok
          exact nomatch congrArg Prod.fst hok
        case INVALID =>
          rw [parseValue, htype] at hok
          exact nomatch congrArg Prod.fst hok
      · exact absurd (by rw [hok]) ((parse_stuck (Nat.succ fuel) p (Or.inl hteof)).1)
      · exact absurd (by rw [hok]) ((parse_stuck (Nat.succ fuel) p (Or.inr htinv)).1)
    · intro p2 hok
      rcases htri with ⟨hteq, hposn, hple⟩ | ⟨hteq, hteof⟩ | htinv
      · by_cases hlb : p.currentToken.type = .LEFT_BRACE
        case neg =>
          rw [parseObject, if_pos hlb] at hok
          exact nomatch congrArg Prod.fst hok
        case pos =>
        rw [parseObject, if_neg (fun hc => hc hlb)] at hok
        dsimp only at hok
        by_cases hdepth : p.depth + 1 > maxNestingDepth
        · rw [if_pos hdepth] at hok
          exact nomatch congrArg Prod.fst hok
        · rw [if_neg hdepth] at hok
          rcases hbody : parseObjectBody fuel (advance { p with depth := p.depth + 1 })
            with ⟨rb, pb⟩
          rw [hbody] at hok
          dsimp only at hok
          rcases rb with _ | m | _
          · injection hok with h1 h2
            have hsim1 : SimR x s (advance { p with depth := p.depth + 1 })
                (advance { q with depth := q.depth + 1 }) :=
              advance_ext x s _ _ hpi hqi hposn hple
                (show p.depth + 1 = q.depth + 1 from by rw [hdep])
            obtain ⟨qb, hqb, hsimb⟩ := (ih _ _ hsim1).2.2.1 pb hbody
            refine ⟨{ qb with depth := qb.depth - 1 }, ?_, ?_⟩
            · rw [parseObject]
              rw [if_neg (show ¬ q.currentToken.type ≠ .LEFT_BRACE from
                fun hc => hc (by rw [← hteq]; exact hlb))]
              dsimp only
              rw [if_neg (show ¬ q.depth + 1 > maxNestingDepth from by
                rw [← hdep]; exact hdepth)]
              rw [hqb]
            · rw [← h2]
              exact SimR_dec x s pb qb hsimb
          · exact nomatch congrArg Prod.fst hok
          · exact nomatch congrArg Prod.fst hok
      · exact absurd (by rw [hok]) ((parse_stuck (Nat.succ fuel) p (Or.inl hteof)).2.1)
      · exact absurd (by rw [hok]) ((parse_stuck (Nat.succ fuel) p (Or.inr htinv)).2.1)
    · intro p2 hok
      rcases htri with ⟨hteq, hposn, hple⟩ | ⟨hteq, hteof⟩ | htinv
      · by_cases hrb : p.currentToken.type = .RIGHT_BRACE
        · rw [parseObjectBody, if_pos hrb] at hok
          injection hok with h1 h2
          refine ⟨advance q, ?_, ?_⟩
          · rw [parseObjectBody, if_pos (show q.currentToken.type = .RIGHT_BRACE from by
              rw [← hteq]; exact hrb)]
          · rw [← h2]
            exact advance_ext x s p q hpi hqi hposn hple hdep
        · rw [parseObjectBody, if_neg hrb] at hok
          rcases hkv : parseKeyValuePair fuel p with ⟨rk, pk⟩
          rw [hkv] at hok
          rcases rk with _ | m | _
          · have hok2 : parseObjectLoop fuel pk = (.ok, p2) := hok
            obtain ⟨qk, hqk, hsimk⟩ := (ih p q ⟨hpi, hqi, hdep,
              Or.inl ⟨hteq, hposn, hple⟩⟩).2.2.2.2.1 pk hkv
            obtain ⟨q2, hq2, hsim2⟩ := (ih pk qk hsimk).2.2.2.1 p2 hok2
            refine ⟨q2, ?_, hsim2⟩
            rw [parseObjectBody, if_neg (show ¬ q.currentToken.type = .RIGHT_BRACE from by
              rw [← hteq]; exact hrb), hqk]
            exact hq2
          · exact nomatch congrArg Prod.fst hok
          · exact nomatch congrArg Prod.fst hok
      · exact absurd (by rw [hok]) ((parse_stuck (Nat.succ fuel) p (Or.inl hteof)).2.2.1)
      · exact absurd (by rw [hok]) ((parse_stuck (Nat.succ fuel) p (Or.inr htinv)).2.2.1)
    · intro p2 hok
      rcases htri with ⟨hteq, hposn, hple⟩ | ⟨hteq, hteof⟩ | htinv
      · by_cases hcm : p.currentToken.type = .COMMA
        · rw [parseObjectLoop, if_pos hcm] at hok
          dsimp only at hok
          have hsimA : SimR x s (advance p) (advance q) :=
            advance_ext x s p q hpi hqi hposn hple hdep
          by_cases hrb1 : (advance p).currentToken.type = .RIGHT_BRACE
          · rw [if_pos hrb1] at hok
            exact nomatch congrArg Prod.fst hok
          · rw [if_neg hrb1] at hok
            rcases hkv : parseKeyValuePair fuel (advance p) with ⟨rk, pk⟩
            rw [hkv] at hok
            rcases rk with _ | m | _
            · have hok2 : parseObjectLoop fuel pk = (.ok, p2) := hok
              obtain ⟨qk, hqk, hsimk⟩ := (ih _ _ hsimA).2.2.2.2.1 pk hkv
              obtain ⟨q2, hq2, hsim2⟩ := (ih pk qk hsimk).2.2.2.1 p2 hok2
              have hrbq : ¬ (advance q).currentToken.type = .RIGHT_BRACE := by
                obtain ⟨hA1, hA2, hA3, htriA⟩ := hsimA
                rcases htriA with ⟨ht1, ht2, ht3⟩ | ⟨ht1, ht2⟩ | ht1
                · rw [← ht1]; exact hrb1
                · rw [← ht1]; exact hrb1
                · exact absurd (by rw [hkv])
                    ((parse_stuck fuel (advance p) (Or.inr ht1)).2.2.2.2.1)
              refine ⟨q2, ?_, hsim2⟩
              rw [parseObjectLoop, if_pos (show q.currentToken.type = .COMMA from by
                rw [← hteq]; exact hcm)]
              dsimp only
              rw [if_neg hrbq, hqk]
              exact hq2
            · exact nomatch congrArg Prod.fst hok
            · exact nomatch congrArg Prod.fst hok
        · by_cases hrb : p.currentToken.type = .RIGHT_BRACE
          · rw [parseObjectLoop, if_neg hcm, if_pos hrb] at hok
            injection hok with h1 h2
            refine ⟨advance q, ?_, ?_⟩
            · rw [parseObjectLoop, if_neg (show ¬ q.currentToken.type = .COMMA from by
                rw [← hteq]; exact hcm), if_pos (show q.currentToken.type = .RIGHT_BRACE from by
                rw [← hteq]; exact hrb)]
            · rw [← h2]
              exact advance_ext x s p q hpi hqi hposn hple hdep
          · rw [parseObjectLoop, if_neg hcm, if_neg hrb] at hok
            exact nomatch congrArg Prod.fst hok
      · exact absurd (by rw [hok]) ((parse_stuck (Nat.succ fuel) p (Or.inl hteof)).2.2.2.1)
      · exact absurd (by rw [hok]) ((parse_stuck (Nat.succ fuel) p (Or.inr htinv)).2.2.2.1)
    · intro p2 hok
      rcases htri with ⟨hteq, hposn, hple⟩ | ⟨hteq, hteof⟩ | htinv
      · by_cases hstr : p.currentToken.type = .STRING
        case neg =>
          rw [parseKeyValuePair, if_pos hstr] at hok
          exact nomatch congrArg Prod.fst hok
        case pos =>
        rw [parseKeyValuePair, if_neg (fun hc => hc hstr)] at hok
        dsimp only at hok
        have hsimA : SimR x s (advance p) (advance q) :=
          advance_ext x s p q hpi hqi hposn hple hdep
        by_cases hcol : (advance p).currentToken.type = .COLON
        case neg =>
          rw [if_pos hcol] at hok
          exact nomatch congrArg Prod.fst hok
        case pos =>
        rw [if_neg (fun hc => hc hcol)] at hok
        obtain ⟨hA1, hA2, hA3, htriA⟩ := hsimA
        have hsync : (advance p).currentToken = (advance q).currentToken ∧
            (advance p).tokenizer.position = (advance q).tokenizer.position ∧
            (advance p).tokenizer.position ≤ x.length := by
          rcases htriA with h | ⟨h1, h2⟩ | h1
          · exact h
          · exact absurd hcol (by rw [h2]; exact fun hc => nomatch hc)
          · exact absurd hcol (by rw [h1]; exact fun hc => nomatch hc)
        have hsimB : SimR x s (advance (advance p)) (advance (advance q)) :=
          advance_ext x s _ _ hA1 hA2 hsync.2.1 hsync.2.2 hA3
        obtain ⟨q2, hq2, hsim2⟩ := (ih _ _ hsimB).1 p2 hok
        refine ⟨q2, ?_, hsim2⟩
        rw [parseKeyValuePair, if_neg (show ¬ q.currentToken.type ≠ .STRING from
          fun hc => hc (by rw [← hteq]; exact hstr))]
        dsimp only
        rw [if_neg (show ¬ (advance q).currentToken.type ≠ .COLON from
          fun hc => hc (by rw [← hsync.1]; exact hcol))]
        exact hq2
      · exact absurd (by rw [hok]) ((parse_stuck (Nat.succ fuel) p (Or.inl hteof)).2.2.2.2.1)
      · exact absurd (by rw [hok]) ((parse_stuck (Nat.succ fuel) p (Or.inr htinv)).2.2.2.2.1)
    · intro p2 hok
      rcases htri with ⟨hteq, hposn, hple⟩ | ⟨hteq, hteof⟩ | htinv
      · by_cases hlb : p.currentToken.type = .LEFT_BRACKET
        case neg =>
          rw [parseArray, if_pos hlb] at hok
          exact nomatch congrArg Prod.fst hok
        case pos =>
        rw [parseArray, if_neg (fun hc => hc hlb)] at hok
        dsimp only at hok
        by_cases hdepth : p.depth + 1 > maxNestingDepth
        · rw [if_pos hdepth] at hok
          exact nomatch congrArg Prod.fst hok
        · rw [if_neg hdepth] at hok
          rcases hbody : parseArrayBody fuel (advance { p with depth := p.depth + 1 })
            with ⟨rb, pb⟩
          rw [hbody] at hok
          dsimp only at hok
          rcases rb with _ | m | _
          · injection hok with h1 h2
            have hsim1 : SimR x s (advance { p with depth := p.depth + 1 })
                (advance { q with depth := q.depth + 1 }) :=
              advance_ext x s _ _ hpi hqi hposn hple
                (show p.depth + 1 = q.depth + 1 from by rw [hdep])
            obtain ⟨qb, hqb, hsimb⟩ := (ih _ _ hsim1).2.2.2.2.2.2.1 pb hbody
            refine ⟨{ qb with depth := qb.depth - 1 }, ?_, ?_⟩
            · rw [parseArray]
              rw [if_neg (show ¬ q.currentToken.type ≠ .LEFT_BRACKET from
                fun hc => hc (by rw [← hteq]; exact hlb))]
              dsimp only
              rw [if_neg (show ¬ q.depth + 1 > maxNestingDepth from by
                rw [← hdep]; exact hdepth)]
              rw [hqb]
            · rw [← h2]
              exact SimR_dec x s pb qb hsimb
          · exact nomatch congrArg Prod.fst hok
          · exact nomatch congrArg Prod.fst hok
      · exact absurd (by rw [hok]) ((parse_stuck (Nat.succ fuel) p (Or.inl hteof)).2.2.2.2.2.1)
      · exact absurd (by rw [hok]) ((parse_stuck (Nat.succ fuel) p (Or.inr htinv)).2.2.2.2.2.1)
    · intro p2 hok
      rcases htri with ⟨hteq, hposn, hple⟩ | ⟨hteq, hteof⟩ | htinv
      · by_cases hrb : p.currentToken.type = .RIGHT_BRACKET
        · rw [parseArrayBody, if_pos hrb] at hok
          injection hok with h1 h2
          refine ⟨advance q, ?_, ?_⟩
          · rw [parseArrayBody, if_pos (show q.currentToken.type = .RIGHT_BRACKET from by
              rw [← hteq]; exact hrb)]
          · rw [← h2]
            exact advance_ext x s p q hpi hqi hposn hple hdep
        · rw [parseArrayBody, if_neg hrb] at hok
          rcases hkv : parseValue fuel p with ⟨rk, pk⟩
          rw [hkv] at hok
          rcases rk with _ | m | _
          · have hok2 : parseArrayLoop fuel pk = (.ok, p2) := hok
            obtain ⟨qk, hqk, hsimk⟩ := (ih p q ⟨hpi, hqi, hdep,
              Or.inl ⟨hteq, hposn, hple⟩⟩).1 pk hkv
            obtain ⟨q2, hq2, hsim2⟩ := (ih pk qk hsimk).2.2.2.2.2.2.2 p2 hok2
            refine ⟨q2, ?_, hsim2⟩
            rw [parseArrayBody, if_neg (show ¬ q.currentToken.type = .RIGHT_BRACKET from by
              rw [← hteq]; exact hrb), hqk]
            exact hq2
          · exact nomatch congrArg Prod.fst hok
          · exact nomatch congrArg Prod.fst hok
      · exact absurd (by rw [hok]) ((parse_stuck (Nat.succ fuel) p (Or.inl hteof)).2.2.2.2.2.2.1)
      · exact absurd (by rw [hok]) ((parse_stuck (Nat.succ fuel) p (Or.inr htinv)).2.2.2.2.2.2.1)
    · intro p2 hok
      rcases htri with ⟨hteq, hposn, hple⟩ | ⟨hteq, hteof⟩ | htinv
      · by_cases hcm : p.currentToken.type = .COMMA
        · rw [parseArrayLoop, if_pos hcm] at hok
          dsimp only at hok
          have hsimA : SimR x s (advance p) (advance q) :=
            advance_ext x s p q hpi hqi hposn hple hdep
          by_cases hrb1 : (advance p).currentToken.type = .RIGHT_BRACKET
          · rw [if_pos hrb1] at hok
            exact nomatch congrArg Prod.fst hok
          · rw [if_neg hrb1] at hok
            rcases hkv : parseValue fuel (advance p) with ⟨rk, pk⟩
            rw [hkv] at hok
            rcases rk with _ | m | _
            · have hok2 : parseArrayLoop fuel pk = (.ok, p2) := hok
              obtain ⟨qk, hqk, hsimk⟩ := (ih _ _ hsimA).1 pk hkv
              obtain ⟨q2, hq2, hsim2⟩ := (ih pk qk hsimk).2.2.2.2.2.2.2 p2 hok2
              have hrbq : ¬ (advance q).currentToken.type = .RIGHT_BRACKET := by
                obtain ⟨hA1, hA2, hA3, htriA⟩ := hsimA
                rcases htriA with ⟨ht1, ht2, ht3⟩ | ⟨ht1, ht2⟩ | ht1
                · rw [← ht1]; exact hrb1
                · rw [← ht1]; exact hrb1
                · exact absurd (by rw [hkv])
                    ((parse_stuck fuel (advance p) (Or.inr ht1)).1)
              refine ⟨q2, ?_, hsim2⟩
              rw [parseArrayLoop, if_pos (show q.currentToken.type = .COMMA from by
                rw [← hteq]; exact hcm)]
              dsimp only
              rw [if_neg hrbq, hqk]
              exact hq2
            · exact nomatch congrArg Prod.fst hok
            · exact nomatch congrArg Prod.fst hok
        · by_cases hrb : p.currentToken.type = .RIGHT_BRACKET
          · rw [parseArrayLoop, if_neg hcm, if_pos hrb] at hok
            injection hok with h1 h2
            refine ⟨advance q, ?_, ?_⟩
            · rw [parseArrayLoop, if_neg (show ¬ q.currentToken.type = .COMMA from by
                rw [← hteq]; exact hcm), if_pos (show q.currentToken.type = .RIGHT_BRACKET from by
                rw [← hteq]; exact hrb)]
            · rw [← h2]
              exact advance_ext x s p q hpi hqi hposn hple hdep
          · rw [parseArrayLoop, if_neg hcm, if_neg hrb] at hok
            exact nomatch congrArg Prod.fst hok
      · exact absurd (by rw [hok]) ((parse_stuck (Nat.succ fuel) p (Or.inl hteof)).2.2.2.2.2.2.2)
      · exact absurd (by rw [hok]) ((parse_stuck (Nat.succ fuel) p (Or.inr htinv)).2.2.2.2.2.2.2)

/-- Scanning at a NUL byte inside the buffer yields the end-of-input token:
`NextChar` returns the 0 sentinel for the byte itself, which the token switch
classifies as end of input. -/
theorem NextToken_nul (t : Tokenizer) (hlt : t.position < t.input.length)
    (h0 : byteAt t.input t.position = 0) :
    NextToken t = (⟨.EOF, "", t.position⟩, ⟨t.input, t.position + 1⟩) := by
  unfold NextToken
  rw [skipWhitespace_stop t (by rw [h0]; rfl)]
  dsimp only
  unfold NextChar
  rw [if_neg (by omega)]
  dsimp only
  rw [h0]

/-- C6: a literal NUL byte outside a string literal is classified by the
scanner as end of input (`NextChar` hands the 0 byte to the switch, which
returns the EOF token), and consequently appending `0x00` followed by any
bytes to an accepted input leaves it accepted: trailing content after a NUL
byte is silently ignored. -/
theorem claimC6 :
    (∀ t : Tokenizer, t.position < t.input.length → byteAt t.input t.position = 0 →
      NextToken t = (⟨.EOF, "", t.position⟩, ⟨t.input, t.position + 1⟩)) ∧
    (∀ x s : List Nat, ValidateJSON x = .ok → ValidateJSON (x ++ 0 :: s) = .ok) := by
  refine ⟨NextToken_nul, ?_⟩
  intro x s hok
  unfold ValidateJSON ParseJSON at hok
  by_cases hguard : (NewParser x).currentToken.type ≠ .LEFT_BRACE ∧
    (NewParser x).currentToken.type ≠ .LEFT_BRACKET
  · rw [if_pos hguard] at hok
    exact absurd hok (fun hc => nomatch hc)
  · rw [if_neg hguard] at hok
    rcases hpv : parseValue (canonicalFuel x) (NewParser x) with ⟨rv, pv⟩
    rw [hpv] at hok
    rcases rv with _ | m | _
    · dsimp only at hok
      by_cases heof : pv.currentToken.type = .EOF
      case neg =>
        rw [if_pos heof] at hok
        exact absurd hok (fun hc => nomatch hc)
      case pos =>
      have hsim0 : SimR x s (NewParser x) (NewParser (x ++ 0 :: s)) := by
        unfold NewParser NewTokenizer
        exact advance_ext x s _ _ rfl rfl rfl (Nat.zero_le _) rfl
      obtain ⟨q2, hq2, hsim2⟩ := (parse_ext x s (canonicalFuel x) _ _ hsim0).1 pv
        (by rw [hpv])
      have hfle : canonicalFuel x ≤ canonicalFuel (x ++ 0 :: s) := by
        unfold canonicalFuel
        simp
        all_goals omega
      have hq2b : parseValue (canonicalFuel (x ++ 0 :: s)) (NewParser (x ++ 0 :: s)) =
          (.ok, q2) := by
        rw [(parse_mono (canonicalFuel x) (canonicalFuel (x ++ 0 :: s)) hfle _).1
          (by rw [hq2]; exact fun hc => nomatch hc), hq2]
      obtain ⟨h01, h02, h03, htri0⟩ := hsim0
      have htok0 : (NewParser x).currentToken = (NewParser (x ++ 0 :: s)).currentToken := by
        rcases htri0 with ⟨h1, _, _⟩ | ⟨h1, _⟩ | h1
        · exact h1
        · exact h1
        · exfalso
          rcases not_and_or.mp hguard with hg | hg
          · rw [not_not.mp hg] at h1
            exact nomatch h1
          · rw [not_not.mp hg] at h1
            exact nomatch h1
      unfold ValidateJSON ParseJSON
      rw [if_neg (by rw [← htok0]; exact hguard)]
      rw [hq2b]
      dsimp only
      rw [if_neg (show ¬ q2.currentToken.type ≠ .EOF from fun hc => hc (by
        obtain ⟨g1, g2, g3, gtri⟩ := hsim2
        rcases gtri with ⟨t1, _, _⟩ | ⟨t1, _⟩ | t1
        · rw [← t1]
          exact heof
        · rw [← t1]
          exact heof
        · exact absurd heof (by rw [t1]; exact fun hcc => nomatch hcc)))]
    · exact absurd hok (fun hc => nomatch hc)
    · exact absurd hok (fun hc => nomatch hc)

/-- Witness for C6: the NUL byte of `[0x00, '[']` scans as end of input, and
`[]` stays accepted when `0x00 { 7` is appended. -/
theorem claimC6_witness :
    (⟨[0, 91], 0⟩ : Tokenizer).position < (⟨[0, 91], 0⟩ : Tokenizer).input.length ∧
    byteAt [0, 91] 0 = 0 ∧
    NextToken ⟨[0, 91], 0⟩ = (⟨.EOF, "", 0⟩, ⟨[0, 91], 1⟩) ∧
    ValidateJSON [91, 93] = .ok ∧
    ValidateJSON ([91, 93] ++ 0 :: [123, 55]) = .ok :=
  ⟨by decide, by decide, claimC6.1 ⟨[0, 91], 0⟩ (by decide) (by decide),
   by decide, claimC6.2 [91, 93] [123, 55] (by decide)⟩

/-- C2: `ValidateJSON` terminates on every input: the canonical fuel is never
exhausted, any larger fuel computes the same verdict (the recursion genuinely
terminates with this value), and the scanner cursor is monotone, strictly
advancing on every token before end of input. -/
theorem claimC2 :
    (∀ input : List Nat, ValidateJSON input ≠ .fuelOut) ∧
    (∀ (input : List Nat) (fuel : Nat), canonicalFuel input ≤ fuel →
      (ParseJSON fuel (NewParser input)).1 = ValidateJSON input) ∧
    (∀ t : Tokenizer, TState t (NextToken t).2 ∧
      ((NextToken t).1.type ≠ .EOF → t.position < (NextToken t).2.position)) :=
  ⟨ValidateJSON_total, fun input fuel h => ParseJSON_fuel_indep input fuel h,
   NextToken_state⟩

/-- Witness for C2 at the input `[1, 2]` and fuel 200. -/
theorem claimC2_witness :
    ValidateJSON (asciiBytes "[1, 2]") ≠ .fuelOut ∧
    canonicalFuel (asciiBytes "[1, 2]") ≤ 200 ∧
    (ParseJSON 200 (NewParser (asciiBytes "[1, 2]"))).1 =
      ValidateJSON (asciiBytes "[1, 2]") :=
  ⟨claimC2.1 (asciiBytes "[1, 2]"), by decide,
   claimC2.2.1 (asciiBytes "[1, 2]") 200 (by decide)⟩

/-- C4 counterexample: `validate("013")` reports the top-level restriction
error at position 0, not the leading-zero message the claim promises. -/
theorem claimC4_counterexample :
    ValidateJSON (asciiBytes "013") = .err (fmtErr "JSON must be an object or array" 0) ∧
    ValidateJSON (asciiBytes "013") ≠ .err "numbers cannot have leading zeros" ∧
    ValidateJSON (asciiBytes "013") ≠
      .err (fmtErr "numbers cannot have leading zeros" 0) := by
  refine ⟨by decide, by decide, by decide⟩

/-- C4 (amended): on `013` the top-level object/array restriction fires first,
yielding `JSON must be an object or array at position 0`; the scanner does
flag the leading zero (the first token is the invalid leading-zero token), but
`ParseJSON` checks the top-level restriction before reading the value. -/
theorem claimC4 :
    ValidateJSON (asciiBytes "013") = .err (fmtErr "JSON must be an object or array" 0) ∧
    (nthTokenState (asciiBytes "013") 0).1 =
      ⟨.INVALID, "numbers cannot have leading zeros", 0⟩ := by
  refine ⟨by decide, by decide⟩

/-- C5 counterexample: on the buffer `0x00 [`, the first scan yields the
end-of-input token (the NUL sentinel), but the next scan yields a
`LEFT_BRACKET` token: end of input is not absorbing across a NUL byte. -/
theorem claimC5_counterexample :
    (nthTokenState [0, 91] 0).1.type = .EOF ∧
    (nthTokenState [0, 91] 1).1.type = .LEFT_BRACKET ∧
    (nthTokenState [0, 91] 1).1.type ≠ .EOF := by
  refine ⟨by decide, by decide, by decide⟩

/-- C5 (amended): on a buffer containing no NUL byte, once a call to
`NextToken` yields the end-of-input token, every subsequent call yields the
end-of-input token as well. -/
theorem claimC5 (input : List Nat) (hn : 0 ∉ input) (n m : Nat) (hnm : n ≤ m)
    (h : (nthTokenState input n).1.type = .EOF) :
    (nthTokenState input m).1.type = .EOF :=
  nthTokenState_eof_absorbing input hn n m hnm h

/-- Witness for C5 on the buffer `[`, where call 1 reaches end of input. -/
theorem claimC5_witness :
    (0 : Nat) ∉ ([91] : List Nat) ∧ 1 ≤ 3 ∧
    (nthTokenState [91] 1).1.type = .EOF ∧
    (nthTokenState [91] 3).1.type = .EOF :=
  ⟨by decide, by decide, by decide, claimC5 [91] (by decide) 1 3 (by decide) (by decide)⟩

/-- C7 counterexample: a leading vertical tab (0x0B) is skipped as whitespace
(the next token is the brace at offset 1, and `0x0B { }` validates), contrary
to the claim that only the four characters space, tab, newline and carriage
return are skipped and a vertical tab yields an invalid token. -/
theorem claimC7_counterexample :
    (nthTokenState [11, 123] 0).1 = ⟨.LEFT_BRACE, "\x7b", 1⟩ ∧
    ValidateJSON [11, 123, 125] = .ok := by
  refine ⟨by decide, by decide⟩

/-- C7 (amended): the scanner skips exactly the bytes accepted by Go\x27s
`unicode.IsSpace` in the one-byte range: tab, newline, vertical tab, form
feed, carriage return, space, NEL (0x85) and NBSP (0xA0); every byte skipped
before a token is in this set, scanning stops at the first byte outside it,
and a non-token character outside it (e.g. 0x07) yields an invalid token. -/
theorem claimC7 :
    (∀ c : Nat, isSpace c = true ↔
      c = 9 ∨ c = 10 ∨ c = 11 ∨ c = 12 ∨ c = 13 ∨ c = 32 ∨ c = 133 ∨ c = 160) ∧
    (∀ t : Tokenizer,
      (∀ i, t.position ≤ i → i < (skipWhitespace t).position →
        isSpace (byteAt t.input i) = true) ∧
      ((skipWhitespace t).position < t.input.length →
        isSpace (byteAt t.input (skipWhitespace t).position) = false)) ∧
    (nthTokenState [7] 0).1.type = .INVALID :=
  ⟨isSpace_iff, skipWhitespace_spec, by decide⟩

/-- Witness for C7 on the buffer `0x0B {`. -/
theorem claimC7_witness :
    isSpace 11 = true ∧
    isSpace (byteAt [11, 123] 0) = true ∧
    isSpace (byteAt [11, 123] (skipWhitespace ⟨[11, 123], 0⟩).position) = false :=
  ⟨(claimC7.1 11).mpr (Or.inr (Or.inr (Or.inl rfl))),
   (claimC7.2.1 ⟨[11, 123], 0⟩).1 0 (by decide) (by decide),
   (claimC7.2.1 ⟨[11, 123], 0⟩).2 (by decide)⟩

/-- C8 counterexample: on the bytes of `"é":` the colon token carries position
4, its byte offset, while its zero-based offset in code points is 3: token
positions are byte offsets, not code-point offsets. -/
theorem claimC8_counterexample :
    (nthTokenState [34, 195, 169, 34, 58] 1).1 = ⟨.COLON, ":", 4⟩ ∧
    cpLen (List.take 4 [34, 195, 169, 34, 58]) = 3 ∧
    (nthTokenState [34, 195, 169, 34, 58] 1).1.position ≠
      cpLen (List.take (nthTokenState [34, 195, 169, 34, 58] 1).1.position
        [34, 195, 169, 34, 58]) := by
  refine ⟨by decide, by decide, by decide⟩

/-- C8 (amended): each token position is the byte offset of the token\x27s first
character (the cursor after the whitespace skip), always within the buffer;
for inputs of ASCII bytes only, the byte offset coincides with the zero-based
code-point offset. -/
theorem claimC8 :
    (∀ t : Tokenizer, (NextToken t).1.position = (skipWhitespace t).position) ∧
    (∀ (input : List Nat) (n : Nat), (nthTokenState input n).1.position ≤ input.length) ∧
    (∀ input : List Nat, (∀ b ∈ input, b < 128) → ∀ n : Nat,
      cpLen (input.take (nthTokenState input n).1.position) =
        (nthTokenState input n).1.position) := by
  refine ⟨NextToken_pos, nthTokenState_pos_le, ?_⟩
  intro input h n
  exact ascii_cpLen input h _ (nthTokenState_pos_le input n)

/-- Witness for C8 on the ASCII buffer `[]`. -/
theorem claimC8_witness :
    (∀ b ∈ ([91, 93] : List Nat), b < 128) ∧
    cpLen (([91, 93] : List Nat).take (nthTokenState [91, 93] 1).1.position) =
      (nthTokenState [91, 93] 1).1.position :=
  ⟨by decide, claimC8.2.2 [91, 93] (by decide) 1⟩

set_option maxHeartbeats 4000000 in
/-- C9 counterexample: `[.5]` is rejected, but with the invalid-token error
for the bare `.` (`. at position 1`), not the missing-digit-after-decimal
message the claim promises. -/
theorem claimC9_counterexample :
    ValidateJSON (asciiBytes "[.5]") = .err (fmtErr "." 1) ∧
    ValidateJSON (asciiBytes "[.5]") ≠
      .err (fmtErr "expected digit after decimal point" 1) := by
  refine ⟨by decide, by decide⟩

set_option maxHeartbeats 4000000 in
/-- C9 (amended): in value position the literals `0`, `0.5`, `-3.14`, `1e5`
and `2.3E-10` are accepted as number tokens carrying the scanned text; `01`
and `013` are rejected for leading zeros, `1.` for a missing digit after the
decimal point, `1e` for a missing exponent digit; `.5` is rejected, but as an
invalid bare `.` token rather than with the missing-digit message. -/
theorem claimC9 :
    ValidateJSON (asciiBytes "[0]") = .ok ∧
    ValidateJSON (asciiBytes "[0.5]") = .ok ∧
    ValidateJSON (asciiBytes "[-3.14]") = .ok ∧
    ValidateJSON (asciiBytes "[1e5]") = .ok ∧
    ValidateJSON (asciiBytes "[2.3E-10]") = .ok ∧
    (nthTokenState (asciiBytes "[2.3E-10]") 1).1 = ⟨.NUMBER, "2.3E-10", 1⟩ ∧
    ValidateJSON (asciiBytes "[01]") = .err (fmtErr "numbers cannot have leading zeros" 1) ∧
    ValidateJSON (asciiBytes "[013]") = .err (fmtErr "numbers cannot have leading zeros" 1) ∧
    ValidateJSON (asciiBytes "[.5]") = .err (fmtErr "." 1) ∧
    ValidateJSON (asciiBytes "[1.]") = .err (fmtErr "expected digit after decimal point" 1) ∧
    ValidateJSON (asciiBytes "[1e]") = .err (fmtErr "expected digit in exponent" 1) := by
  refine ⟨by decide, by decide, by decide, by decide, by decide, by decide, by decide,
    by decide, by decide, by decide, by decide⟩

set_option maxHeartbeats 4000000 in
/-- C10: a `\u` escape followed by exactly four hex digits (case-insensitive)
decodes to the character with that 16-bit code point appended to the token\x27s
value; a truncated escape or a non-hex digit yields an invalid token; and the
greeting example validates with the string token decoded to
`Hello` followed by U+4E16 U+754C. -/
theorem claimC10 :
    (∀ (input : List Nat) (p1 sp : Nat) (res : String) (a b c d : Nat),
      byteAt input p1 = 117 → p1 + 4 < input.length →
      hexVal (byteAt input (p1 + 1)) = some a →
      hexVal (byteAt input (p1 + 2)) = some b →
      hexVal (byteAt input (p1 + 3)) = some c →
      hexVal (byteAt input (p1 + 4)) = some d →
      handleEscape input p1 sp res =
        .inl (res.push (goRune (((a * 16 + b) * 16 + c) * 16 + d)), p1 + 5)) ∧
    (∀ (input : List Nat) (p1 sp : Nat) (res : String),
      byteAt input p1 = 117 → input.length ≤ p1 + 4 →
      handleEscape input p1 sp res =
        .inr (⟨.INVALID, "incomplete unicode escape sequence", sp⟩, p1 + 1)) ∧
    (∀ (input : List Nat) (p1 sp : Nat) (res : String),
      byteAt input p1 = 117 → p1 + 4 < input.length →
      (hexVal (byteAt input (p1 + 1)) = none ∨ hexVal (byteAt input (p1 + 2)) = none ∨
       hexVal (byteAt input (p1 + 3)) = none ∨ hexVal (byteAt input (p1 + 4)) = none) →
      handleEscape input p1 sp res =
        .inr (⟨.INVALID, "invalid hex digit in unicode escape", sp⟩, p1 + 1)) ∧
    ValidateJSON (asciiBytes "\x7b\"greeting\": \"Hello \\u4e16\\u754c\"\x7d") = .ok ∧
    (nthTokenState (asciiBytes "\x7b\"greeting\": \"Hello \\u4e16\\u754c\"\x7d") 3).1 =
      ⟨.STRING, "Hello 世界", 13⟩ := by
  refine ⟨handleEscape_unicode, handleEscape_incomplete, handleEscape_badhex,
    by decide, by decide⟩

/-- Witness for C10 on the escape bytes `u0041`, decoding to `A`. -/
theorem claimC10_witness :
    byteAt [117, 48, 48, 52, 49] 0 = 117 ∧
    0 + 4 < ([117, 48, 48, 52, 49] : List Nat).length ∧
    hexVal (byteAt [117, 48, 48, 52, 49] (0 + 1)) = some 0 ∧
    hexVal (byteAt [117, 48, 48, 52, 49] (0 + 2)) = some 0 ∧
    hexVal (byteAt [117, 48, 48, 52, 49] (0 + 3)) = some 4 ∧
    hexVal (byteAt [117, 48, 48, 52, 49] (0 + 4)) = some 1 ∧
    handleEscape [117, 48, 48, 52, 49] 0 7 "" =
      .inl ("".push (goRune (((0 * 16 + 0) * 16 + 4) * 16 + 1)), 0 + 5) :=
  ⟨by decide, by decide, by decide, by decide, by decide, by decide,
   claimC10.1 [117, 48, 48, 52, 49] 0 7 "" 0 0 4 1 (by decide) (by decide)
     (by decide) (by decide) (by decide) (by decide)⟩

end JsonV
